import Mathlib

set_option linter.unusedSectionVars false

/-!
Shallow embedding of the best-first planning engines of `src/lib/path/`
(`astar.rs`, `dijkstra.rs`, and the shared contracts of `mod.rs`).

Modelling conventions, fixed once for the whole development:

* The generic cost type (Rust `M::Cost`, any `Ord + Eq + Default + Add`) is
  instantiated at `Int`; `Default::default()` is `0`.  The engines are generic
  over the cost type in the source, and the signed-integer instantiations
  (`i32`, `i64`, ...) are among the types the crate declares as `Cost`.
* `FnvHashMap` (a deterministic, non-randomized hash map) is embedded as an
  association list with first-match lookup and replace-or-append insertion.
  The A* `parent_map` is keyed by the node's unique integer id, which is what
  the source hashes (`Id::hash` hashes only the `id` field).
* `radix_heap::RadixHeapMap` is embedded at two levels of fidelity.  The
  simplified engines (`AStar`, `Dijkstra`) use a bare list of key/value pairs
  whose `pop` removes the entry with the greatest key (the crate pops the
  largest key first; that is why `astar.rs` wraps its keys in `Reverse`); for
  the A* engine the stored key is the cost inside the `Reverse`, so its pop
  removes a least-key entry, while the Dijkstra engine stores the raw
  accumulated cost, so its pop removes a greatest-key entry.  Among equal keys
  the entry pushed earliest is taken; the crate leaves the tie order
  unspecified.  The faithful engines (`AStarF`, `DijkstraF`) additionally
  track the crate's `top` value (the key of the last entry popped, `none` on a
  fresh or cleared heap) and enforce its monotone-push contract: a push whose
  key is on the wrong side of `top` is the crate's `panic!`, surfaced as
  `RunResult.panic`, and `optimize` seeds on `top().is_none()` exactly as the
  source does (the simplified engines seed on an empty queue instead, which
  agrees on fresh engines).  Because `dijkstra.rs` keys its heap by raw cost,
  any push of an accumulated cost above the last popped key panics in the
  program; the faithful engine is therefore the reference for every claim
  about Dijkstra runs, while the simplified one underlies invariants that
  hold for a superset of the program's runs.
* Rust's in-place mutation becomes explicit state passing; the unbounded
  `while` loop of `optimize` and the parent-chain walk of `unwind_trajectory`
  are given explicit fuel.  `optimize` returns `none` when the fuel runs out
  before the source loop would have returned; `unwind_trajectory` is run with
  fuel `id + 1`, which the strictly-decreasing-id invariant proved below shows
  is enough for every chain the engine ever builds.
* The `Sampler` is embedded as a pure function `σ → List κ`; the source allows
  sampler-internal caching but requires determinism within one search.
* `Model::init` is never invoked by either engine in the source, so it is not
  part of the embedded model.
-/

section Helpers

variable {α β : Type} [DecidableEq α]

/-- First-match association-list lookup (hash-map `get`). -/
def lookupL : List (α × β) → α → Option β
  | [], _ => none
  | (k, v) :: rest, a => if k = a then some v else lookupL rest a

/-- Replace-or-append association-list insertion (hash-map `insert`, and the
in-place `*best = child.id.clone()` update of an occupied entry). -/
def setL : List (α × β) → α → β → List (α × β)
  | [], a, b => [(a, b)]
  | (k, v) :: rest, a, b => if k = a then (a, b) :: rest else (k, v) :: setL rest a b

end Helpers

section Queues

variable {V : Type}

/-- Pop an entry with the least key (the A* heap: keys are `Reverse`d costs in
the source, and the radix heap pops the greatest key, hence the least cost).
Among equal keys the earliest-pushed entry wins. -/
def popMin : List (Int × V) → Option ((Int × V) × List (Int × V))
  | [] => none
  | x :: xs =>
    match popMin xs with
    | none => some (x, [])
    | some (m, rest) => if m.1 < x.1 then some (m, x :: rest) else some (x, xs)

/-- Pop an entry with the greatest key (the Dijkstra heap: keys are raw
accumulated costs in the source, and the radix heap pops the greatest key).
Among equal keys the earliest-pushed entry wins. -/
def popMax : List (Int × V) → Option ((Int × V) × List (Int × V))
  | [] => none
  | x :: xs =>
    match popMax xs with
    | none => some (x, [])
    | some (m, rest) => if x.1 < m.1 then some (m, x :: rest) else some (x, xs)

end Queues

/-- The planning problem contract (`Model` in `mod.rs`, with the
three-argument `cost` used by `astar.rs`/`dijkstra.rs`, plus the derived
`State::grid_position` projection and the `Control: Default` value). -/
structure Model (σ κ π : Type) where
  cost : σ → κ → σ → Int
  converge : σ → σ → Bool
  integrate : σ → κ → Option σ
  grid_position : σ → π
  default_control : κ

/-- A model that can also estimate remaining cost (`HeuristicModel`). -/
structure HeuristicModel (σ κ π : Type) extends Model σ κ π where
  heuristic : σ → σ → Int

/-- The result of optimization: accumulated cost plus the (state, control)
steps (`Trajectory` in `mod.rs`). -/
structure Trajectory (σ κ : Type) where
  cost : Int
  trajectory : List (σ × κ)
deriving DecidableEq

/-- Pathfinding failures (`PathFindingErr`). -/
inductive PathFindingErr where
  | Unreachable
  | IterationLimit (n : Nat)
deriving DecidableEq

/-- Search outcome (`PathResult`). -/
inductive PathResult (σ κ : Type) where
  | Final (t : Trajectory σ κ)
  | Intermediate (t : Trajectory σ κ)
  | Err (e : PathFindingErr)
deriving DecidableEq

/-- The A* node ordering key (`Id` in `astar.rs`): unique integer id,
priority `f` (stored `Reverse`d in the source; we store the underlying cost),
and accumulated cost `g`. -/
structure AId where
  id : Nat
  f : Int
  g : Int
deriving DecidableEq

/-- A search-tree node of the A* engine (`Node` in `astar.rs`). -/
structure ANode (σ κ : Type) where
  id : AId
  state : σ
  control : κ
deriving DecidableEq

/-- The A* engine state (`AStar` in `astar.rs`): frontier, parent map keyed by
unique node id, best-cost map keyed by grid position, and the id counter. -/
structure AStar (σ κ π : Type) where
  queue : List (Int × ANode σ κ)
  parent_map : List (Nat × ANode σ κ)
  grid : List (π × AId)
  id_counter : Nat
deriving DecidableEq

variable {σ κ π : Type} [DecidableEq κ] [DecidableEq π]

/-- Create a new A* optimizer (`AStar::new`). -/
def AStar.new : AStar σ κ π := ⟨[], [], [], 0⟩

/-- Empty the frontier, parent map and best-cost map (`AStar::clear`); the id
counter is not touched. -/
def AStar.clear (e : AStar σ κ π) : AStar σ κ π :=
  { e with queue := [], parent_map := [], grid := [] }

/-- Read-only view of the frontier as (state, control) pairs
(`AStar::inspect_queue`). -/
def AStar.inspect_queue (e : AStar σ κ π) : List (σ × κ) :=
  e.queue.map fun kv => (kv.2.state, kv.2.control)

/-- Read-only view of every discovered grid position
(`AStar::inspect_discovered`). -/
def AStar.inspect_discovered (e : AStar σ κ π) : List π :=
  e.grid.map Prod.fst

/-- The body of the `for control in sampler.sample(..)` loop of
`AStar::step`: integrate one control, allocate an id, and run the best-cost
deduplication against the grid map. -/
def AStar.expand (m : HeuristicModel σ κ π) (goal : σ) (current : ANode σ κ)
    (e : AStar σ κ π) (control : κ) : AStar σ κ π :=
  match m.integrate current.state control with
  | none => e
  | some child_state =>
    let counter := e.id_counter + 1
    let cost := current.id.g + m.cost current.state control child_state
    let heuristic := m.heuristic child_state goal
    let child : ANode σ κ := ⟨⟨counter, cost + heuristic, cost⟩, child_state, control⟩
    match lookupL e.grid (m.grid_position child.state) with
    | some best =>
      if best.g ≤ child.id.g then
        { e with id_counter := counter }
      else
        { queue := e.queue ++ [(child.id.f, child)],
          parent_map := setL e.parent_map child.id.id current,
          grid := setL e.grid (m.grid_position child.state) child.id,
          id_counter := counter }
    | none =>
        { queue := e.queue ++ [(child.id.f, child)],
          parent_map := setL e.parent_map child.id.id current,
          grid := setL e.grid (m.grid_position child.state) child.id,
          id_counter := counter }

/-- One expansion of a popped node (`AStar::step`): report convergence, or
expand every sampled control. -/
def AStar.step (m : HeuristicModel σ κ π) (goal : σ) (sampler : σ → List κ)
    (current : ANode σ κ) (e : AStar σ κ π) : Bool × AStar σ κ π :=
  if m.converge current.state goal then (true, e)
  else (false, (sampler current.state).foldl (AStar.expand m goal current) e)

/-- The parent-chain walk of `AStar::unwind_trajectory`, with explicit fuel
standing in for the source's unbounded `while let` loop. -/
def AStar.unwindAux (m : HeuristicModel σ κ π) (pm : List (Nat × ANode σ κ)) :
    Nat → ANode σ κ → List (σ × κ) → Int → List (σ × κ) × Int
  | 0, _, result, cost => (result, cost)
  | fuel + 1, current, result, cost =>
    match lookupL pm current.id.id with
    | none => (result, cost)
    | some p =>
      AStar.unwindAux m pm fuel p (result ++ [(p.state, p.control)])
        (cost + m.cost current.state current.control p.state)

/-- Follow the parents from a node up to the start node
(`AStar::unwind_trajectory`): recompute the cost by re-invoking `model.cost`
on each (child state, child control, parent state) edge, then reverse. -/
def AStar.unwind_trajectory (m : HeuristicModel σ κ π) (e : AStar σ κ π)
    (current : ANode σ κ) : Trajectory σ κ :=
  let r := AStar.unwindAux m e.parent_map (current.id.id + 1) current
    [(current.state, current.control)] 0
  ⟨r.2, r.1.reverse⟩

/-- The `while let Some((_, current)) = self.queue.pop()` loop of
`AStar::optimize`, with fuel; `none` means the fuel ran out while the source
loop would still be running. -/
def AStar.optLoop (m : HeuristicModel σ κ π) (goal : σ) (sampler : σ → List κ) :
    Nat → AStar σ κ π → Option (PathResult σ κ × AStar σ κ π)
  | 0, _ => none
  | fuel + 1, e =>
    match popMin e.queue with
    | none => some (.Err .Unreachable, e)
    | some (entry, rest) =>
      let e1 := { e with queue := rest }
      match AStar.step m goal sampler entry.2 e1 with
      | (true, e2) => some (.Final (AStar.unwind_trajectory m e2 entry.2), e2)
      | (false, e2) => AStar.optLoop m goal sampler fuel e2

/-- The seed node pushed on the frontier by `AStar::optimize` and
`AStar::next_trajectory`: id 0, `f` field set to the start heuristic,
`g = Default`, pushed under the `Default` key. -/
def AStar.seed (m : HeuristicModel σ κ π) (start goal : σ) : Int × ANode σ κ :=
  (0, ⟨⟨0, m.heuristic start goal, 0⟩, start, m.default_control⟩)

/-- Run the search to completion (`AStar::optimize`): short-circuit when the
start already converges with the goal, seed the frontier when it is empty,
then loop. -/
def AStar.optimize (fuel : Nat) (m : HeuristicModel σ κ π) (start goal : σ)
    (sampler : σ → List κ) (e : AStar σ κ π) :
    Option (PathResult σ κ × AStar σ κ π) :=
  if m.converge start goal then
    some (.Final ⟨0, [(start, m.default_control)]⟩, e)
  else
    let e1 := if e.queue.isEmpty then
      { e with queue := e.queue ++ [AStar.seed m start goal] } else e
    AStar.optLoop m goal sampler fuel e1

/-- One incremental step (`AStar::next_trajectory`): seed only a fully fresh
engine (frontier and parent map both empty), then pop and expand once. -/
def AStar.next_trajectory (m : HeuristicModel σ κ π) (start goal : σ)
    (sampler : σ → List κ) (e : AStar σ κ π) : PathResult σ κ × AStar σ κ π :=
  let e1 := if e.parent_map.isEmpty && e.queue.isEmpty then
    { e with queue := e.queue ++ [AStar.seed m start goal] } else e
  match popMin e1.queue with
  | none => (.Err .Unreachable, e1)
  | some (entry, rest) =>
    let e2 := { e1 with queue := rest }
    match AStar.step m goal sampler entry.2 e2 with
    | (true, e3) => (.Final (AStar.unwind_trajectory m e3 entry.2), e3)
    | (false, e3) => (.Intermediate (AStar.unwind_trajectory m e3 entry.2), e3)

/-- The Dijkstra node key (`Id` in `dijkstra.rs`): unique integer id and
accumulated cost `g` (stored `Reverse`d in the source but always read through
`.0`; we store the underlying cost). -/
structure DId where
  id : Nat
  g : Int
deriving DecidableEq

/-- A search-tree node of the Dijkstra engine (`Node` in `dijkstra.rs`). -/
structure DNode (σ κ : Type) where
  id : DId
  state : σ
  control : κ
deriving DecidableEq

/-- The Dijkstra engine state (`Dijkstra` in `dijkstra.rs`).  Its queue is
keyed by the raw accumulated cost (no `Reverse`), so its pop takes a
greatest-key entry. -/
structure Dijkstra (σ κ π : Type) where
  queue : List (Int × DNode σ κ)
  grid : List (π × DId)
  parent_map : List (Nat × DNode σ κ)
  id_counter : Nat
deriving DecidableEq

/-- Create a new Dijkstra optimizer (`Dijkstra::default`). -/
def Dijkstra.new : Dijkstra σ κ π := ⟨[], [], [], 0⟩

/-- The body of the `for control in sampler.sample(..)` loop of
`Dijkstra::step`. -/
def Dijkstra.expand (m : Model σ κ π) (current : DNode σ κ)
    (e : Dijkstra σ κ π) (control : κ) : Dijkstra σ κ π :=
  match m.integrate current.state control with
  | none => e
  | some child_state =>
    let counter := e.id_counter + 1
    let cost := current.id.g + m.cost current.state control child_state
    let child : DNode σ κ := ⟨⟨counter, cost⟩, child_state, control⟩
    match lookupL e.grid (m.grid_position child.state) with
    | some best =>
      if best.g ≤ child.id.g then
        { e with id_counter := counter }
      else
        { queue := e.queue ++ [(child.id.g, child)],
          grid := setL e.grid (m.grid_position child.state) child.id,
          parent_map := setL e.parent_map child.id.id current,
          id_counter := counter }
    | none =>
        { queue := e.queue ++ [(child.id.g, child)],
          grid := setL e.grid (m.grid_position child.state) child.id,
          parent_map := setL e.parent_map child.id.id current,
          id_counter := counter }

/-- One expansion of a popped node (`Dijkstra::step`). -/
def Dijkstra.step (m : Model σ κ π) (goal : σ) (sampler : σ → List κ)
    (current : DNode σ κ) (e : Dijkstra σ κ π) : Bool × Dijkstra σ κ π :=
  if m.converge current.state goal then (true, e)
  else (false, (sampler current.state).foldl (Dijkstra.expand m current) e)

/-- The parent-chain walk of `Dijkstra::unwind_trajectory`, with fuel; it
returns the accumulated pairs and the node at which the walk stopped. -/
def Dijkstra.unwindAux (pm : List (Nat × DNode σ κ)) :
    Nat → DNode σ κ → List (σ × κ) → List (σ × κ) × DNode σ κ
  | 0, current, result => (result, current)
  | fuel + 1, current, result =>
    match lookupL pm current.id.id with
    | none => (result, current)
    | some p => Dijkstra.unwindAux pm fuel p (result ++ [(p.state, p.control)])

/-- Follow the parents from a node up to the start node
(`Dijkstra::unwind_trajectory`): the accumulated sequence is not reversed, and
the reported cost is the `g` stored in the node at which the walk stopped
(after the loop, `current` is the chain's root). -/
def Dijkstra.unwind_trajectory (e : Dijkstra σ κ π) (current : DNode σ κ) :
    Trajectory σ κ :=
  let r := Dijkstra.unwindAux e.parent_map (current.id.id + 1) current
    [(current.state, current.control)]
  ⟨r.2.id.g, r.1⟩

/-- The `while let Some((_, current)) = self.queue.pop()` loop of
`Dijkstra::optimize`, with fuel. -/
def Dijkstra.optLoop (m : Model σ κ π) (goal : σ) (sampler : σ → List κ) :
    Nat → Dijkstra σ κ π → Option (PathResult σ κ × Dijkstra σ κ π)
  | 0, _ => none
  | fuel + 1, e =>
    match popMax e.queue with
    | none => some (.Err .Unreachable, e)
    | some (entry, rest) =>
      let e1 := { e with queue := rest }
      match Dijkstra.step m goal sampler entry.2 e1 with
      | (true, e2) => some (.Final (Dijkstra.unwind_trajectory e2 entry.2), e2)
      | (false, e2) => Dijkstra.optLoop m goal sampler fuel e2

/-- The seed node pushed on the frontier by `Dijkstra::optimize` and
`Dijkstra::next_trajectory`: id 0, `g = Default`, pushed under the `Default`
key. -/
def Dijkstra.seed (m : Model σ κ π) (start : σ) : Int × DNode σ κ :=
  (0, ⟨⟨0, 0⟩, start, m.default_control⟩)

/-- Run the search to completion (`Dijkstra::optimize`). -/
def Dijkstra.optimize (fuel : Nat) (m : Model σ κ π) (start goal : σ)
    (sampler : σ → List κ) (e : Dijkstra σ κ π) :
    Option (PathResult σ κ × Dijkstra σ κ π) :=
  if m.converge start goal then
    some (.Final ⟨0, [(start, m.default_control)]⟩, e)
  else
    let e1 := if e.queue.isEmpty then
      { e with queue := e.queue ++ [Dijkstra.seed m start] } else e
    Dijkstra.optLoop m goal sampler fuel e1

/-- One incremental step (`Dijkstra::next_trajectory`). -/
def Dijkstra.next_trajectory (m : Model σ κ π) (start goal : σ)
    (sampler : σ → List κ) (e : Dijkstra σ κ π) :
    PathResult σ κ × Dijkstra σ κ π :=
  let e1 := if e.parent_map.isEmpty && e.queue.isEmpty then
    { e with queue := e.queue ++ [Dijkstra.seed m start] } else e
  match popMax e1.queue with
  | none => (.Err .Unreachable, e1)
  | some (entry, rest) =>
    let e2 := { e1 with queue := rest }
    match Dijkstra.step m goal sampler entry.2 e2 with
    | (true, e3) => (.Final (Dijkstra.unwind_trajectory e3 entry.2), e3)
    | (false, e3) => (.Intermediate (Dijkstra.unwind_trajectory e3 entry.2), e3)

/-- A path in the sense of the spec: a list of controls applied from a state,
each control drawn from the sampler and accepted by `integrate`; the result is
the final state and the accumulated (forward) edge cost. -/
def runPath (m : Model σ κ π) (sampler : σ → List κ) : σ → List κ → Option (σ × Int)
  | s, [] => some (s, 0)
  | s, c :: cs =>
    if c ∈ sampler s then
      match m.integrate s c with
      | some s1 =>
        match runPath m sampler s1 cs with
        | some (t, g) => some (t, m.cost s c s1 + g)
        | none => none
      | none => none
    else none

/-- The cost obtained by re-invoking `model.cost` on each consecutive edge of
a start-to-current step list, with the arguments exactly as
`AStar::unwind_trajectory` passes them: later state, later control, earlier
state. -/
def edgeSum (m : Model σ κ π) : List (σ × κ) → Int
  | a :: b :: rest => m.cost b.1 b.2 a.1 + edgeSum m (b :: rest)
  | _ => 0

/-- The same sum read along the unreversed (current-to-start) order in which
`unwind_trajectory` accumulates its list. -/
def backSum (m : Model σ κ π) : List (σ × κ) → Int
  | a :: b :: rest => m.cost a.1 a.2 b.1 + backSum m (b :: rest)
  | _ => 0

/-- The least accumulated cost among the logged child candidates at a given
grid position, if any candidate for that position was ever generated. -/
def candMin : List (π × Int) → π → Option Int
  | [], _ => none
  | (q, g) :: rest, p =>
    match candMin rest p with
    | none => if q = p then some g else none
    | some v => if q = p then some (min g v) else some v

/-- Combine two optional candidate minima, taking `min` when both exist. -/
def optMin : Option Int → Option Int → Option Int
  | none, b => b
  | some v, none => some v
  | some v, some w => some (min v w)

/-- Instrumentation log for one A* engine: every node popped from the
frontier, every node pushed onto it, and every candidate child considered by
the deduplication check (position and accumulated cost, pruned ones
included). -/
structure ALog (σ κ π : Type) where
  pops : List (ANode σ κ)
  pushes : List (ANode σ κ)
  cands : List (π × Int)
deriving DecidableEq

/-- The empty A* log. -/
def ALog.empty : ALog σ κ π := ⟨[], [], []⟩

/-- Logged variant of `AStar.expand`; the engine component evolves exactly as
in `AStar.expand`. -/
def AStar.expandT (m : HeuristicModel σ κ π) (goal : σ) (current : ANode σ κ)
    (el : AStar σ κ π × ALog σ κ π) (control : κ) : AStar σ κ π × ALog σ κ π :=
  match m.integrate current.state control with
  | none => el
  | some child_state =>
    let e := el.1
    let log := el.2
    let counter := e.id_counter + 1
    let cost := current.id.g + m.cost current.state control child_state
    let heuristic := m.heuristic child_state goal
    let child : ANode σ κ := ⟨⟨counter, cost + heuristic, cost⟩, child_state, control⟩
    let log1 := { log with cands := log.cands ++ [(m.grid_position child.state, child.id.g)] }
    match lookupL e.grid (m.grid_position child.state) with
    | some best =>
      if best.g ≤ child.id.g then
        ({ e with id_counter := counter }, log1)
      else
        ({ queue := e.queue ++ [(child.id.f, child)],
           parent_map := setL e.parent_map child.id.id current,
           grid := setL e.grid (m.grid_position child.state) child.id,
           id_counter := counter },
         { log1 with pushes := log1.pushes ++ [child] })
    | none =>
        ({ queue := e.queue ++ [(child.id.f, child)],
           parent_map := setL e.parent_map child.id.id current,
           grid := setL e.grid (m.grid_position child.state) child.id,
           id_counter := counter },
         { log1 with pushes := log1.pushes ++ [child] })

/-- Logged variant of `AStar.step`. -/
def AStar.stepT (m : HeuristicModel σ κ π) (goal : σ) (sampler : σ → List κ)
    (current : ANode σ κ) (el : AStar σ κ π × ALog σ κ π) :
    Bool × AStar σ κ π × ALog σ κ π :=
  if m.converge current.state goal then (true, el)
  else (false, (sampler current.state).foldl (AStar.expandT m goal current) el)

/-- Logged variant of `AStar.optLoop`; pops are recorded. -/
def AStar.optLoopT (m : HeuristicModel σ κ π) (goal : σ) (sampler : σ → List κ) :
    Nat → AStar σ κ π × ALog σ κ π →
    Option (PathResult σ κ × AStar σ κ π × ALog σ κ π)
  | 0, _ => none
  | fuel + 1, el =>
    match popMin el.1.queue with
    | none => some (.Err .Unreachable, el)
    | some (entry, rest) =>
      let e1 := { el.1 with queue := rest }
      let log1 := { el.2 with pops := el.2.pops ++ [entry.2] }
      match AStar.stepT m goal sampler entry.2 (e1, log1) with
      | (true, el2) => some (.Final (AStar.unwind_trajectory m el2.1 entry.2), el2)
      | (false, el2) => AStar.optLoopT m goal sampler fuel el2

/-- Logged variant of `AStar.optimize`; the seed push is recorded. -/
def AStar.optimizeT (fuel : Nat) (m : HeuristicModel σ κ π) (start goal : σ)
    (sampler : σ → List κ) (el : AStar σ κ π × ALog σ κ π) :
    Option (PathResult σ κ × AStar σ κ π × ALog σ κ π) :=
  if m.converge start goal then
    some (.Final ⟨0, [(start, m.default_control)]⟩, el)
  else
    let el1 := if el.1.queue.isEmpty then
      ({ el.1 with queue := el.1.queue ++ [AStar.seed m start goal] },
       { el.2 with pushes := el.2.pushes ++ [(AStar.seed m start goal).2] })
      else el
    AStar.optLoopT m goal sampler fuel el1

/-- Logged variant of `AStar.next_trajectory`. -/
def AStar.next_trajectoryT (m : HeuristicModel σ κ π) (start goal : σ)
    (sampler : σ → List κ) (el : AStar σ κ π × ALog σ κ π) :
    PathResult σ κ × AStar σ κ π × ALog σ κ π :=
  let el1 := if el.1.parent_map.isEmpty && el.1.queue.isEmpty then
    ({ el.1 with queue := el.1.queue ++ [AStar.seed m start goal] },
     { el.2 with pushes := el.2.pushes ++ [(AStar.seed m start goal).2] })
    else el
  match popMin el1.1.queue with
  | none => (.Err .Unreachable, el1)
  | some (entry, rest) =>
    let e2 := { el1.1 with queue := rest }
    let log2 := { el1.2 with pops := el1.2.pops ++ [entry.2] }
    match AStar.stepT m goal sampler entry.2 (e2, log2) with
    | (true, el3) => (.Final (AStar.unwind_trajectory m el3.1 entry.2), el3)
    | (false, el3) => (.Intermediate (AStar.unwind_trajectory m el3.1 entry.2), el3)

/-- Instrumentation log for one Dijkstra engine. -/
structure DLog (σ κ π : Type) where
  pops : List (DNode σ κ)
  pushes : List (DNode σ κ)
  cands : List (π × Int)
deriving DecidableEq

/-- The empty Dijkstra log. -/
def DLog.empty : DLog σ κ π := ⟨[], [], []⟩

/-- Logged variant of `Dijkstra.expand`. -/
def Dijkstra.expandT (m : Model σ κ π) (current : DNode σ κ)
    (el : Dijkstra σ κ π × DLog σ κ π) (control : κ) :
    Dijkstra σ κ π × DLog σ κ π :=
  match m.integrate current.state control with
  | none => el
  | some child_state =>
    let e := el.1
    let log := el.2
    let counter := e.id_counter + 1
    let cost := current.id.g + m.cost current.state control child_state
    let child : DNode σ κ := ⟨⟨counter, cost⟩, child_state, control⟩
    let log1 := { log with cands := log.cands ++ [(m.grid_position child.state, child.id.g)] }
    match lookupL e.grid (m.grid_position child.state) with
    | some best =>
      if best.g ≤ child.id.g then
        ({ e with id_counter := counter }, log1)
      else
        ({ queue := e.queue ++ [(child.id.g, child)],
           grid := setL e.grid (m.grid_position child.state) child.id,
           parent_map := setL e.parent_map child.id.id current,
           id_counter := counter },
         { log1 with pushes := log1.pushes ++ [child] })
    | none =>
        ({ queue := e.queue ++ [(child.id.g, child)],
           grid := setL e.grid (m.grid_position child.state) child.id,
           parent_map := setL e.parent_map child.id.id current,
           id_counter := counter },
         { log1 with pushes := log1.pushes ++ [child] })

/-- Logged variant of `Dijkstra.step`. -/
def Dijkstra.stepT (m : Model σ κ π) (goal : σ) (sampler : σ → List κ)
    (current : DNode σ κ) (el : Dijkstra σ κ π × DLog σ κ π) :
    Bool × Dijkstra σ κ π × DLog σ κ π :=
  if m.converge current.state goal then (true, el)
  else (false, (sampler current.state).foldl (Dijkstra.expandT m current) el)

/-- Logged variant of `Dijkstra.optLoop`. -/
def Dijkstra.optLoopT (m : Model σ κ π) (goal : σ) (sampler : σ → List κ) :
    Nat → Dijkstra σ κ π × DLog σ κ π →
    Option (PathResult σ κ × Dijkstra σ κ π × DLog σ κ π)
  | 0, _ => none
  | fuel + 1, el =>
    match popMax el.1.queue with
    | none => some (.Err .Unreachable, el)
    | some (entry, rest) =>
      let e1 := { el.1 with queue := rest }
      let log1 := { el.2 with pops := el.2.pops ++ [entry.2] }
      match Dijkstra.stepT m goal sampler entry.2 (e1, log1) with
      | (true, el2) => some (.Final (Dijkstra.unwind_trajectory el2.1 entry.2), el2)
      | (false, el2) => Dijkstra.optLoopT m goal sampler fuel el2

/-- Logged variant of `Dijkstra.optimize`. -/
def Dijkstra.optimizeT (fuel : Nat) (m : Model σ κ π) (start goal : σ)
    (sampler : σ → List κ) (el : Dijkstra σ κ π × DLog σ κ π) :
    Option (PathResult σ κ × Dijkstra σ κ π × DLog σ κ π) :=
  if m.converge start goal then
    some (.Final ⟨0, [(start, m.default_control)]⟩, el)
  else
    let el1 := if el.1.queue.isEmpty then
      ({ el.1 with queue := el.1.queue ++ [Dijkstra.seed m start] },
       { el.2 with pushes := el.2.pushes ++ [(Dijkstra.seed m start).2] })
      else el
    Dijkstra.optLoopT m goal sampler fuel el1

/-- Logged variant of `Dijkstra.next_trajectory`. -/
def Dijkstra.next_trajectoryT (m : Model σ κ π) (start goal : σ)
    (sampler : σ → List κ) (el : Dijkstra σ κ π × DLog σ κ π) :
    PathResult σ κ × Dijkstra σ κ π × DLog σ κ π :=
  let el1 := if el.1.parent_map.isEmpty && el.1.queue.isEmpty then
    ({ el.1 with queue := el.1.queue ++ [Dijkstra.seed m start] },
     { el.2 with pushes := el.2.pushes ++ [(Dijkstra.seed m start).2] })
    else el
  match popMax el1.1.queue with
  | none => (.Err .Unreachable, el1)
  | some (entry, rest) =>
    let e2 := { el1.1 with queue := rest }
    let log2 := { el1.2 with pops := el1.2.pops ++ [entry.2] }
    match Dijkstra.stepT m goal sampler entry.2 (e2, log2) with
    | (true, el3) => (.Final (Dijkstra.unwind_trajectory el3.1 entry.2), el3)
    | (false, el3) => (.Intermediate (Dijkstra.unwind_trajectory el3.1 entry.2), el3)

/-- Well-formed parent chains of the A* engine: a node either has no
parent-map entry and is a seed (start state, default control, zero cost), or
its entry holds a parent with a strictly smaller id from which the node was
derived by one sampled, integrated control. -/
inductive AChain (m : HeuristicModel σ κ π) (sampler : σ → List κ) (start : σ)
    (pm : List (Nat × ANode σ κ)) : ANode σ κ → Prop
  | root (nd : ANode σ κ) :
      lookupL pm nd.id.id = none → nd.state = start →
      nd.control = m.default_control → nd.id.g = 0 →
      AChain m sampler start pm nd
  | step (nd p : ANode σ κ) :
      lookupL pm nd.id.id = some p → AChain m sampler start pm p →
      p.id.id < nd.id.id → nd.control ∈ sampler p.state →
      m.integrate p.state nd.control = some nd.state →
      nd.id.g = p.id.g + m.cost p.state nd.control nd.state →
      AChain m sampler start pm nd

/-- Well-formed parent chains of the Dijkstra engine. -/
inductive DChain (m : Model σ κ π) (sampler : σ → List κ) (start : σ)
    (pm : List (Nat × DNode σ κ)) : DNode σ κ → Prop
  | root (nd : DNode σ κ) :
      lookupL pm nd.id.id = none → nd.state = start →
      nd.control = m.default_control → nd.id.g = 0 →
      DChain m sampler start pm nd
  | step (nd p : DNode σ κ) :
      lookupL pm nd.id.id = some p → DChain m sampler start pm p →
      p.id.id < nd.id.id → nd.control ∈ sampler p.state →
      m.integrate p.state nd.control = some nd.state →
      nd.id.g = p.id.g + m.cost p.state nd.control nd.state →
      DChain m sampler start pm nd

/-- A* engine states reachable through any sequence of `optimize`,
`next_trajectory` and `clear` calls, with arbitrary (possibly different)
models, samplers, starts and goals per call. -/
inductive AStar.Reach : AStar σ κ π → Prop
  | new : AStar.Reach AStar.new
  | clear (e : AStar σ κ π) : AStar.Reach e → AStar.Reach (AStar.clear e)
  | opt (e e1 : AStar σ κ π) (fuel : Nat) (m : HeuristicModel σ κ π)
      (start goal : σ) (sampler : σ → List κ) (r : PathResult σ κ) :
      AStar.Reach e → AStar.optimize fuel m start goal sampler e = some (r, e1) →
      AStar.Reach e1
  | nt (e : AStar σ κ π) (m : HeuristicModel σ κ π)
      (start goal : σ) (sampler : σ → List κ) :
      AStar.Reach e →
      AStar.Reach (AStar.next_trajectory m start goal sampler e).2

/-- A* engine states reachable within one search: all calls use the same
model, sampler, start and goal; `clear` is still allowed. -/
inductive AStar.ReachF (m : HeuristicModel σ κ π) (sampler : σ → List κ)
    (start goal : σ) : AStar σ κ π → Prop
  | new : AStar.ReachF m sampler start goal AStar.new
  | clear (e : AStar σ κ π) : AStar.ReachF m sampler start goal e →
      AStar.ReachF m sampler start goal (AStar.clear e)
  | opt (e e1 : AStar σ κ π) (fuel : Nat) (r : PathResult σ κ) :
      AStar.ReachF m sampler start goal e →
      AStar.optimize fuel m start goal sampler e = some (r, e1) →
      AStar.ReachF m sampler start goal e1
  | nt (e : AStar σ κ π) : AStar.ReachF m sampler start goal e →
      AStar.ReachF m sampler start goal (AStar.next_trajectory m start goal sampler e).2

/-- Dijkstra engine states reachable through any sequence of `optimize` and
`next_trajectory` calls (the Dijkstra engine has no `clear`). -/
inductive Dijkstra.Reach : Dijkstra σ κ π → Prop
  | new : Dijkstra.Reach Dijkstra.new
  | opt (e e1 : Dijkstra σ κ π) (fuel : Nat) (m : Model σ κ π)
      (start goal : σ) (sampler : σ → List κ) (r : PathResult σ κ) :
      Dijkstra.Reach e → Dijkstra.optimize fuel m start goal sampler e = some (r, e1) →
      Dijkstra.Reach e1
  | nt (e : Dijkstra σ κ π) (m : Model σ κ π)
      (start goal : σ) (sampler : σ → List κ) :
      Dijkstra.Reach e →
      Dijkstra.Reach (Dijkstra.next_trajectory m start goal sampler e).2

/-- Dijkstra engine states reachable within one search. -/
inductive Dijkstra.ReachF (m : Model σ κ π) (sampler : σ → List κ)
    (start goal : σ) : Dijkstra σ κ π → Prop
  | new : Dijkstra.ReachF m sampler start goal Dijkstra.new
  | opt (e e1 : Dijkstra σ κ π) (fuel : Nat) (r : PathResult σ κ) :
      Dijkstra.ReachF m sampler start goal e →
      Dijkstra.optimize fuel m start goal sampler e = some (r, e1) →
      Dijkstra.ReachF m sampler start goal e1
  | nt (e : Dijkstra σ κ π) : Dijkstra.ReachF m sampler start goal e →
      Dijkstra.ReachF m sampler start goal (Dijkstra.next_trajectory m start goal sampler e).2

/-- A* engine states reachable together with the accumulated candidate log
(the position and accumulated cost of every candidate child considered since
the last `clear`), through the logged runners. -/
inductive AStar.ReachL : AStar σ κ π → List (π × Int) → Prop
  | new : AStar.ReachL AStar.new []
  | clear (e : AStar σ κ π) (L : List (π × Int)) :
      AStar.ReachL e L → AStar.ReachL (AStar.clear e) []
  | opt (e e1 : AStar σ κ π) (L : List (π × Int)) (fuel : Nat)
      (m : HeuristicModel σ κ π) (start goal : σ) (sampler : σ → List κ)
      (r : PathResult σ κ) (log : ALog σ κ π) :
      AStar.ReachL e L →
      AStar.optimizeT fuel m start goal sampler (e, ALog.empty) = some (r, e1, log) →
      AStar.ReachL e1 (L ++ log.cands)
  | nt (e : AStar σ κ π) (L : List (π × Int)) (m : HeuristicModel σ κ π)
      (start goal : σ) (sampler : σ → List κ) :
      AStar.ReachL e L →
      AStar.ReachL (AStar.next_trajectoryT m start goal sampler (e, ALog.empty)).2.1
        (L ++ (AStar.next_trajectoryT m start goal sampler (e, ALog.empty)).2.2.cands)

/-- Dijkstra engine states reachable together with the accumulated candidate
log. -/
inductive Dijkstra.ReachL : Dijkstra σ κ π → List (π × Int) → Prop
  | new : Dijkstra.ReachL Dijkstra.new []
  | opt (e e1 : Dijkstra σ κ π) (L : List (π × Int)) (fuel : Nat)
      (m : Model σ κ π) (start goal : σ) (sampler : σ → List κ)
      (r : PathResult σ κ) (log : DLog σ κ π) :
      Dijkstra.ReachL e L →
      Dijkstra.optimizeT fuel m start goal sampler (e, DLog.empty) = some (r, e1, log) →
      Dijkstra.ReachL e1 (L ++ log.cands)
  | nt (e : Dijkstra σ κ π) (L : List (π × Int)) (m : Model σ κ π)
      (start goal : σ) (sampler : σ → List κ) :
      Dijkstra.ReachL e L →
      Dijkstra.ReachL (Dijkstra.next_trajectoryT m start goal sampler (e, DLog.empty)).2.1
        (L ++ (Dijkstra.next_trajectoryT m start goal sampler (e, DLog.empty)).2.2.cands)

/-- The engine state after invoking `next_trajectory` a given number of
times with fixed arguments (A*). -/
def AStar.ntIter (m : HeuristicModel σ κ π) (start goal : σ)
    (sampler : σ → List κ) : Nat → AStar σ κ π → AStar σ κ π
  | 0, e => e
  | n + 1, e => AStar.ntIter m start goal sampler n
      (AStar.next_trajectory m start goal sampler e).2

/-- The engine state after invoking `next_trajectory` a given number of
times with fixed arguments (Dijkstra). -/
def Dijkstra.ntIter (m : Model σ κ π) (start goal : σ)
    (sampler : σ → List κ) : Nat → Dijkstra σ κ π → Dijkstra σ κ π
  | 0, e => e
  | n + 1, e => Dijkstra.ntIter m start goal sampler n
      (Dijkstra.next_trajectory m start goal sampler e).2

/-- Whether a `PathResult` is the `Final` variant. -/
def PathResult.isFinal : PathResult σ κ → Bool
  | .Final _ => true
  | _ => false

/-- The iteration protocol of the incremental interface: call
`next_trajectory` repeatedly with fixed arguments; `ntFF n e t` holds when the
first `Final` result appears at the (n+1)-st call and carries trajectory `t`
(A* engine). -/
def AStar.ntFF (m : HeuristicModel σ κ π) (start goal : σ)
    (sampler : σ → List κ) : Nat → AStar σ κ π → Trajectory σ κ → Prop
  | 0, e, t => (AStar.next_trajectory m start goal sampler e).1 = .Final t
  | n + 1, e, t =>
    (AStar.next_trajectory m start goal sampler e).1.isFinal = false ∧
    AStar.ntFF m start goal sampler n (AStar.next_trajectory m start goal sampler e).2 t

/-- `ntFF` for the Dijkstra engine. -/
def Dijkstra.ntFF (m : Model σ κ π) (start goal : σ)
    (sampler : σ → List κ) : Nat → Dijkstra σ κ π → Trajectory σ κ → Prop
  | 0, e, t => (Dijkstra.next_trajectory m start goal sampler e).1 = .Final t
  | n + 1, e, t =>
    (Dijkstra.next_trajectory m start goal sampler e).1.isFinal = false ∧
    Dijkstra.ntFF m start goal sampler n (Dijkstra.next_trajectory m start goal sampler e).2 t

/-- The candidate child node allocated by `AStar::step` for one integrated
control: fresh id, `f = g + heuristic`, `g = parent g + edge cost`. -/
def AStar.child (m : HeuristicModel σ κ π) (goal : σ) (current : ANode σ κ)
    (e : AStar σ κ π) (c : κ) (cs : σ) : ANode σ κ :=
  ⟨⟨e.id_counter + 1,
    current.id.g + m.cost current.state c cs + m.heuristic cs goal,
    current.id.g + m.cost current.state c cs⟩, cs, c⟩

/-- The candidate child node allocated by `Dijkstra::step`. -/
def Dijkstra.child (m : Model σ κ π) (current : DNode σ κ)
    (e : Dijkstra σ κ π) (c : κ) (cs : σ) : DNode σ κ :=
  ⟨⟨e.id_counter + 1, current.id.g + m.cost current.state c cs⟩, cs, c⟩

/-- Well-formedness of an A* engine state relative to one search: every
frontier entry has a well-formed parent chain and an allocated id, and every
parent-map entry was keyed by a positive allocated id strictly above its
parent node's id. -/
def AStar.WfP (m : HeuristicModel σ κ π) (sampler : σ → List κ) (start : σ)
    (e : AStar σ κ π) : Prop :=
  (∀ kv ∈ e.queue, AChain m sampler start e.parent_map kv.2 ∧
    kv.2.id.id ≤ e.id_counter) ∧
  (∀ kp ∈ e.parent_map, kp.2.id.id < kp.1 ∧ 1 ≤ kp.1 ∧ kp.1 ≤ e.id_counter)

/-- Well-formedness of a Dijkstra engine state relative to one search. -/
def Dijkstra.WfP (m : Model σ κ π) (sampler : σ → List κ) (start : σ)
    (e : Dijkstra σ κ π) : Prop :=
  (∀ kv ∈ e.queue, DChain m sampler start e.parent_map kv.2 ∧
    kv.2.id.id ≤ e.id_counter) ∧
  (∀ kp ∈ e.parent_map, kp.2.id.id < kp.1 ∧ 1 ≤ kp.1 ∧ kp.1 ≤ e.id_counter)

/-- The id discipline of an A* engine state: every frontier node carries an
allocated id, and every parent-map entry is keyed by a positive allocated id
strictly greater than the id of the parent node it stores.  Unlike
`AStar.WfP` this predicate does not mention a model, so it survives calls
with different models, samplers, starts and goals. -/
def AStar.IdInv (e : AStar σ κ π) : Prop :=
  (∀ kv ∈ e.queue, kv.2.id.id ≤ e.id_counter) ∧
  (∀ kp ∈ e.parent_map, kp.2.id.id < kp.1 ∧ 1 ≤ kp.1 ∧ kp.1 ≤ e.id_counter)

/-- The id discipline of a Dijkstra engine state. -/
def Dijkstra.IdInv (e : Dijkstra σ κ π) : Prop :=
  (∀ kv ∈ e.queue, kv.2.id.id ≤ e.id_counter) ∧
  (∀ kp ∈ e.parent_map, kp.2.id.id < kp.1 ∧ 1 ≤ kp.1 ∧ kp.1 ≤ e.id_counter)

/-- Concrete model on natural numbers with two distinct states (1 and 2)
sharing grid position 1: state 0 is the start; control 1 leads to the dead end
state 1 at cost 1, control 2 leads to state 2 (same position) at cost 2, and
only state 2 can continue to the converging state 3. -/
def mAlias : HeuristicModel Nat Nat Nat :=
  { cost := fun s c _ => if s = 0 ∧ c = 1 then 1 else if s = 0 ∧ c = 2 then 2 else 1,
    converge := fun s _ => s == 3,
    integrate := fun s c =>
      if s = 0 ∧ c = 1 then some 1 else
      if s = 0 ∧ c = 2 then some 2 else
      if s = 2 ∧ c = 3 then some 3 else none,
    grid_position := fun s => if s = 2 then 1 else s,
    default_control := 0,
    heuristic := fun _ _ => 0 }

/-- The sampler for `mAlias`. -/
def samplerAlias : Nat → List Nat := fun s =>
  if s = 0 then [1, 2] else if s = 1 ∨ s = 2 then [3] else []

/-- Concrete model whose single edge from state 0 to state 1 costs 2 in the
forward direction but 5 in the reverse direction; state 1 converges. -/
def mAsym : HeuristicModel Nat Nat Nat :=
  { cost := fun s _ t => if s = 0 ∧ t = 1 then 2 else if s = 1 ∧ t = 0 then 5 else 0,
    converge := fun s _ => s == 1,
    integrate := fun s c => if s = 0 ∧ c = 0 then some 1 else none,
    grid_position := fun s => s,
    default_control := 0,
    heuristic := fun _ _ => 0 }

/-- A sampler offering the single control 0 in every state. -/
def samplerSingle : Nat → List Nat := fun _ => [0]

/-- Concrete two-state model: control 0 leads from state 0 to the converging
state 1 at cost 1; every edge costs 1 (so the cost function is symmetric in
its state arguments); grid positions are the states themselves. -/
def mUnit : Model Nat Nat Nat :=
  { cost := fun _ _ _ => 1,
    converge := fun s _ => s == 1,
    integrate := fun s c => if s = 0 ∧ c = 0 then some 1 else none,
    grid_position := fun s => s,
    default_control := 7 }

/-- The heuristic extension of `mUnit` with the zero (hence admissible and
non-negative) heuristic. -/
def mUnitH : HeuristicModel Nat Nat Nat := { toModel := mUnit, heuristic := fun _ _ => 0 }

/-- Concrete one-state model whose only transition is a self loop of cost 1
at state 0; nothing converges. -/
def mLoop : HeuristicModel Nat Nat Nat :=
  { cost := fun _ _ _ => 1,
    converge := fun _ _ => false,
    integrate := fun s c => if s = 0 ∧ c = 0 then some 0 else none,
    grid_position := fun s => s,
    default_control := 0,
    heuristic := fun _ _ => 0 }

/-- A sampler offering no controls at all. -/
def samplerEmpty : Nat → List Nat := fun _ => []

/-- Concrete model in which every state converges with every goal. -/
def mAll : HeuristicModel Nat Nat Nat :=
  { cost := fun _ _ _ => 1,
    converge := fun _ _ => true,
    integrate := fun _ _ => none,
    grid_position := fun s => s,
    default_control := 3,
    heuristic := fun _ _ => 0 }

/-- `radix_heap::RadixHeapMap::push` under the monotone contract of the
max-heap keyed by the raw value: `top` is the key of the last popped entry,
and a push whose key exceeds it panics (`none`).  A fresh or cleared heap
(`top = none`) accepts any key. -/
def rpushLe {V : Type} (top : Option Int) (q : List (Int × V)) (key : Int)
    (v : V) : Option (List (Int × V)) :=
  match top with
  | none => some (q ++ [(key, v)])
  | some t => if key ≤ t then some (q ++ [(key, v)]) else none

/-- The same contract for the A* heap, whose stored keys are `Reverse`d
costs: in the cost space a push panics when the new key is below the last
popped key. -/
def rpushGe {V : Type} (top : Option Int) (q : List (Int × V)) (key : Int)
    (v : V) : Option (List (Int × V)) :=
  match top with
  | none => some (q ++ [(key, v)])
  | some t => if t ≤ key then some (q ++ [(key, v)]) else none

/-- Outcome of a run over the contract-checking heap: a `PathResult` plus the
final engine, or the `panic!` raised by `radix_heap::push`. -/
inductive RunResult (σ κ E : Type) where
  | ok (r : PathResult σ κ) (e : E)
  | panic
deriving DecidableEq

/-- The Dijkstra engine together with the radix heap's `top` value. -/
structure DijkstraF (σ κ π : Type) where
  queue : List (Int × DNode σ κ)
  qtop : Option Int
  grid : List (π × DId)
  parent_map : List (Nat × DNode σ κ)
  id_counter : Nat
deriving DecidableEq

/-- A fresh faithful Dijkstra engine (`Dijkstra::default`). -/
def DijkstraF.new : DijkstraF σ κ π := ⟨[], none, [], [], 0⟩

/-- `Dijkstra::step`'s loop body over the contract-checking heap: the push of
a surviving candidate child fails (`none`) when its raw-cost key exceeds the
last popped key. -/
def DijkstraF.expand (m : Model σ κ π) (current : DNode σ κ)
    (e : DijkstraF σ κ π) (control : κ) : Option (DijkstraF σ κ π) :=
  match m.integrate current.state control with
  | none => some e
  | some child_state =>
    let counter := e.id_counter + 1
    let cost := current.id.g + m.cost current.state control child_state
    let child : DNode σ κ := ⟨⟨counter, cost⟩, child_state, control⟩
    match lookupL e.grid (m.grid_position child.state) with
    | some best =>
      if best.g ≤ child.id.g then
        some { e with id_counter := counter }
      else
        match rpushLe e.qtop e.queue child.id.g child with
        | none => none
        | some q =>
          some { queue := q, qtop := e.qtop,
                 grid := setL e.grid (m.grid_position child.state) child.id,
                 parent_map := setL e.parent_map child.id.id current,
                 id_counter := counter }
    | none =>
      match rpushLe e.qtop e.queue child.id.g child with
      | none => none
      | some q =>
        some { queue := q, qtop := e.qtop,
               grid := setL e.grid (m.grid_position child.state) child.id,
               parent_map := setL e.parent_map child.id.id current,
               id_counter := counter }

/-- Fold `DijkstraF.expand` over the sampled controls, aborting at the first
panicking push. -/
def DijkstraF.fold (m : Model σ κ π) (current : DNode σ κ) :
    List κ → DijkstraF σ κ π → Option (DijkstraF σ κ π)
  | [], e => some e
  | c :: cs, e =>
    match DijkstraF.expand m current e c with
    | none => none
    | some e1 => DijkstraF.fold m current cs e1

/-- `Dijkstra::step` over the contract-checking heap. -/
def DijkstraF.step (m : Model σ κ π) (goal : σ) (sampler : σ → List κ)
    (current : DNode σ κ) (e : DijkstraF σ κ π) :
    Option (Bool × DijkstraF σ κ π) :=
  if m.converge current.state goal then some (true, e)
  else
    match DijkstraF.fold m current (sampler current.state) e with
    | none => none
    | some e1 => some (false, e1)

/-- `Dijkstra::unwind_trajectory` for the faithful engine: identical to the
simplified one (the walk reads only the parent map). -/
def DijkstraF.unwind_trajectory (e : DijkstraF σ κ π) (current : DNode σ κ) :
    Trajectory σ κ :=
  let r := Dijkstra.unwindAux e.parent_map (current.id.id + 1) current
    [(current.state, current.control)]
  ⟨r.2.id.g, r.1⟩

/-- The `while let` loop of `Dijkstra::optimize` over the contract-checking
heap, with fuel; each pop records the popped key as the new `top` and logs the
popped node. -/
def DijkstraF.optLoop (m : Model σ κ π) (goal : σ) (sampler : σ → List κ) :
    Nat → DijkstraF σ κ π → List (DNode σ κ) →
    Option (RunResult σ κ (DijkstraF σ κ π) × List (DNode σ κ))
  | 0, _, _ => none
  | fuel + 1, e, pops =>
    match popMax e.queue with
    | none => some (.ok (.Err .Unreachable) e, pops)
    | some (entry, rest) =>
      let e1 := { e with queue := rest, qtop := some entry.1 }
      match DijkstraF.step m goal sampler entry.2 e1 with
      | none => some (.panic, pops ++ [entry.2])
      | some (true, e2) =>
        some (.ok (.Final (DijkstraF.unwind_trajectory e2 entry.2)) e2,
          pops ++ [entry.2])
      | some (false, e2) =>
        DijkstraF.optLoop m goal sampler fuel e2 (pops ++ [entry.2])

/-- `Dijkstra::optimize` over the contract-checking heap: the short circuit,
then seeding exactly when `queue.top().is_none()` (never popped), then the
loop.  The seed push cannot panic because it happens only when `top` is
`none`. -/
def DijkstraF.optimize (fuel : Nat) (m : Model σ κ π) (start goal : σ)
    (sampler : σ → List κ) (e : DijkstraF σ κ π) :
    Option (RunResult σ κ (DijkstraF σ κ π) × List (DNode σ κ)) :=
  if m.converge start goal then
    some (.ok (.Final ⟨0, [(start, m.default_control)]⟩) e, [])
  else
    let e1 := if e.qtop.isNone then
      { e with queue := e.queue ++ [Dijkstra.seed m start] } else e
    DijkstraF.optLoop m goal sampler fuel e1 []

/-- `Dijkstra::next_trajectory` over the contract-checking heap: seeding when
the parent map and the queue contents are both empty (this push goes through
`queue.push` and is contract-checked), then one pop-and-step. -/
def DijkstraF.next_trajectory (m : Model σ κ π) (start goal : σ)
    (sampler : σ → List κ) (e : DijkstraF σ κ π) :
    RunResult σ κ (DijkstraF σ κ π) :=
  match (if e.parent_map.isEmpty && e.queue.isEmpty then
      rpushLe e.qtop e.queue 0 (Dijkstra.seed m start).2
    else some e.queue) with
  | none => .panic
  | some q1 =>
    let e1 := { e with queue := q1 }
    match popMax e1.queue with
    | none => .ok (.Err .Unreachable) e1
    | some (entry, rest) =>
      let e2 := { e1 with queue := rest, qtop := some entry.1 }
      match DijkstraF.step m goal sampler entry.2 e2 with
      | none => .panic
      | some (true, e3) =>
        .ok (.Final (DijkstraF.unwind_trajectory e3 entry.2)) e3
      | some (false, e3) =>
        .ok (.Intermediate (DijkstraF.unwind_trajectory e3 entry.2)) e3

/-- The A* engine together with the radix heap's `top` value (stored in the
cost space underneath the `Reverse`). -/
structure AStarF (σ κ π : Type) where
  queue : List (Int × ANode σ κ)
  qtop : Option Int
  parent_map : List (Nat × ANode σ κ)
  grid : List (π × AId)
  id_counter : Nat
deriving DecidableEq

/-- A fresh faithful A* engine (`AStar::new`). -/
def AStarF.new : AStarF σ κ π := ⟨[], none, [], [], 0⟩

/-- Forget the heap's `top` value, leaving the simplified engine state. -/
def AStarF.strip (e : AStarF σ κ π) : AStar σ κ π :=
  ⟨e.queue, e.parent_map, e.grid, e.id_counter⟩

/-- `AStar::step`'s loop body over the contract-checking heap: the push of a
surviving candidate child fails (`none`) when its `f` key is below the last
popped key. -/
def AStarF.expand (m : HeuristicModel σ κ π) (goal : σ) (current : ANode σ κ)
    (e : AStarF σ κ π) (control : κ) : Option (AStarF σ κ π) :=
  match m.integrate current.state control with
  | none => some e
  | some child_state =>
    let counter := e.id_counter + 1
    let cost := current.id.g + m.cost current.state control child_state
    let heuristic := m.heuristic child_state goal
    let child : ANode σ κ := ⟨⟨counter, cost + heuristic, cost⟩, child_state, control⟩
    match lookupL e.grid (m.grid_position child.state) with
    | some best =>
      if best.g ≤ child.id.g then
        some { e with id_counter := counter }
      else
        match rpushGe e.qtop e.queue child.id.f child with
        | none => none
        | some q =>
          some { queue := q, qtop := e.qtop,
                 parent_map := setL e.parent_map child.id.id current,
                 grid := setL e.grid (m.grid_position child.state) child.id,
                 id_counter := counter }
    | none =>
      match rpushGe e.qtop e.queue child.id.f child with
      | none => none
      | some q =>
        some { queue := q, qtop := e.qtop,
               parent_map := setL e.parent_map child.id.id current,
               grid := setL e.grid (m.grid_position child.state) child.id,
               id_counter := counter }

/-- Fold `AStarF.expand` over the sampled controls, aborting at the first
panicking push. -/
def AStarF.fold (m : HeuristicModel σ κ π) (goal : σ) (current : ANode σ κ) :
    List κ → AStarF σ κ π → Option (AStarF σ κ π)
  | [], e => some e
  | c :: cs, e =>
    match AStarF.expand m goal current e c with
    | none => none
    | some e1 => AStarF.fold m goal current cs e1

/-- `AStar::step` over the contract-checking heap. -/
def AStarF.step (m : HeuristicModel σ κ π) (goal : σ) (sampler : σ → List κ)
    (current : ANode σ κ) (e : AStarF σ κ π) :
    Option (Bool × AStarF σ κ π) :=
  if m.converge current.state goal then some (true, e)
  else
    match AStarF.fold m goal current (sampler current.state) e with
    | none => none
    | some e1 => some (false, e1)

/-- `AStar::unwind_trajectory` for the faithful engine: identical to the
simplified one (the walk reads only the parent map). -/
def AStarF.unwind_trajectory (m : HeuristicModel σ κ π) (e : AStarF σ κ π)
    (current : ANode σ κ) : Trajectory σ κ :=
  let r := AStar.unwindAux m e.parent_map (current.id.id + 1) current
    [(current.state, current.control)] 0
  ⟨r.2, r.1.reverse⟩

/-- The `while let` loop of `AStar::optimize` over the contract-checking
heap, with fuel; each pop records the popped key as the new `top` and logs
the popped node. -/
def AStarF.optLoop (m : HeuristicModel σ κ π) (goal : σ)
    (sampler : σ → List κ) :
    Nat → AStarF σ κ π → List (ANode σ κ) →
    Option (RunResult σ κ (AStarF σ κ π) × List (ANode σ κ))
  | 0, _, _ => none
  | fuel + 1, e, pops =>
    match popMin e.queue with
    | none => some (.ok (.Err .Unreachable) e, pops)
    | some (entry, rest) =>
      let e1 := { e with queue := rest, qtop := some entry.1 }
      match AStarF.step m goal sampler entry.2 e1 with
      | none => some (.panic, pops ++ [entry.2])
      | some (true, e2) =>
        some (.ok (.Final (AStarF.unwind_trajectory m e2 entry.2)) e2,
          pops ++ [entry.2])
      | some (false, e2) =>
        AStarF.optLoop m goal sampler fuel e2 (pops ++ [entry.2])

/-- `AStar::optimize` over the contract-checking heap: the short circuit,
then seeding exactly when `queue.top().is_none()` (never popped), then the
loop.  The seed push cannot panic because it happens only when `top` is
`none`. -/
def AStarF.optimize (fuel : Nat) (m : HeuristicModel σ κ π) (start goal : σ)
    (sampler : σ → List κ) (e : AStarF σ κ π) :
    Option (RunResult σ κ (AStarF σ κ π) × List (ANode σ κ)) :=
  if m.converge start goal then
    some (.ok (.Final ⟨0, [(start, m.default_control)]⟩) e, [])
  else
    let e1 := if e.qtop.isNone then
      { e with queue := e.queue ++ [AStar.seed m start goal] } else e
    AStarF.optLoop m goal sampler fuel e1 []

/-- Concrete model whose single edge from state 0 to the converging state 1
costs -1 (the signed-integer `Cost` instances of `mod.rs` admit negative
costs); every Dijkstra push key then stays at or below the last popped key,
so the radix contract holds along the whole run. -/
def mNeg : Model Nat Nat Nat :=
  { cost := fun _ _ _ => -1,
    converge := fun s _ => s == 1,
    integrate := fun s c => if s = 0 ∧ c = 0 then some 1 else none,
    grid_position := fun s => s,
    default_control := 7 }

/-- Every popped node has had each of its integrated candidate children
bounded in the best-cost map: there is an entry for the child's position whose
stored cost is at most the candidate's accumulated cost. -/
def AStar.PopsClosed (m : HeuristicModel σ κ π) (sampler : σ → List κ)
    (e : AStar σ κ π) (pops : List (ANode σ κ)) : Prop :=
  ∀ nd ∈ pops, ∀ c ∈ sampler nd.state, ∀ cs, m.integrate nd.state c = some cs →
    ∃ b, lookupL e.grid (m.grid_position cs) = some b ∧
      b.g ≤ nd.id.g + m.cost nd.state c cs

/-- Every best-cost-map entry is backed by a node of equal accumulated cost
whose state sits at that position, and that node is on the frontier or was
popped. -/
def AStar.GridBacked (m : HeuristicModel σ κ π)
    (e : AStar σ κ π) (pops : List (ANode σ κ)) : Prop :=
  ∀ p b, lookupL e.grid p = some b →
    ∃ nd, m.grid_position nd.state = p ∧ nd.id.g = b.g ∧
      ((∃ key, (key, nd) ∈ e.queue) ∨ nd ∈ pops)

/-- Every frontier key lies between the node's accumulated cost and that cost
plus its heuristic (the seed is pushed under key 0 with zero cost, every other
node under its exact `f`). -/
def AStar.KeyBounds (m : HeuristicModel σ κ π) (goal : σ)
    (e : AStar σ κ π) : Prop :=
  ∀ kv ∈ e.queue, kv.2.id.g ≤ kv.1 ∧
    kv.1 ≤ kv.2.id.g + m.heuristic kv.2.state goal

/-- C4: if `converge(start, goal)` holds before any expansion, `optimize` on
either engine, in any engine state, returns `Final` with the zero-cost
single-step trajectory holding exactly the start state and the default
control, and leaves the engine (frontier, both maps, and counter) unchanged. -/
theorem optimize_trivial_convergence :
    (∀ (m : HeuristicModel σ κ π) (start goal : σ) (sampler : σ → List κ)
      (fuel : Nat) (e : AStar σ κ π), m.converge start goal = true →
      AStar.optimize fuel m start goal sampler e =
        some (.Final ⟨0, [(start, m.default_control)]⟩, e)) ∧
    (∀ (m : Model σ κ π) (start goal : σ) (sampler : σ → List κ)
      (fuel : Nat) (e : Dijkstra σ κ π), m.converge start goal = true →
      Dijkstra.optimize fuel m start goal sampler e =
        some (.Final ⟨0, [(start, m.default_control)]⟩, e)) := by
  constructor
  · intro m start goal sampler fuel e h
    simp [AStar.optimize, h]
  · intro m start goal sampler fuel e h
    simp [Dijkstra.optimize, h]

/-- Witness for C4 at a concrete model whose states all converge. -/
theorem optimize_trivial_convergence_witness :
    AStar.optimize 3 mAll 5 9 samplerEmpty AStar.new =
      some (.Final ⟨0, [(5, 3)]⟩, AStar.new) ∧
    Dijkstra.optimize 3 mAll.toModel 5 9 samplerEmpty Dijkstra.new =
      some (.Final ⟨0, [(5, 3)]⟩, Dijkstra.new) :=
  ⟨optimize_trivial_convergence.1 mAll 5 9 samplerEmpty 3 AStar.new rfl,
   optimize_trivial_convergence.2 mAll.toModel 5 9 samplerEmpty 3 Dijkstra.new rfl⟩

/-- C8: `clear()` empties the frontier, the best-cost map and the parent map,
`inspect_queue` and `inspect_discovered` are empty immediately afterwards, and
the id counter (the only other field of the engine) is untouched. -/
theorem clear_resets_engine :
    ∀ (e : AStar σ κ π),
      AStar.clear e =
        { queue := [], parent_map := [], grid := [], id_counter := e.id_counter } ∧
      AStar.inspect_queue (AStar.clear e) = [] ∧
      AStar.inspect_discovered (AStar.clear e) = [] ∧
      (AStar.clear e).id_counter = e.id_counter :=
  fun _ => ⟨rfl, rfl, rfl, rfl⟩

/-- C10: `optimize` is deterministic: equal (pure) models, samplers, starts
and goals on two fresh engines produce equal results, equal frontier contents
and equal discovered-position sets, for both engines. -/
theorem optimize_deterministic_inputs :
    (∀ (m1 m2 : HeuristicModel σ κ π) (s1 s2 g1 g2 : σ)
      (sp1 sp2 : σ → List κ) (fuel : Nat),
      m1 = m2 → s1 = s2 → g1 = g2 → sp1 = sp2 →
      AStar.optimize fuel m1 s1 g1 sp1 AStar.new =
        AStar.optimize fuel m2 s2 g2 sp2 AStar.new ∧
      (AStar.optimize fuel m1 s1 g1 sp1 AStar.new).map
          (fun p => (p.1, AStar.inspect_queue p.2, AStar.inspect_discovered p.2)) =
        (AStar.optimize fuel m2 s2 g2 sp2 AStar.new).map
          (fun p => (p.1, AStar.inspect_queue p.2, AStar.inspect_discovered p.2))) ∧
    (∀ (m1 m2 : Model σ κ π) (s1 s2 g1 g2 : σ)
      (sp1 sp2 : σ → List κ) (fuel : Nat),
      m1 = m2 → s1 = s2 → g1 = g2 → sp1 = sp2 →
      Dijkstra.optimize fuel m1 s1 g1 sp1 Dijkstra.new =
        Dijkstra.optimize fuel m2 s2 g2 sp2 Dijkstra.new ∧
      (Dijkstra.optimize fuel m1 s1 g1 sp1 Dijkstra.new).map
          (fun p => (p.1, p.2.queue, p.2.grid.map Prod.fst)) =
        (Dijkstra.optimize fuel m2 s2 g2 sp2 Dijkstra.new).map
          (fun p => (p.1, p.2.queue, p.2.grid.map Prod.fst))) := by
  constructor
  · intro m1 m2 s1 s2 g1 g2 sp1 sp2 fuel hm hs hg hsp
    subst hm; subst hs; subst hg; subst hsp; exact ⟨rfl, rfl⟩
  · intro m1 m2 s1 s2 g1 g2 sp1 sp2 fuel hm hs hg hsp
    subst hm; subst hs; subst hg; subst hsp; exact ⟨rfl, rfl⟩

/-- Witness for C10 at concrete equal inputs. -/
theorem optimize_deterministic_inputs_witness :
    AStar.optimize 4 mUnitH 0 1 samplerSingle AStar.new =
      AStar.optimize 4 mUnitH 0 1 samplerSingle AStar.new ∧
    Dijkstra.optimize 4 mUnit 0 1 samplerSingle Dijkstra.new =
      Dijkstra.optimize 4 mUnit 0 1 samplerSingle Dijkstra.new :=
  ⟨(optimize_deterministic_inputs.1 mUnitH mUnitH 0 0 1 1 samplerSingle samplerSingle
      4 rfl rfl rfl rfl).1,
   (optimize_deterministic_inputs.2 mUnit mUnit 0 0 1 1 samplerSingle samplerSingle
      4 rfl rfl rfl rfl).1⟩

section ListLemmas

variable {α β : Type} [DecidableEq α]

theorem lookupL_setL_self (l : List (α × β)) (k : α) (v : β) :
    lookupL (setL l k v) k = some v := by
  induction l with
  | nil => simp [setL, lookupL]
  | cons kv rest ih =>
    obtain ⟨k0, v0⟩ := kv
    by_cases h : k0 = k
    · simp [setL, h, lookupL]
    · simp [setL, h, lookupL, ih]

theorem lookupL_setL_ne (l : List (α × β)) (k k1 : α) (v : β) (h : k1 ≠ k) :
    lookupL (setL l k v) k1 = lookupL l k1 := by
  induction l with
  | nil =>
    simp only [setL, lookupL]
    rw [if_neg (fun h1 => h h1.symm)]
  | cons kv rest ih =>
    obtain ⟨k0, v0⟩ := kv
    by_cases hk : k0 = k
    · subst hk
      simp only [setL, if_pos rfl, lookupL]
      rw [if_neg (fun h1 => h h1.symm), if_neg (fun h1 => h h1.symm)]
    · simp only [setL, if_neg hk, lookupL]
      by_cases hk1 : k0 = k1
      · simp [hk1]
      · simp [hk1, ih]

theorem mem_setL (l : List (α × β)) (k : α) (v : β) :
    ∀ kv ∈ setL l k v, kv = (k, v) ∨ kv ∈ l := by
  induction l with
  | nil => simp [setL]
  | cons kv0 rest ih =>
    obtain ⟨k0, v0⟩ := kv0
    intro kv hkv
    by_cases h : k0 = k
    · simp only [setL, if_pos h, List.mem_cons] at hkv
      rcases hkv with h1 | h1
      · exact Or.inl h1
      · exact Or.inr (List.mem_cons_of_mem _ h1)
    · simp only [setL, if_neg h, List.mem_cons] at hkv
      rcases hkv with h1 | h1
      · exact Or.inr (by simp [h1])
      · rcases ih kv h1 with h2 | h2
        · exact Or.inl h2
        · exact Or.inr (List.mem_cons_of_mem _ h2)

theorem lookupL_mem (l : List (α × β)) (k : α) (v : β)
    (h : lookupL l k = some v) : (k, v) ∈ l := by
  induction l with
  | nil => simp [lookupL] at h
  | cons kv rest ih =>
    obtain ⟨k0, v0⟩ := kv
    by_cases hk : k0 = k
    · subst hk
      simp only [lookupL, if_pos rfl, Option.some.injEq, if_true, eq_self_iff_true] at h
      subst h
      exact List.mem_cons_self _ _
    · simp only [lookupL, if_neg hk] at h
      exact List.mem_cons_of_mem _ (ih h)

end ListLemmas

section QueueLemmas

variable {V : Type}

theorem popMin_none_iff (l : List (Int × V)) : popMin l = none ↔ l = [] := by
  cases l with
  | nil => simp [popMin]
  | cons x xs =>
    simp only [popMin]
    constructor
    · intro h
      cases hrec : popMin xs with
      | none => rw [hrec] at h; simp at h
      | some mr =>
        obtain ⟨m1, rest1⟩ := mr
        rw [hrec] at h
        dsimp only at h
        split at h <;> simp_all
    · intro h; cases h

theorem popMin_perm (l : List (Int × V)) :
    ∀ x rest, popMin l = some (x, rest) → l.Perm (x :: rest) := by
  induction l with
  | nil => intro x rest h; simp [popMin] at h
  | cons y ys ih =>
    intro x rest h
    simp only [popMin] at h
    cases hrec : popMin ys with
    | none =>
      rw [hrec] at h
      have hy : ys = [] := (popMin_none_iff ys).mp hrec
      subst hy
      simp only [Option.some.injEq, Prod.mk.injEq] at h
      obtain ⟨h1, h2⟩ := h
      subst h1
      subst h2
      exact List.Perm.refl _
    | some mr =>
      obtain ⟨m1, rest1⟩ := mr
      rw [hrec] at h
      dsimp only at h
      split at h
      · simp only [Option.some.injEq, Prod.mk.injEq] at h
        obtain ⟨h1, h2⟩ := h
        subst h1
        subst h2
        have hp := ih m1 rest1 hrec
        exact (List.Perm.cons y hp).trans (List.Perm.swap m1 y rest1)
      · simp only [Option.some.injEq, Prod.mk.injEq] at h
        obtain ⟨h1, h2⟩ := h
        subst h1
        subst h2
        exact List.Perm.refl _

theorem popMin_le (l : List (Int × V)) :
    ∀ x rest, popMin l = some (x, rest) → ∀ y ∈ l, x.1 ≤ y.1 := by
  induction l with
  | nil => intro x rest h; simp [popMin] at h
  | cons y ys ih =>
    intro x rest h
    simp only [popMin] at h
    cases hrec : popMin ys with
    | none =>
      rw [hrec] at h
      have hy : ys = [] := (popMin_none_iff ys).mp hrec
      subst hy
      simp only [Option.some.injEq, Prod.mk.injEq] at h
      obtain ⟨h1, h2⟩ := h
      subst h1
      intro z hz
      simp only [List.mem_singleton] at hz
      rw [hz]
    | some mr =>
      obtain ⟨m1, rest1⟩ := mr
      rw [hrec] at h
      dsimp only at h
      split at h <;> rename_i hlt
      · simp only [Option.some.injEq, Prod.mk.injEq] at h
        obtain ⟨h1, h2⟩ := h
        subst h1
        intro z hz
        rcases List.mem_cons.mp hz with h3 | h3
        · rw [h3]; exact le_of_lt hlt
        · exact ih m1 rest1 hrec z h3
      · simp only [Option.some.injEq, Prod.mk.injEq] at h
        obtain ⟨h1, h2⟩ := h
        subst h1
        intro z hz
        rcases List.mem_cons.mp hz with h3 | h3
        · rw [h3]
        · exact le_trans (not_lt.mp hlt) (ih m1 rest1 hrec z h3)

theorem popMax_none_iff (l : List (Int × V)) : popMax l = none ↔ l = [] := by
  cases l with
  | nil => simp [popMax]
  | cons x xs =>
    simp only [popMax]
    constructor
    · intro h
      cases hrec : popMax xs with
      | none => rw [hrec] at h; simp at h
      | some mr =>
        obtain ⟨m1, rest1⟩ := mr
        rw [hrec] at h
        dsimp only at h
        split at h <;> simp_all
    · intro h; cases h

theorem popMax_perm (l : List (Int × V)) :
    ∀ x rest, popMax l = some (x, rest) → l.Perm (x :: rest) := by
  induction l with
  | nil => intro x rest h; simp [popMax] at h
  | cons y ys ih =>
    intro x rest h
    simp only [popMax] at h
    cases hrec : popMax ys with
    | none =>
      rw [hrec] at h
      have hy : ys = [] := (popMax_none_iff ys).mp hrec
      subst hy
      simp only [Option.some.injEq, Prod.mk.injEq] at h
      obtain ⟨h1, h2⟩ := h
      subst h1
      subst h2
      exact List.Perm.refl _
    | some mr =>
      obtain ⟨m1, rest1⟩ := mr
      rw [hrec] at h
      dsimp only at h
      split at h
      · simp only [Option.some.injEq, Prod.mk.injEq] at h
        obtain ⟨h1, h2⟩ := h
        subst h1
        subst h2
        have hp := ih m1 rest1 hrec
        exact (List.Perm.cons y hp).trans (List.Perm.swap m1 y rest1)
      · simp only [Option.some.injEq, Prod.mk.injEq] at h
        obtain ⟨h1, h2⟩ := h
        subst h1
        subst h2
        exact List.Perm.refl _

theorem popMax_ge (l : List (Int × V)) :
    ∀ x rest, popMax l = some (x, rest) → ∀ y ∈ l, y.1 ≤ x.1 := by
  induction l with
  | nil => intro x rest h; simp [popMax] at h
  | cons y ys ih =>
    intro x rest h
    simp only [popMax] at h
    cases hrec : popMax ys with
    | none =>
      rw [hrec] at h
      have hy : ys = [] := (popMax_none_iff ys).mp hrec
      subst hy
      simp only [Option.some.injEq, Prod.mk.injEq] at h
      obtain ⟨h1, h2⟩ := h
      subst h1
      intro z hz
      simp only [List.mem_singleton] at hz
      rw [hz]
    | some mr =>
      obtain ⟨m1, rest1⟩ := mr
      rw [hrec] at h
      dsimp only at h
      split at h <;> rename_i hlt
      · simp only [Option.some.injEq, Prod.mk.injEq] at h
        obtain ⟨h1, h2⟩ := h
        subst h1
        intro z hz
        rcases List.mem_cons.mp hz with h3 | h3
        · rw [h3]; exact le_of_lt hlt
        · exact ih m1 rest1 hrec z h3
      · simp only [Option.some.injEq, Prod.mk.injEq] at h
        obtain ⟨h1, h2⟩ := h
        subst h1
        intro z hz
        rcases List.mem_cons.mp hz with h3 | h3
        · rw [h3]
        · exact le_trans (ih m1 rest1 hrec z h3) (not_lt.mp hlt)

end QueueLemmas

section UnwindLemmas

theorem AStar.unwindAux_accum (m : HeuristicModel σ κ π)
    (pm : List (Nat × ANode σ κ)) :
    ∀ (fuel : Nat) (nd : ANode σ κ) (acc : List (σ × κ)) (c : Int),
      AStar.unwindAux m pm fuel nd acc c =
        (acc ++ (AStar.unwindAux m pm fuel nd [] 0).1,
         c + (AStar.unwindAux m pm fuel nd [] 0).2) := by
  intro fuel
  induction fuel with
  | zero => intro nd acc c; simp [AStar.unwindAux]
  | succ fuel ih =>
    intro nd acc c
    simp only [AStar.unwindAux]
    cases hp : lookupL pm nd.id.id with
    | none => simp
    | some p =>
      dsimp only
      rw [ih p (acc ++ [(p.state, p.control)]) (c + m.cost nd.state nd.control p.state)]
      rw [ih p ([] ++ [(p.state, p.control)]) (0 + m.cost nd.state nd.control p.state)]
      simp [List.append_assoc]
      ring

theorem AStar.unwindAux_cost_backSum (m : HeuristicModel σ κ π)
    (pm : List (Nat × ANode σ κ)) :
    ∀ (fuel : Nat) (nd : ANode σ κ),
      (AStar.unwindAux m pm fuel nd [(nd.state, nd.control)] 0).2 =
        backSum m.toModel (AStar.unwindAux m pm fuel nd [(nd.state, nd.control)] 0).1 := by
  intro fuel
  induction fuel with
  | zero => intro nd; simp [AStar.unwindAux, backSum]
  | succ fuel ih =>
    intro nd
    simp only [AStar.unwindAux]
    cases hp : lookupL pm nd.id.id with
    | none => simp [backSum]
    | some p =>
      dsimp only
      rw [AStar.unwindAux_accum m pm fuel p]
      have h2 := ih p
      rw [AStar.unwindAux_accum m pm fuel p] at h2
      simp only [List.cons_append, List.nil_append] at h2 ⊢
      rw [show backSum m.toModel ((nd.state, nd.control) :: (p.state, p.control) ::
          (AStar.unwindAux m pm fuel p [] 0).1) =
        m.cost nd.state nd.control p.state + backSum m.toModel ((p.state, p.control) ::
          (AStar.unwindAux m pm fuel p [] 0).1) from rfl]
      omega

theorem edgeSum_concat (m : Model σ κ π) :
    ∀ (l : List (σ × κ)) (a : σ × κ),
      edgeSum m (l ++ [a]) = edgeSum m l +
        (match l.getLast? with
         | some b => m.cost a.1 a.2 b.1
         | none => 0) := by
  intro l
  induction l with
  | nil => intro a; simp [edgeSum]
  | cons x xs ih =>
    intro a
    cases xs with
    | nil => simp [edgeSum]
    | cons y ys =>
      simp only [List.cons_append]
      rw [show edgeSum m (x :: y :: (ys ++ [a])) =
        m.cost y.1 y.2 x.1 + edgeSum m (y :: (ys ++ [a])) from rfl]
      have iha := ih a
      simp only [List.cons_append] at iha
      rw [iha]
      rw [show edgeSum m (x :: y :: ys) = m.cost y.1 y.2 x.1 + edgeSum m (y :: ys) from rfl]
      rw [List.getLast?_cons_cons]
      ring

theorem backSum_eq_edgeSum_reverse (m : Model σ κ π) :
    ∀ (l : List (σ × κ)), backSum m l = edgeSum m l.reverse := by
  intro l
  induction l with
  | nil => simp [backSum, edgeSum]
  | cons a xs ih =>
    cases xs with
    | nil => simp [backSum, edgeSum]
    | cons b r =>
      rw [show backSum m (a :: b :: r) = m.cost a.1 a.2 b.1 + backSum m (b :: r) from rfl]
      rw [ih]
      rw [show (a :: b :: r).reverse = (b :: r).reverse ++ [a] by simp]
      rw [edgeSum_concat]
      rw [show (b :: r).reverse.getLast? = (b :: r).head? from List.getLast?_reverse _]
      simp only [List.head?_cons]
      ring

theorem Dijkstra.unwindAux_accum_d (pm : List (Nat × DNode σ κ)) :
    ∀ (fuel : Nat) (nd : DNode σ κ) (acc : List (σ × κ)),
      Dijkstra.unwindAux pm fuel nd acc =
        (acc ++ (Dijkstra.unwindAux pm fuel nd []).1,
         (Dijkstra.unwindAux pm fuel nd []).2) := by
  intro fuel
  induction fuel with
  | zero => intro nd acc; simp [Dijkstra.unwindAux]
  | succ fuel ih =>
    intro nd acc
    simp only [Dijkstra.unwindAux]
    cases hp : lookupL pm nd.id.id with
    | none => simp
    | some p =>
      dsimp only
      rw [ih p (acc ++ [(p.state, p.control)])]
      rw [ih p ([] ++ [(p.state, p.control)])]
      simp [List.append_assoc]

theorem Dijkstra.unwindAux_chain_end (m : Model σ κ π) (sampler : σ → List κ)
    (start : σ) (pm : List (Nat × DNode σ κ)) (nd : DNode σ κ)
    (hc : DChain m sampler start pm nd) :
    ∀ (fuel : Nat) (acc : List (σ × κ)), nd.id.id < fuel →
      (Dijkstra.unwindAux pm fuel nd acc).2.id.g = 0 ∧
      (Dijkstra.unwindAux pm fuel nd acc).2.state = start ∧
      (Dijkstra.unwindAux pm fuel nd acc).2.control = m.default_control := by
  induction hc with
  | root nd hnone hstate hctrl hg =>
    intro fuel acc hfuel
    cases fuel with
    | zero => omega
    | succ f =>
      simp only [Dijkstra.unwindAux, hnone]
      exact ⟨hg, hstate, hctrl⟩
  | step nd p hlook hchain hid hmem hint hg ih =>
    intro fuel acc hfuel
    cases fuel with
    | zero => omega
    | succ f =>
      simp only [Dijkstra.unwindAux, hlook]
      exact ih f (acc ++ [(p.state, p.control)]) (by omega)

theorem Dijkstra.unwindAux_chain_last_d (m : Model σ κ π) (sampler : σ → List κ)
    (start : σ) (pm : List (Nat × DNode σ κ)) (nd : DNode σ κ)
    (hc : DChain m sampler start pm nd) :
    ∀ (fuel : Nat) (acc : List (σ × κ)), nd.id.id < fuel →
      (Dijkstra.unwindAux pm fuel nd (acc ++ [(nd.state, nd.control)])).1.getLast? =
        some (start, m.default_control) := by
  induction hc with
  | root nd hnone hstate hctrl hg =>
    intro fuel acc hfuel
    cases fuel with
    | zero => omega
    | succ f =>
      simp only [Dijkstra.unwindAux, hnone]
      rw [hstate, hctrl]
      exact List.getLast?_concat _
  | step nd p hlook hchain hid hmem hint hg ih =>
    intro fuel acc hfuel
    cases fuel with
    | zero => omega
    | succ f =>
      simp only [Dijkstra.unwindAux, hlook]
      have h1 : (acc ++ [(nd.state, nd.control)]) ++ [(p.state, p.control)] =
          (acc ++ [(nd.state, nd.control)]) ++ [(p.state, p.control)] := rfl
      exact ih f (acc ++ [(nd.state, nd.control)]) (by omega)

theorem AStar.unwindAux_chain_last (m : HeuristicModel σ κ π)
    (sampler : σ → List κ) (start : σ) (pm : List (Nat × ANode σ κ))
    (nd : ANode σ κ) (hc : AChain m sampler start pm nd) :
    ∀ (fuel : Nat) (acc : List (σ × κ)) (c : Int), nd.id.id < fuel →
      (AStar.unwindAux m pm fuel nd (acc ++ [(nd.state, nd.control)]) c).1.getLast? =
        some (start, m.default_control) := by
  induction hc with
  | root nd hnone hstate hctrl hg =>
    intro fuel acc c hfuel
    cases fuel with
    | zero => omega
    | succ f =>
      simp only [AStar.unwindAux, hnone]
      rw [hstate, hctrl]
      exact List.getLast?_concat _
  | step nd p hlook hchain hid hmem hint hg ih =>
    intro fuel acc c hfuel
    cases fuel with
    | zero => omega
    | succ f =>
      simp only [AStar.unwindAux, hlook]
      exact ih f (acc ++ [(nd.state, nd.control)]) _ (by omega)

theorem AStar.unwindAux_chain_cost (m : HeuristicModel σ κ π)
    (sampler : σ → List κ) (start : σ) (pm : List (Nat × ANode σ κ))
    (hsym : ∀ (s : σ) (c : κ) (t : σ), m.cost s c t = m.cost t c s)
    (nd : ANode σ κ) (hc : AChain m sampler start pm nd) :
    ∀ (fuel : Nat) (acc : List (σ × κ)) (c : Int), nd.id.id < fuel →
      (AStar.unwindAux m pm fuel nd acc c).2 = c + nd.id.g := by
  induction hc with
  | root nd hnone hstate hctrl hg =>
    intro fuel acc c hfuel
    cases fuel with
    | zero => omega
    | succ f =>
      simp only [AStar.unwindAux, hnone]
      omega
  | step nd p hlook hchain hid hmem hint hg ih =>
    intro fuel acc c hfuel
    cases fuel with
    | zero => omega
    | succ f =>
      simp only [AStar.unwindAux, hlook]
      rw [ih f _ _ (by omega)]
      rw [hg, hsym nd.state nd.control p.state]
      ring

end UnwindLemmas

section UnwindCorollaries

theorem AStar.unwind_cost_eq_edgeSum (m : HeuristicModel σ κ π)
    (e : AStar σ κ π) (nd : ANode σ κ) :
    (AStar.unwind_trajectory m e nd).cost =
      edgeSum m.toModel (AStar.unwind_trajectory m e nd).trajectory := by
  unfold AStar.unwind_trajectory
  dsimp only
  rw [AStar.unwindAux_cost_backSum m e.parent_map (nd.id.id + 1) nd]
  exact backSum_eq_edgeSum_reverse m.toModel _

theorem AStar.unwind_last_eq_popped (m : HeuristicModel σ κ π)
    (e : AStar σ κ π) (nd : ANode σ κ) :
    (AStar.unwind_trajectory m e nd).trajectory.getLast? =
      some (nd.state, nd.control) := by
  unfold AStar.unwind_trajectory
  dsimp only
  rw [List.getLast?_reverse]
  rw [AStar.unwindAux_accum m e.parent_map (nd.id.id + 1) nd]
  simp

theorem AStar.unwind_head_of_chain (m : HeuristicModel σ κ π)
    (sampler : σ → List κ) (start : σ) (e : AStar σ κ π) (nd : ANode σ κ)
    (hc : AChain m sampler start e.parent_map nd) :
    (AStar.unwind_trajectory m e nd).trajectory.head? =
      some (start, m.default_control) := by
  unfold AStar.unwind_trajectory
  dsimp only
  rw [List.head?_reverse]
  have h := AStar.unwindAux_chain_last m sampler start e.parent_map nd hc
    (nd.id.id + 1) [] 0 (Nat.lt_succ_self _)
  simpa using h

theorem AStar.unwind_cost_of_chain (m : HeuristicModel σ κ π)
    (sampler : σ → List κ) (start : σ) (e : AStar σ κ π) (nd : ANode σ κ)
    (hsym : ∀ (s : σ) (c : κ) (t : σ), m.cost s c t = m.cost t c s)
    (hc : AChain m sampler start e.parent_map nd) :
    (AStar.unwind_trajectory m e nd).cost = nd.id.g := by
  unfold AStar.unwind_trajectory
  dsimp only
  rw [AStar.unwindAux_chain_cost m sampler start e.parent_map hsym nd hc
    (nd.id.id + 1) _ 0 (Nat.lt_succ_self _)]
  ring

theorem Dijkstra.unwind_head_eq_popped (e : Dijkstra σ κ π) (nd : DNode σ κ) :
    (Dijkstra.unwind_trajectory e nd).trajectory.head? =
      some (nd.state, nd.control) := by
  unfold Dijkstra.unwind_trajectory
  dsimp only
  rw [Dijkstra.unwindAux_accum_d e.parent_map (nd.id.id + 1) nd]
  simp

theorem Dijkstra.unwind_last_of_chain (m : Model σ κ π)
    (sampler : σ → List κ) (start : σ) (e : Dijkstra σ κ π) (nd : DNode σ κ)
    (hc : DChain m sampler start e.parent_map nd) :
    (Dijkstra.unwind_trajectory e nd).trajectory.getLast? =
      some (start, m.default_control) := by
  unfold Dijkstra.unwind_trajectory
  dsimp only
  have h := Dijkstra.unwindAux_chain_last_d m sampler start e.parent_map nd hc
    (nd.id.id + 1) [] (Nat.lt_succ_self _)
  simpa using h

theorem Dijkstra.unwind_cost_of_chain_d (m : Model σ κ π)
    (sampler : σ → List κ) (start : σ) (e : Dijkstra σ κ π) (nd : DNode σ κ)
    (hc : DChain m sampler start e.parent_map nd) :
    (Dijkstra.unwind_trajectory e nd).cost = 0 := by
  unfold Dijkstra.unwind_trajectory
  dsimp only
  exact (Dijkstra.unwindAux_chain_end m sampler start e.parent_map nd hc
    (nd.id.id + 1) _ (Nat.lt_succ_self _)).1

end UnwindCorollaries

section ExpandSpec

theorem AStar.expand_spec (m : HeuristicModel σ κ π) (goal : σ)
    (current : ANode σ κ) (e : AStar σ κ π) (c : κ) :
    (m.integrate current.state c = none ∧ AStar.expand m goal current e c = e) ∨
    (∃ cs, m.integrate current.state c = some cs ∧
      ((∃ best, lookupL e.grid (m.grid_position cs) = some best ∧
          best.g ≤ current.id.g + m.cost current.state c cs ∧
          AStar.expand m goal current e c = { e with id_counter := e.id_counter + 1 }) ∨
       ((lookupL e.grid (m.grid_position cs) = none ∨
          ∃ best, lookupL e.grid (m.grid_position cs) = some best ∧
            current.id.g + m.cost current.state c cs < best.g) ∧
        AStar.expand m goal current e c =
          { queue := e.queue ++
              [((AStar.child m goal current e c cs).id.f, AStar.child m goal current e c cs)],
            parent_map := setL e.parent_map (e.id_counter + 1) current,
            grid := setL e.grid (m.grid_position cs) (AStar.child m goal current e c cs).id,
            id_counter := e.id_counter + 1 }))) := by
  cases hI : m.integrate current.state c with
  | none =>
    left
    refine ⟨rfl, ?_⟩
    unfold AStar.expand
    rw [hI]
  | some cs =>
    right
    refine ⟨cs, rfl, ?_⟩
    cases hG : lookupL e.grid (m.grid_position cs) with
    | none =>
      right
      refine ⟨Or.inl rfl, ?_⟩
      unfold AStar.expand
      rw [hI]
      dsimp only
      rw [hG]
      rfl
    | some best =>
      by_cases hle : best.g ≤ current.id.g + m.cost current.state c cs
      · left
        refine ⟨best, rfl, hle, ?_⟩
        unfold AStar.expand
        rw [hI]
        dsimp only
        rw [hG]
        dsimp only
        rw [if_pos hle]
      · right
        refine ⟨Or.inr ⟨best, rfl, by omega⟩, ?_⟩
        unfold AStar.expand
        rw [hI]
        dsimp only
        rw [hG]
        dsimp only
        rw [if_neg hle]
        rfl

theorem Dijkstra.expand_spec_d (m : Model σ κ π)
    (current : DNode σ κ) (e : Dijkstra σ κ π) (c : κ) :
    (m.integrate current.state c = none ∧ Dijkstra.expand m current e c = e) ∨
    (∃ cs, m.integrate current.state c = some cs ∧
      ((∃ best, lookupL e.grid (m.grid_position cs) = some best ∧
          best.g ≤ current.id.g + m.cost current.state c cs ∧
          Dijkstra.expand m current e c = { e with id_counter := e.id_counter + 1 }) ∨
       ((lookupL e.grid (m.grid_position cs) = none ∨
          ∃ best, lookupL e.grid (m.grid_position cs) = some best ∧
            current.id.g + m.cost current.state c cs < best.g) ∧
        Dijkstra.expand m current e c =
          { queue := e.queue ++
              [((Dijkstra.child m current e c cs).id.g, Dijkstra.child m current e c cs)],
            grid := setL e.grid (m.grid_position cs) (Dijkstra.child m current e c cs).id,
            parent_map := setL e.parent_map (e.id_counter + 1) current,
            id_counter := e.id_counter + 1 }))) := by
  cases hI : m.integrate current.state c with
  | none =>
    left
    refine ⟨rfl, ?_⟩
    unfold Dijkstra.expand
    rw [hI]
  | some cs =>
    right
    refine ⟨cs, rfl, ?_⟩
    cases hG : lookupL e.grid (m.grid_position cs) with
    | none =>
      right
      refine ⟨Or.inl rfl, ?_⟩
      unfold Dijkstra.expand
      rw [hI]
      dsimp only
      rw [hG]
      rfl
    | some best =>
      by_cases hle : best.g ≤ current.id.g + m.cost current.state c cs
      · left
        refine ⟨best, rfl, hle, ?_⟩
        unfold Dijkstra.expand
        rw [hI]
        dsimp only
        rw [hG]
        dsimp only
        rw [if_pos hle]
      · right
        refine ⟨Or.inr ⟨best, rfl, by omega⟩, ?_⟩
        unfold Dijkstra.expand
        rw [hI]
        dsimp only
        rw [hG]
        dsimp only
        rw [if_neg hle]
        rfl

end ExpandSpec

section Projections

theorem AStar.expandT_fst (m : HeuristicModel σ κ π) (goal : σ)
    (current : ANode σ κ) (el : AStar σ κ π × ALog σ κ π) (c : κ) :
    (AStar.expandT m goal current el c).1 = AStar.expand m goal current el.1 c := by
  unfold AStar.expandT AStar.expand
  cases hI : m.integrate current.state c with
  | none => rfl
  | some cs =>
    dsimp only
    cases hG : lookupL el.1.grid (m.grid_position cs) with
    | none => rfl
    | some best =>
      dsimp only
      split <;> rfl

theorem AStar.expandT_log (m : HeuristicModel σ κ π) (goal : σ)
    (current : ANode σ κ) (el : AStar σ κ π × ALog σ κ π) (c : κ) :
    (AStar.expandT m goal current el c).2.pops = el.2.pops ∧
    (∃ dc, (AStar.expandT m goal current el c).2.cands = el.2.cands ++ dc) ∧
    (∃ dp, (AStar.expandT m goal current el c).2.pushes = el.2.pushes ++ dp) := by
  unfold AStar.expandT
  cases hI : m.integrate current.state c with
  | none => exact ⟨rfl, ⟨[], by simp⟩, ⟨[], by simp⟩⟩
  | some cs =>
    dsimp only
    cases hG : lookupL el.1.grid (m.grid_position cs) with
    | none => exact ⟨rfl, ⟨_, rfl⟩, ⟨_, rfl⟩⟩
    | some best =>
      dsimp only
      split
      · exact ⟨rfl, ⟨_, rfl⟩, ⟨[], by simp⟩⟩
      · exact ⟨rfl, ⟨_, rfl⟩, ⟨_, rfl⟩⟩

theorem AStar.foldT_fst (m : HeuristicModel σ κ π) (goal : σ)
    (current : ANode σ κ) :
    ∀ (l : List κ) (el : AStar σ κ π × ALog σ κ π),
      (l.foldl (AStar.expandT m goal current) el).1 =
        l.foldl (AStar.expand m goal current) el.1 := by
  intro l
  induction l with
  | nil => intro el; rfl
  | cons c cs ih =>
    intro el
    simp only [List.foldl_cons]
    rw [ih, AStar.expandT_fst]

theorem AStar.foldT_pops (m : HeuristicModel σ κ π) (goal : σ)
    (current : ANode σ κ) :
    ∀ (l : List κ) (el : AStar σ κ π × ALog σ κ π),
      (l.foldl (AStar.expandT m goal current) el).2.pops = el.2.pops := by
  intro l
  induction l with
  | nil => intro el; rfl
  | cons c cs ih =>
    intro el
    simp only [List.foldl_cons]
    rw [ih, (AStar.expandT_log m goal current el c).1]

theorem AStar.stepT_fst (m : HeuristicModel σ κ π) (goal : σ)
    (sampler : σ → List κ) (current : ANode σ κ)
    (el : AStar σ κ π × ALog σ κ π) :
    (AStar.stepT m goal sampler current el).1 = (AStar.step m goal sampler current el.1).1 ∧
    (AStar.stepT m goal sampler current el).2.1 = (AStar.step m goal sampler current el.1).2 := by
  unfold AStar.stepT AStar.step
  split
  · exact ⟨rfl, rfl⟩
  · exact ⟨rfl, AStar.foldT_fst m goal current _ el⟩

theorem AStar.stepT_pops (m : HeuristicModel σ κ π) (goal : σ)
    (sampler : σ → List κ) (current : ANode σ κ)
    (el : AStar σ κ π × ALog σ κ π) :
    (AStar.stepT m goal sampler current el).2.2.pops = el.2.pops := by
  unfold AStar.stepT
  split
  · rfl
  · exact AStar.foldT_pops m goal current _ el

theorem AStar.optLoopT_fst (m : HeuristicModel σ κ π) (goal : σ)
    (sampler : σ → List κ) :
    ∀ (fuel : Nat) (el : AStar σ κ π × ALog σ κ π),
      (AStar.optLoopT m goal sampler fuel el).map (fun x => (x.1, x.2.1)) =
        AStar.optLoop m goal sampler fuel el.1 := by
  intro fuel
  induction fuel with
  | zero => intro el; rfl
  | succ fuel ih =>
    intro el
    rw [AStar.optLoopT, AStar.optLoop]
    cases hp : popMin el.1.queue with
    | none => rfl
    | some er =>
      obtain ⟨entry, rest⟩ := er
      dsimp only
      have hfst := AStar.stepT_fst m goal sampler entry.2
        ({ el.1 with queue := rest }, { el.2 with pops := el.2.pops ++ [entry.2] })
      cases hs : AStar.stepT m goal sampler entry.2
        ({ el.1 with queue := rest }, { el.2 with pops := el.2.pops ++ [entry.2] }) with
      | mk done el2 =>
        rw [hs] at hfst
        dsimp only at hfst
        cases hs2 : AStar.step m goal sampler entry.2 { el.1 with queue := rest } with
        | mk done2 e2 =>
          rw [hs2] at hfst
          dsimp only at hfst
          obtain ⟨hd, he⟩ := hfst
          subst hd
          cases done with
          | true => simp [he]
          | false =>
            dsimp only
            rw [← he]
            exact ih el2

theorem AStar.optimizeT_fst (fuel : Nat) (m : HeuristicModel σ κ π)
    (start goal : σ) (sampler : σ → List κ) (el : AStar σ κ π × ALog σ κ π) :
    (AStar.optimizeT fuel m start goal sampler el).map (fun x => (x.1, x.2.1)) =
      AStar.optimize fuel m start goal sampler el.1 := by
  obtain ⟨e, log⟩ := el
  unfold AStar.optimizeT AStar.optimize
  split
  · rfl
  · dsimp only
    split
    · exact AStar.optLoopT_fst m goal sampler fuel _
    · exact AStar.optLoopT_fst m goal sampler fuel _

theorem AStar.next_trajectoryT_fst (m : HeuristicModel σ κ π)
    (start goal : σ) (sampler : σ → List κ) (el : AStar σ κ π × ALog σ κ π) :
    ((AStar.next_trajectoryT m start goal sampler el).1,
     (AStar.next_trajectoryT m start goal sampler el).2.1) =
      AStar.next_trajectory m start goal sampler el.1 := by
  obtain ⟨e, log⟩ := el
  unfold AStar.next_trajectoryT AStar.next_trajectory
  dsimp only
  by_cases hq : e.parent_map.isEmpty && e.queue.isEmpty
  · rw [if_pos hq, if_pos hq]
    dsimp only
    cases hp : popMin (e.queue ++ [AStar.seed m start goal]) with
    | none => rfl
    | some er =>
      obtain ⟨entry, rest⟩ := er
      dsimp only
      have hfst := AStar.stepT_fst m goal sampler entry.2
        ({ { e with queue := e.queue ++ [AStar.seed m start goal] } with queue := rest },
         { { log with pushes := log.pushes ++ [(AStar.seed m start goal).2] } with
            pops := { log with pushes := log.pushes ++ [(AStar.seed m start goal).2] }.pops ++ [entry.2] })
      cases hs : AStar.stepT m goal sampler entry.2
        ({ { e with queue := e.queue ++ [AStar.seed m start goal] } with queue := rest },
         { { log with pushes := log.pushes ++ [(AStar.seed m start goal).2] } with
            pops := { log with pushes := log.pushes ++ [(AStar.seed m start goal).2] }.pops ++ [entry.2] }) with
      | mk done el2 =>
        rw [hs] at hfst
        dsimp only at hfst
        cases hs2 : AStar.step m goal sampler entry.2
            { { e with queue := e.queue ++ [AStar.seed m start goal] } with queue := rest } with
        | mk done2 e2 =>
          rw [hs2] at hfst
          dsimp only at hfst
          obtain ⟨hd, he⟩ := hfst
          subst hd
          cases done with
          | true => simp [he]
          | false => simp [he]
  · rw [if_neg hq, if_neg hq]
    dsimp only
    cases hp : popMin e.queue with
    | none => rfl
    | some er =>
      obtain ⟨entry, rest⟩ := er
      dsimp only
      have hfst := AStar.stepT_fst m goal sampler entry.2
        ({ e with queue := rest }, { log with pops := log.pops ++ [entry.2] })
      cases hs : AStar.stepT m goal sampler entry.2
        ({ e with queue := rest }, { log with pops := log.pops ++ [entry.2] }) with
      | mk done el2 =>
        rw [hs] at hfst
        dsimp only at hfst
        cases hs2 : AStar.step m goal sampler entry.2 { e with queue := rest } with
        | mk done2 e2 =>
          rw [hs2] at hfst
          dsimp only at hfst
          obtain ⟨hd, he⟩ := hfst
          subst hd
          cases done with
          | true => simp [he]
          | false => simp [he]

theorem Dijkstra.expandT_fst_d (m : Model σ κ π)
    (current : DNode σ κ) (el : Dijkstra σ κ π × DLog σ κ π) (c : κ) :
    (Dijkstra.expandT m current el c).1 = Dijkstra.expand m current el.1 c := by
  unfold Dijkstra.expandT Dijkstra.expand
  cases hI : m.integrate current.state c with
  | none => rfl
  | some cs =>
    dsimp only
    cases hG : lookupL el.1.grid (m.grid_position cs) with
    | none => rfl
    | some best =>
      dsimp only
      split <;> rfl

theorem Dijkstra.expandT_log_d (m : Model σ κ π)
    (current : DNode σ κ) (el : Dijkstra σ κ π × DLog σ κ π) (c : κ) :
    (Dijkstra.expandT m current el c).2.pops = el.2.pops ∧
    (∃ dc, (Dijkstra.expandT m current el c).2.cands = el.2.cands ++ dc) ∧
    (∃ dp, (Dijkstra.expandT m current el c).2.pushes = el.2.pushes ++ dp) := by
  unfold Dijkstra.expandT
  cases hI : m.integrate current.state c with
  | none => exact ⟨rfl, ⟨[], by simp⟩, ⟨[], by simp⟩⟩
  | some cs =>
    dsimp only
    cases hG : lookupL el.1.grid (m.grid_position cs) with
    | none => exact ⟨rfl, ⟨_, rfl⟩, ⟨_, rfl⟩⟩
    | some best =>
      dsimp only
      split
      · exact ⟨rfl, ⟨_, rfl⟩, ⟨[], by simp⟩⟩
      · exact ⟨rfl, ⟨_, rfl⟩, ⟨_, rfl⟩⟩

theorem Dijkstra.foldT_fst_d (m : Model σ κ π) (current : DNode σ κ) :
    ∀ (l : List κ) (el : Dijkstra σ κ π × DLog σ κ π),
      (l.foldl (Dijkstra.expandT m current) el).1 =
        l.foldl (Dijkstra.expand m current) el.1 := by
  intro l
  induction l with
  | nil => intro el; rfl
  | cons c cs ih =>
    intro el
    simp only [List.foldl_cons]
    rw [ih, Dijkstra.expandT_fst_d]

theorem Dijkstra.foldT_pops_d (m : Model σ κ π) (current : DNode σ κ) :
    ∀ (l : List κ) (el : Dijkstra σ κ π × DLog σ κ π),
      (l.foldl (Dijkstra.expandT m current) el).2.pops = el.2.pops := by
  intro l
  induction l with
  | nil => intro el; rfl
  | cons c cs ih =>
    intro el
    simp only [List.foldl_cons]
    rw [ih, (Dijkstra.expandT_log_d m current el c).1]

theorem Dijkstra.stepT_fst_d (m : Model σ κ π) (goal : σ)
    (sampler : σ → List κ) (current : DNode σ κ)
    (el : Dijkstra σ κ π × DLog σ κ π) :
    (Dijkstra.stepT m goal sampler current el).1 =
      (Dijkstra.step m goal sampler current el.1).1 ∧
    (Dijkstra.stepT m goal sampler current el).2.1 =
      (Dijkstra.step m goal sampler current el.1).2 := by
  unfold Dijkstra.stepT Dijkstra.step
  split
  · exact ⟨rfl, rfl⟩
  · exact ⟨rfl, Dijkstra.foldT_fst_d m current _ el⟩

theorem Dijkstra.stepT_pops_d (m : Model σ κ π) (goal : σ)
    (sampler : σ → List κ) (current : DNode σ κ)
    (el : Dijkstra σ κ π × DLog σ κ π) :
    (Dijkstra.stepT m goal sampler current el).2.2.pops = el.2.pops := by
  unfold Dijkstra.stepT
  split
  · rfl
  · exact Dijkstra.foldT_pops_d m current _ el

theorem Dijkstra.optLoopT_fst_d (m : Model σ κ π) (goal : σ)
    (sampler : σ → List κ) :
    ∀ (fuel : Nat) (el : Dijkstra σ κ π × DLog σ κ π),
      (Dijkstra.optLoopT m goal sampler fuel el).map (fun x => (x.1, x.2.1)) =
        Dijkstra.optLoop m goal sampler fuel el.1 := by
  intro fuel
  induction fuel with
  | zero => intro el; rfl
  | succ fuel ih =>
    intro el
    rw [Dijkstra.optLoopT, Dijkstra.optLoop]
    cases hp : popMax el.1.queue with
    | none => rfl
    | some er =>
      obtain ⟨entry, rest⟩ := er
      dsimp only
      have hfst := Dijkstra.stepT_fst_d m goal sampler entry.2
        ({ el.1 with queue := rest }, { el.2 with pops := el.2.pops ++ [entry.2] })
      cases hs : Dijkstra.stepT m goal sampler entry.2
        ({ el.1 with queue := rest }, { el.2 with pops := el.2.pops ++ [entry.2] }) with
      | mk done el2 =>
        rw [hs] at hfst
        dsimp only at hfst
        cases hs2 : Dijkstra.step m goal sampler entry.2 { el.1 with queue := rest } with
        | mk done2 e2 =>
          rw [hs2] at hfst
          dsimp only at hfst
          obtain ⟨hd, he⟩ := hfst
          subst hd
          cases done with
          | true => simp [he]
          | false =>
            dsimp only
            rw [← he]
            exact ih el2

theorem Dijkstra.optimizeT_fst_d (fuel : Nat) (m : Model σ κ π)
    (start goal : σ) (sampler : σ → List κ) (el : Dijkstra σ κ π × DLog σ κ π) :
    (Dijkstra.optimizeT fuel m start goal sampler el).map (fun x => (x.1, x.2.1)) =
      Dijkstra.optimize fuel m start goal sampler el.1 := by
  obtain ⟨e, log⟩ := el
  unfold Dijkstra.optimizeT Dijkstra.optimize
  split
  · rfl
  · dsimp only
    split
    · exact Dijkstra.optLoopT_fst_d m goal sampler fuel _
    · exact Dijkstra.optLoopT_fst_d m goal sampler fuel _

theorem Dijkstra.next_trajectoryT_fst_d (m : Model σ κ π)
    (start goal : σ) (sampler : σ → List κ) (el : Dijkstra σ κ π × DLog σ κ π) :
    ((Dijkstra.next_trajectoryT m start goal sampler el).1,
     (Dijkstra.next_trajectoryT m start goal sampler el).2.1) =
      Dijkstra.next_trajectory m start goal sampler el.1 := by
  obtain ⟨e, log⟩ := el
  unfold Dijkstra.next_trajectoryT Dijkstra.next_trajectory
  dsimp only
  by_cases hq : e.parent_map.isEmpty && e.queue.isEmpty
  · rw [if_pos hq, if_pos hq]
    dsimp only
    cases hp : popMax (e.queue ++ [Dijkstra.seed m start]) with
    | none => rfl
    | some er =>
      obtain ⟨entry, rest⟩ := er
      dsimp only
      have hfst := Dijkstra.stepT_fst_d m goal sampler entry.2
        ({ { e with queue := e.queue ++ [Dijkstra.seed m start] } with queue := rest },
         { { log with pushes := log.pushes ++ [(Dijkstra.seed m start).2] } with
            pops := { log with pushes := log.pushes ++ [(Dijkstra.seed m start).2] }.pops ++ [entry.2] })
      cases hs : Dijkstra.stepT m goal sampler entry.2
        ({ { e with queue := e.queue ++ [Dijkstra.seed m start] } with queue := rest },
         { { log with pushes := log.pushes ++ [(Dijkstra.seed m start).2] } with
            pops := { log with pushes := log.pushes ++ [(Dijkstra.seed m start).2] }.pops ++ [entry.2] }) with
      | mk done el2 =>
        rw [hs] at hfst
        dsimp only at hfst
        cases hs2 : Dijkstra.step m goal sampler entry.2
            { { e with queue := e.queue ++ [Dijkstra.seed m start] } with queue := rest } with
        | mk done2 e2 =>
          rw [hs2] at hfst
          dsimp only at hfst
          obtain ⟨hd, he⟩ := hfst
          subst hd
          cases done with
          | true => simp [he]
          | false => simp [he]
  · rw [if_neg hq, if_neg hq]
    dsimp only
    cases hp : popMax e.queue with
    | none => rfl
    | some er =>
      obtain ⟨entry, rest⟩ := er
      dsimp only
      have hfst := Dijkstra.stepT_fst_d m goal sampler entry.2
        ({ e with queue := rest }, { log with pops := log.pops ++ [entry.2] })
      cases hs : Dijkstra.stepT m goal sampler entry.2
        ({ e with queue := rest }, { log with pops := log.pops ++ [entry.2] }) with
      | mk done el2 =>
        rw [hs] at hfst
        dsimp only at hfst
        cases hs2 : Dijkstra.step m goal sampler entry.2 { e with queue := rest } with
        | mk done2 e2 =>
          rw [hs2] at hfst
          dsimp only at hfst
          obtain ⟨hd, he⟩ := hfst
          subst hd
          cases done with
          | true => simp [he]
          | false => simp [he]

end Projections

section ChainStability

theorem AChain_setL (m : HeuristicModel σ κ π) (sampler : σ → List κ)
    (start : σ) (pm : List (Nat × ANode σ κ)) (nd : ANode σ κ)
    (hc : AChain m sampler start pm nd) :
    ∀ (k : Nat) (v : ANode σ κ), nd.id.id < k →
      AChain m sampler start (setL pm k v) nd := by
  induction hc with
  | root nd hnone hstate hctrl hg =>
    intro k v hk
    exact AChain.root nd (by rw [lookupL_setL_ne _ _ _ _ (by omega)]; exact hnone)
      hstate hctrl hg
  | step nd p hlook hchain hid hmem hint hg ih =>
    intro k v hk
    exact AChain.step nd p (by rw [lookupL_setL_ne _ _ _ _ (by omega)]; exact hlook)
      (ih k v (by omega)) hid hmem hint hg

theorem DChain_setL (m : Model σ κ π) (sampler : σ → List κ)
    (start : σ) (pm : List (Nat × DNode σ κ)) (nd : DNode σ κ)
    (hc : DChain m sampler start pm nd) :
    ∀ (k : Nat) (v : DNode σ κ), nd.id.id < k →
      DChain m sampler start (setL pm k v) nd := by
  induction hc with
  | root nd hnone hstate hctrl hg =>
    intro k v hk
    exact DChain.root nd (by rw [lookupL_setL_ne _ _ _ _ (by omega)]; exact hnone)
      hstate hctrl hg
  | step nd p hlook hchain hid hmem hint hg ih =>
    intro k v hk
    exact DChain.step nd p (by rw [lookupL_setL_ne _ _ _ _ (by omega)]; exact hlook)
      (ih k v (by omega)) hid hmem hint hg

theorem lookupL_zero_of_keys_pos {β : Type} (pm : List (Nat × β))
    (h : ∀ kp ∈ pm, 1 ≤ kp.1) : lookupL pm 0 = none := by
  induction pm with
  | nil => rfl
  | cons kv rest ih =>
    obtain ⟨k0, v0⟩ := kv
    have h0 : 1 ≤ k0 := h (k0, v0) (List.mem_cons_self _ _)
    simp only [lookupL, if_neg (by omega : ¬(k0 = 0))]
    exact ih (fun kp hkp => h kp (List.mem_cons_of_mem _ hkp))

end ChainStability

section WfPreservation

theorem AStar.expand_wf (m : HeuristicModel σ κ π) (sampler : σ → List κ)
    (start goal : σ) (current : ANode σ κ) (e : AStar σ κ π) (c : κ)
    (hW : AStar.WfP m sampler start e)
    (hcurc : AChain m sampler start e.parent_map current)
    (hcuri : current.id.id ≤ e.id_counter)
    (hcmem : c ∈ sampler current.state) :
    AStar.WfP m sampler start (AStar.expand m goal current e c) ∧
    AChain m sampler start (AStar.expand m goal current e c).parent_map current ∧
    current.id.id ≤ (AStar.expand m goal current e c).id_counter ∧
    e.id_counter ≤ (AStar.expand m goal current e c).id_counter := by
  obtain ⟨hWq, hWp⟩ := hW
  rcases AStar.expand_spec m goal current e c with ⟨hI, heq⟩ | ⟨cs, hI, hcase⟩
  · rw [heq]; exact ⟨⟨hWq, hWp⟩, hcurc, hcuri, le_refl _⟩
  · rcases hcase with ⟨best, hG, hle, heq⟩ | ⟨hG, heq⟩
    · rw [heq]
      refine ⟨⟨?_, ?_⟩, hcurc, by dsimp only; omega, by dsimp only; omega⟩
      · intro kv hkv
        exact ⟨(hWq kv hkv).1, by have := (hWq kv hkv).2; dsimp only; omega⟩
      · intro kp hkp
        have := hWp kp hkp
        exact ⟨this.1, this.2.1, by dsimp only; omega⟩
    · rw [heq]
      have hchild : AChain m sampler start
          (setL e.parent_map (e.id_counter + 1) current)
          (AStar.child m goal current e c cs) := by
        refine AChain.step _ current ?_ ?_ ?_ ?_ ?_ ?_
        · exact lookupL_setL_self _ _ _
        · exact AChain_setL m sampler start e.parent_map current hcurc _ _ (by omega)
        · show current.id.id < e.id_counter + 1
          omega
        · exact hcmem
        · exact hI
        · rfl
      refine ⟨⟨?_, ?_⟩, ?_, by dsimp only; omega, by dsimp only; omega⟩
      · intro kv hkv
        dsimp only at hkv
        rcases List.mem_append.mp hkv with hold | hnew
        · have h1 := hWq kv hold
          exact ⟨AChain_setL m sampler start e.parent_map kv.2 h1.1 _ _ (by omega),
            by dsimp only; omega⟩
        · have : kv = ((AStar.child m goal current e c cs).id.f,
              AStar.child m goal current e c cs) := by
            simpa using hnew
          rw [this]
          exact ⟨hchild, by dsimp only [AStar.child]; omega⟩
      · intro kp hkp
        dsimp only at hkp
        rcases mem_setL e.parent_map (e.id_counter + 1) current kp hkp with hnew | hold
        · rw [hnew]
          dsimp only
          exact ⟨by omega, by omega, by omega⟩
        · have := hWp kp hold
          exact ⟨this.1, this.2.1, by dsimp only; omega⟩
      · exact AChain_setL m sampler start e.parent_map current hcurc _ _ (by omega)


theorem Dijkstra.expand_wf_d (m : Model σ κ π) (sampler : σ → List κ)
    (start : σ) (current : DNode σ κ) (e : Dijkstra σ κ π) (c : κ)
    (hW : Dijkstra.WfP m sampler start e)
    (hcurc : DChain m sampler start e.parent_map current)
    (hcuri : current.id.id ≤ e.id_counter)
    (hcmem : c ∈ sampler current.state) :
    Dijkstra.WfP m sampler start (Dijkstra.expand m current e c) ∧
    DChain m sampler start (Dijkstra.expand m current e c).parent_map current ∧
    current.id.id ≤ (Dijkstra.expand m current e c).id_counter ∧
    e.id_counter ≤ (Dijkstra.expand m current e c).id_counter := by
  obtain ⟨hWq, hWp⟩ := hW
  rcases Dijkstra.expand_spec_d m current e c with ⟨hI, heq⟩ | ⟨cs, hI, hcase⟩
  · rw [heq]; exact ⟨⟨hWq, hWp⟩, hcurc, hcuri, le_refl _⟩
  · rcases hcase with ⟨best, hG, hle, heq⟩ | ⟨hG, heq⟩
    · rw [heq]
      refine ⟨⟨?_, ?_⟩, hcurc, by dsimp only; omega, by dsimp only; omega⟩
      · intro kv hkv
        exact ⟨(hWq kv hkv).1, by have := (hWq kv hkv).2; dsimp only; omega⟩
      · intro kp hkp
        have := hWp kp hkp
        exact ⟨this.1, this.2.1, by dsimp only; omega⟩
    · rw [heq]
      have hchild : DChain m sampler start
          (setL e.parent_map (e.id_counter + 1) current)
          (Dijkstra.child m current e c cs) := by
        refine DChain.step _ current ?_ ?_ ?_ ?_ ?_ ?_
        · exact lookupL_setL_self _ _ _
        · exact DChain_setL m sampler start e.parent_map current hcurc _ _ (by omega)
        · show current.id.id < e.id_counter + 1
          omega
        · exact hcmem
        · exact hI
        · rfl
      refine ⟨⟨?_, ?_⟩, ?_, by dsimp only; omega, by dsimp only; omega⟩
      · intro kv hkv
        dsimp only at hkv
        rcases List.mem_append.mp hkv with hold | hnew
        · have h1 := hWq kv hold
          exact ⟨DChain_setL m sampler start e.parent_map kv.2 h1.1 _ _ (by omega),
            by dsimp only; omega⟩
        · have : kv = ((Dijkstra.child m current e c cs).id.g,
              Dijkstra.child m current e c cs) := by
            simpa using hnew
          rw [this]
          exact ⟨hchild, by dsimp only [Dijkstra.child]; omega⟩
      · intro kp hkp
        dsimp only at hkp
        rcases mem_setL e.parent_map (e.id_counter + 1) current kp hkp with hnew | hold
        · rw [hnew]
          dsimp only
          exact ⟨by omega, by omega, by omega⟩
        · have := hWp kp hold
          exact ⟨this.1, this.2.1, by dsimp only; omega⟩
      · exact DChain_setL m sampler start e.parent_map current hcurc _ _ (by omega)

theorem AStar.fold_wf (m : HeuristicModel σ κ π) (sampler : σ → List κ)
    (start goal : σ) (current : ANode σ κ) :
    ∀ (l : List κ) (e : AStar σ κ π),
      (∀ c ∈ l, c ∈ sampler current.state) →
      AStar.WfP m sampler start e →
      AChain m sampler start e.parent_map current →
      current.id.id ≤ e.id_counter →
      AStar.WfP m sampler start (l.foldl (AStar.expand m goal current) e) ∧
      e.id_counter ≤ (l.foldl (AStar.expand m goal current) e).id_counter ∧
      AChain m sampler start (l.foldl (AStar.expand m goal current) e).parent_map current ∧
      current.id.id ≤ (l.foldl (AStar.expand m goal current) e).id_counter := by
  intro l
  induction l with
  | nil => intro e _ hW hcur hid; exact ⟨hW, le_refl _, hcur, hid⟩
  | cons c cs ih =>
    intro e hmem hW hcur hid
    simp only [List.foldl_cons]
    have h1 := AStar.expand_wf m sampler start goal current e c hW hcur hid
      (hmem c (List.mem_cons_self _ _))
    have h2 := ih (AStar.expand m goal current e c)
      (fun x hx => hmem x (List.mem_cons_of_mem _ hx)) h1.1 h1.2.1 h1.2.2.1
    exact ⟨h2.1, le_trans h1.2.2.2 h2.2.1, h2.2.2⟩

theorem Dijkstra.fold_wf_d (m : Model σ κ π) (sampler : σ → List κ)
    (start : σ) (current : DNode σ κ) :
    ∀ (l : List κ) (e : Dijkstra σ κ π),
      (∀ c ∈ l, c ∈ sampler current.state) →
      Dijkstra.WfP m sampler start e →
      DChain m sampler start e.parent_map current →
      current.id.id ≤ e.id_counter →
      Dijkstra.WfP m sampler start (l.foldl (Dijkstra.expand m current) e) ∧
      e.id_counter ≤ (l.foldl (Dijkstra.expand m current) e).id_counter ∧
      DChain m sampler start (l.foldl (Dijkstra.expand m current) e).parent_map current ∧
      current.id.id ≤ (l.foldl (Dijkstra.expand m current) e).id_counter := by
  intro l
  induction l with
  | nil => intro e _ hW hcur hid; exact ⟨hW, le_refl _, hcur, hid⟩
  | cons c cs ih =>
    intro e hmem hW hcur hid
    simp only [List.foldl_cons]
    have h1 := Dijkstra.expand_wf_d m sampler start current e c hW hcur hid
      (hmem c (List.mem_cons_self _ _))
    have h2 := ih (Dijkstra.expand m current e c)
      (fun x hx => hmem x (List.mem_cons_of_mem _ hx)) h1.1 h1.2.1 h1.2.2.1
    exact ⟨h2.1, le_trans h1.2.2.2 h2.2.1, h2.2.2⟩

theorem AStar.step_wf (m : HeuristicModel σ κ π) (sampler : σ → List κ)
    (start goal : σ) (current : ANode σ κ) (e : AStar σ κ π)
    (hW : AStar.WfP m sampler start e)
    (hcur : AChain m sampler start e.parent_map current)
    (hid : current.id.id ≤ e.id_counter) :
    AStar.WfP m sampler start (AStar.step m goal sampler current e).2 ∧
    e.id_counter ≤ (AStar.step m goal sampler current e).2.id_counter ∧
    ((AStar.step m goal sampler current e).1 = m.converge current.state goal) ∧
    AChain m sampler start (AStar.step m goal sampler current e).2.parent_map current := by
  unfold AStar.step
  cases hcv : m.converge current.state goal with
  | true => exact ⟨hW, le_refl _, rfl, hcur⟩
  | false =>
    have h := AStar.fold_wf m sampler start goal current (sampler current.state) e
      (fun c hc => hc) hW hcur hid
    exact ⟨h.1, h.2.1, rfl, h.2.2.1⟩

theorem Dijkstra.step_wf_d (m : Model σ κ π) (sampler : σ → List κ)
    (start goal : σ) (current : DNode σ κ) (e : Dijkstra σ κ π)
    (hW : Dijkstra.WfP m sampler start e)
    (hcur : DChain m sampler start e.parent_map current)
    (hid : current.id.id ≤ e.id_counter) :
    Dijkstra.WfP m sampler start (Dijkstra.step m goal sampler current e).2 ∧
    e.id_counter ≤ (Dijkstra.step m goal sampler current e).2.id_counter ∧
    ((Dijkstra.step m goal sampler current e).1 = m.converge current.state goal) ∧
    DChain m sampler start (Dijkstra.step m goal sampler current e).2.parent_map current := by
  unfold Dijkstra.step
  cases hcv : m.converge current.state goal with
  | true => exact ⟨hW, le_refl _, rfl, hcur⟩
  | false =>
    have h := Dijkstra.fold_wf_d m sampler start current (sampler current.state) e
      (fun c hc => hc) hW hcur hid
    exact ⟨h.1, h.2.1, rfl, h.2.2.1⟩

end WfPreservation

section LoopSpec

theorem AStar.optLoopT_spec (m : HeuristicModel σ κ π) (sampler : σ → List κ)
    (start goal : σ) :
    ∀ (fuel : Nat) (e : AStar σ κ π) (log : ALog σ κ π) (r : PathResult σ κ)
      (e1 : AStar σ κ π) (log1 : ALog σ κ π),
      AStar.WfP m sampler start e →
      AStar.optLoopT m goal sampler fuel (e, log) = some (r, e1, log1) →
      AStar.WfP m sampler start e1 ∧
      e.id_counter ≤ e1.id_counter ∧
      ∃ newp, log1.pops = log.pops ++ newp ∧
        ((r = .Err .Unreachable ∧ e1.queue = [] ∧
          ∀ nd ∈ newp, m.converge nd.state goal = false) ∨
         (∃ pre nd, newp = pre ++ [nd] ∧
           (∀ x ∈ pre, m.converge x.state goal = false) ∧
           m.converge nd.state goal = true ∧
           AChain m sampler start e1.parent_map nd ∧
           nd.id.id ≤ e1.id_counter ∧
           r = .Final (AStar.unwind_trajectory m e1 nd))) := by
  intro fuel
  induction fuel with
  | zero => intro e log r e1 log1 hW h; simp [AStar.optLoopT] at h
  | succ fuel ih =>
    intro e log r e1 log1 hW h
    rw [AStar.optLoopT] at h
    cases hp : popMin e.queue with
    | none =>
      rw [hp] at h
      simp only [Option.some.injEq, Prod.mk.injEq] at h
      obtain ⟨hr, he1, hlog1⟩ := h
      subst hr; subst he1; subst hlog1
      refine ⟨hW, le_refl _, [], by simp, Or.inl ⟨rfl, (popMin_none_iff _).mp hp, by simp⟩⟩
    | some er =>
      obtain ⟨entry, rest⟩ := er
      rw [hp] at h
      dsimp only at h
      have hqperm := popMin_perm e.queue entry rest hp
      have hqmem : entry ∈ e.queue := hqperm.mem_iff.mpr (List.mem_cons_self _ _)
      have hchainE := (hW.1 entry hqmem).1
      have hidE := (hW.1 entry hqmem).2
      have hWrest : AStar.WfP m sampler start { e with queue := rest } := by
        constructor
        · intro kv hkv
          exact hW.1 kv (hqperm.mem_iff.mpr (List.mem_cons_of_mem _ hkv))
        · exact hW.2
      have hfst := AStar.stepT_fst m goal sampler entry.2
        ({ e with queue := rest }, { log with pops := log.pops ++ [entry.2] })
      have hpops := AStar.stepT_pops m goal sampler entry.2
        ({ e with queue := rest }, { log with pops := log.pops ++ [entry.2] })
      cases hs : AStar.stepT m goal sampler entry.2
        ({ e with queue := rest }, { log with pops := log.pops ++ [entry.2] }) with
      | mk done el2 =>
        obtain ⟨E2, L2⟩ := el2
        rw [hs] at h hfst hpops
        dsimp only at h hfst hpops
        have hsw := AStar.step_wf m sampler start goal entry.2 { e with queue := rest }
          hWrest hchainE hidE
        cases done with
        | true =>
          simp only [Option.some.injEq, Prod.mk.injEq] at h
          obtain ⟨hr, he1, hlog1⟩ := h
          subst hr; subst he1; subst hlog1
          have hengine : E2 = (AStar.step m goal sampler entry.2 { e with queue := rest }).2 :=
            hfst.2
          have hconv : m.converge entry.2.state goal = true := by
            have h3 := hsw.2.2.1
            rw [← h3, ← hfst.1]
          refine ⟨by rw [hengine]; exact hsw.1, by rw [hengine]; exact hsw.2.1,
            [entry.2], by rw [hpops], Or.inr ⟨[], entry.2, by simp, by simp, hconv, ?_, ?_, rfl⟩⟩
          · rw [hengine]; exact hsw.2.2.2
          · rw [hengine]
            exact le_trans hidE hsw.2.1
        | false =>
          have hengine : E2 = (AStar.step m goal sampler entry.2 { e with queue := rest }).2 :=
            hfst.2
          have hconv : m.converge entry.2.state goal = false := by
            have h3 := hsw.2.2.1
            rw [← h3, ← hfst.1]
          have hW2 : AStar.WfP m sampler start E2 := by rw [hengine]; exact hsw.1
          have hrec := ih E2 L2 r e1 log1 hW2 h
          refine ⟨hrec.1, ?_, ?_⟩
          · refine le_trans ?_ hrec.2.1
            rw [hengine]
            exact hsw.2.1
          · obtain ⟨newp, hnp, hdisj⟩ := hrec.2.2
            refine ⟨entry.2 :: newp, ?_, ?_⟩
            · rw [hnp, hpops]
              simp
            · rcases hdisj with ⟨hr, hq, hall⟩ | ⟨pre, nd, hpre, hallpre, hcv, hch, hid2, hr⟩
              · exact Or.inl ⟨hr, hq, by
                  intro nd hnd
                  rcases List.mem_cons.mp hnd with h1 | h1
                  · rw [h1]; exact hconv
                  · exact hall nd h1⟩
              · exact Or.inr ⟨entry.2 :: pre, nd, by rw [hpre]; simp, by
                  intro x hx
                  rcases List.mem_cons.mp hx with h1 | h1
                  · rw [h1]; exact hconv
                  · exact hallpre x h1, hcv, hch, hid2, hr⟩


theorem Dijkstra.optLoopT_spec_d (m : Model σ κ π) (sampler : σ → List κ)
    (start goal : σ) :
    ∀ (fuel : Nat) (e : Dijkstra σ κ π) (log : DLog σ κ π) (r : PathResult σ κ)
      (e1 : Dijkstra σ κ π) (log1 : DLog σ κ π),
      Dijkstra.WfP m sampler start e →
      Dijkstra.optLoopT m goal sampler fuel (e, log) = some (r, e1, log1) →
      Dijkstra.WfP m sampler start e1 ∧
      e.id_counter ≤ e1.id_counter ∧
      ∃ newp, log1.pops = log.pops ++ newp ∧
        ((r = .Err .Unreachable ∧ e1.queue = [] ∧
          ∀ nd ∈ newp, m.converge nd.state goal = false) ∨
         (∃ pre nd, newp = pre ++ [nd] ∧
           (∀ x ∈ pre, m.converge x.state goal = false) ∧
           m.converge nd.state goal = true ∧
           DChain m sampler start e1.parent_map nd ∧
           nd.id.id ≤ e1.id_counter ∧
           r = .Final (Dijkstra.unwind_trajectory e1 nd))) := by
  intro fuel
  induction fuel with
  | zero => intro e log r e1 log1 hW h; simp [Dijkstra.optLoopT] at h
  | succ fuel ih =>
    intro e log r e1 log1 hW h
    rw [Dijkstra.optLoopT] at h
    cases hp : popMax e.queue with
    | none =>
      rw [hp] at h
      simp only [Option.some.injEq, Prod.mk.injEq] at h
      obtain ⟨hr, he1, hlog1⟩ := h
      subst hr; subst he1; subst hlog1
      refine ⟨hW, le_refl _, [], by simp, Or.inl ⟨rfl, (popMax_none_iff _).mp hp, by simp⟩⟩
    | some er =>
      obtain ⟨entry, rest⟩ := er
      rw [hp] at h
      dsimp only at h
      have hqperm := popMax_perm e.queue entry rest hp
      have hqmem : entry ∈ e.queue := hqperm.mem_iff.mpr (List.mem_cons_self _ _)
      have hchainE := (hW.1 entry hqmem).1
      have hidE := (hW.1 entry hqmem).2
      have hWrest : Dijkstra.WfP m sampler start { e with queue := rest } := by
        constructor
        · intro kv hkv
          exact hW.1 kv (hqperm.mem_iff.mpr (List.mem_cons_of_mem _ hkv))
        · exact hW.2
      have hfst := Dijkstra.stepT_fst_d m goal sampler entry.2
        ({ e with queue := rest }, { log with pops := log.pops ++ [entry.2] })
      have hpops := Dijkstra.stepT_pops_d m goal sampler entry.2
        ({ e with queue := rest }, { log with pops := log.pops ++ [entry.2] })
      cases hs : Dijkstra.stepT m goal sampler entry.2
        ({ e with queue := rest }, { log with pops := log.pops ++ [entry.2] }) with
      | mk done el2 =>
        obtain ⟨E2, L2⟩ := el2
        rw [hs] at h hfst hpops
        dsimp only at h hfst hpops
        have hsw := Dijkstra.step_wf_d m sampler start goal entry.2 { e with queue := rest }
          hWrest hchainE hidE
        cases done with
        | true =>
          simp only [Option.some.injEq, Prod.mk.injEq] at h
          obtain ⟨hr, he1, hlog1⟩ := h
          subst hr; subst he1; subst hlog1
          have hengine : E2 = (Dijkstra.step m goal sampler entry.2 { e with queue := rest }).2 :=
            hfst.2
          have hconv : m.converge entry.2.state goal = true := by
            have h3 := hsw.2.2.1
            rw [← h3, ← hfst.1]
          refine ⟨by rw [hengine]; exact hsw.1, by rw [hengine]; exact hsw.2.1,
            [entry.2], by rw [hpops], Or.inr ⟨[], entry.2, by simp, by simp, hconv, ?_, ?_, rfl⟩⟩
          · rw [hengine]; exact hsw.2.2.2
          · rw [hengine]
            exact le_trans hidE hsw.2.1
        | false =>
          have hengine : E2 = (Dijkstra.step m goal sampler entry.2 { e with queue := rest }).2 :=
            hfst.2
          have hconv : m.converge entry.2.state goal = false := by
            have h3 := hsw.2.2.1
            rw [← h3, ← hfst.1]
          have hW2 : Dijkstra.WfP m sampler start E2 := by rw [hengine]; exact hsw.1
          have hrec := ih E2 L2 r e1 log1 hW2 h
          refine ⟨hrec.1, ?_, ?_⟩
          · refine le_trans ?_ hrec.2.1
            rw [hengine]
            exact hsw.2.1
          · obtain ⟨newp, hnp, hdisj⟩ := hrec.2.2
            refine ⟨entry.2 :: newp, ?_, ?_⟩
            · rw [hnp, hpops]
              simp
            · rcases hdisj with ⟨hr, hq, hall⟩ | ⟨pre, nd, hpre, hallpre, hcv, hch, hid2, hr⟩
              · exact Or.inl ⟨hr, hq, by
                  intro nd hnd
                  rcases List.mem_cons.mp hnd with h1 | h1
                  · rw [h1]; exact hconv
                  · exact hall nd h1⟩
              · exact Or.inr ⟨entry.2 :: pre, nd, by rw [hpre]; simp, by
                  intro x hx
                  rcases List.mem_cons.mp hx with h1 | h1
                  · rw [h1]; exact hconv
                  · exact hallpre x h1, hcv, hch, hid2, hr⟩

end LoopSpec

section CallSpec

theorem AStar.seed_wf (m : HeuristicModel σ κ π) (sampler : σ → List κ)
    (start goal : σ) (e : AStar σ κ π) (hW : AStar.WfP m sampler start e) :
    AStar.WfP m sampler start { e with queue := e.queue ++ [AStar.seed m start goal] } := by
  constructor
  · intro kv hkv
    dsimp only at hkv
    rcases List.mem_append.mp hkv with hold | hnew
    · exact hW.1 kv hold
    · have : kv = AStar.seed m start goal := by simpa using hnew
      rw [this]
      refine ⟨AChain.root _ ?_ rfl rfl rfl, by simp [AStar.seed]⟩
      exact lookupL_zero_of_keys_pos e.parent_map (fun kp hkp => (hW.2 kp hkp).2.1)
  · exact hW.2

theorem Dijkstra.seed_wf_d (m : Model σ κ π) (sampler : σ → List κ)
    (start : σ) (e : Dijkstra σ κ π) (hW : Dijkstra.WfP m sampler start e) :
    Dijkstra.WfP m sampler start { e with queue := e.queue ++ [Dijkstra.seed m start] } := by
  constructor
  · intro kv hkv
    dsimp only at hkv
    rcases List.mem_append.mp hkv with hold | hnew
    · exact hW.1 kv hold
    · have : kv = Dijkstra.seed m start := by simpa using hnew
      rw [this]
      refine ⟨DChain.root _ ?_ rfl rfl rfl, by simp [Dijkstra.seed]⟩
      exact lookupL_zero_of_keys_pos e.parent_map (fun kp hkp => (hW.2 kp hkp).2.1)
  · exact hW.2

theorem AStar.optimizeT_spec (fuel : Nat) (m : HeuristicModel σ κ π)
    (start goal : σ) (sampler : σ → List κ) (e : AStar σ κ π) (log : ALog σ κ π)
    (r : PathResult σ κ) (e1 : AStar σ κ π) (log1 : ALog σ κ π)
    (hW : AStar.WfP m sampler start e)
    (h : AStar.optimizeT fuel m start goal sampler (e, log) = some (r, e1, log1)) :
    AStar.WfP m sampler start e1 ∧
    e.id_counter ≤ e1.id_counter ∧
    ((m.converge start goal = true ∧
      r = .Final ⟨0, [(start, m.default_control)]⟩ ∧ e1 = e ∧ log1 = log) ∨
     (m.converge start goal = false ∧
      ∃ newp, log1.pops = log.pops ++ newp ∧
        ((r = .Err .Unreachable ∧ e1.queue = [] ∧
          ∀ nd ∈ newp, m.converge nd.state goal = false) ∨
         (∃ pre nd, newp = pre ++ [nd] ∧
           (∀ x ∈ pre, m.converge x.state goal = false) ∧
           m.converge nd.state goal = true ∧
           AChain m sampler start e1.parent_map nd ∧
           nd.id.id ≤ e1.id_counter ∧
           r = .Final (AStar.unwind_trajectory m e1 nd))))) := by
  unfold AStar.optimizeT at h
  cases hcv : m.converge start goal with
  | true =>
    rw [hcv] at h
    simp only [if_true, Option.some.injEq, Prod.mk.injEq] at h
    obtain ⟨hr, he1, hlog1⟩ := h
    subst hr; subst he1; subst hlog1
    exact ⟨hW, le_refl _, Or.inl ⟨rfl, rfl, rfl, rfl⟩⟩
  | false =>
    rw [hcv] at h
    simp only [if_false, Bool.false_eq_true] at h
    by_cases hq : e.queue.isEmpty
    · rw [if_pos hq] at h
      have hWs := AStar.seed_wf m sampler start goal e hW
      have hspec := AStar.optLoopT_spec m sampler start goal fuel
        { e with queue := e.queue ++ [AStar.seed m start goal] }
        { log with pushes := log.pushes ++ [(AStar.seed m start goal).2] }
        r e1 log1 hWs h
      exact ⟨hspec.1, hspec.2.1, Or.inr ⟨rfl, hspec.2.2⟩⟩
    · rw [if_neg hq] at h
      have hspec := AStar.optLoopT_spec m sampler start goal fuel e log r e1 log1 hW h
      exact ⟨hspec.1, hspec.2.1, Or.inr ⟨rfl, hspec.2.2⟩⟩

theorem Dijkstra.optimizeT_spec_d (fuel : Nat) (m : Model σ κ π)
    (start goal : σ) (sampler : σ → List κ) (e : Dijkstra σ κ π) (log : DLog σ κ π)
    (r : PathResult σ κ) (e1 : Dijkstra σ κ π) (log1 : DLog σ κ π)
    (hW : Dijkstra.WfP m sampler start e)
    (h : Dijkstra.optimizeT fuel m start goal sampler (e, log) = some (r, e1, log1)) :
    Dijkstra.WfP m sampler start e1 ∧
    e.id_counter ≤ e1.id_counter ∧
    ((m.converge start goal = true ∧
      r = .Final ⟨0, [(start, m.default_control)]⟩ ∧ e1 = e ∧ log1 = log) ∨
     (m.converge start goal = false ∧
      ∃ newp, log1.pops = log.pops ++ newp ∧
        ((r = .Err .Unreachable ∧ e1.queue = [] ∧
          ∀ nd ∈ newp, m.converge nd.state goal = false) ∨
         (∃ pre nd, newp = pre ++ [nd] ∧
           (∀ x ∈ pre, m.converge x.state goal = false) ∧
           m.converge nd.state goal = true ∧
           DChain m sampler start e1.parent_map nd ∧
           nd.id.id ≤ e1.id_counter ∧
           r = .Final (Dijkstra.unwind_trajectory e1 nd))))) := by
  unfold Dijkstra.optimizeT at h
  cases hcv : m.converge start goal with
  | true =>
    rw [hcv] at h
    simp only [if_true, Option.some.injEq, Prod.mk.injEq] at h
    obtain ⟨hr, he1, hlog1⟩ := h
    subst hr; subst he1; subst hlog1
    exact ⟨hW, le_refl _, Or.inl ⟨rfl, rfl, rfl, rfl⟩⟩
  | false =>
    rw [hcv] at h
    simp only [if_false, Bool.false_eq_true] at h
    by_cases hq : e.queue.isEmpty
    · rw [if_pos hq] at h
      have hWs := Dijkstra.seed_wf_d m sampler start e hW
      have hspec := Dijkstra.optLoopT_spec_d m sampler start goal fuel
        { e with queue := e.queue ++ [Dijkstra.seed m start] }
        { log with pushes := log.pushes ++ [(Dijkstra.seed m start).2] }
        r e1 log1 hWs h
      exact ⟨hspec.1, hspec.2.1, Or.inr ⟨rfl, hspec.2.2⟩⟩
    · rw [if_neg hq] at h
      have hspec := Dijkstra.optLoopT_spec_d m sampler start goal fuel e log r e1 log1 hW h
      exact ⟨hspec.1, hspec.2.1, Or.inr ⟨rfl, hspec.2.2⟩⟩

end CallSpec

section NtSpec

theorem AStar.next_trajectoryT_core (m : HeuristicModel σ κ π)
    (start goal : σ) (sampler : σ → List κ) (e : AStar σ κ π) (log : ALog σ κ π)
    (r : PathResult σ κ) (e1 : AStar σ κ π) (log1 : ALog σ κ π)
    (hW : AStar.WfP m sampler start e)
    (hne : ¬(e.parent_map.isEmpty && e.queue.isEmpty) = true)
    (h : AStar.next_trajectoryT m start goal sampler (e, log) = (r, e1, log1)) :
    AStar.WfP m sampler start e1 ∧
    e.id_counter ≤ e1.id_counter ∧
    ((r = .Err .Unreachable ∧ log1.pops = log.pops ∧ e1 = e ∧ e.queue = []) ∨
     (∃ nd, log1.pops = log.pops ++ [nd] ∧
       AChain m sampler start e1.parent_map nd ∧
       nd.id.id ≤ e1.id_counter ∧
       ((m.converge nd.state goal = true ∧
         r = .Final (AStar.unwind_trajectory m e1 nd)) ∨
        (m.converge nd.state goal = false ∧
         r = .Intermediate (AStar.unwind_trajectory m e1 nd))))) := by
  unfold AStar.next_trajectoryT at h
  rw [if_neg hne] at h
  dsimp only at h
  cases hp : popMin e.queue with
  | none =>
    rw [hp] at h
    simp only [Prod.mk.injEq] at h
    obtain ⟨hr, he1, hlog1⟩ := h
    exact ⟨by rw [← he1]; exact hW, by rw [← he1], Or.inl ⟨hr.symm, by rw [← hlog1],
      he1.symm, (popMin_none_iff _).mp hp⟩⟩
  | some er =>
    obtain ⟨entry, rest⟩ := er
    rw [hp] at h
    dsimp only at h
    have hqperm := popMin_perm e.queue entry rest hp
    have hqmem : entry ∈ e.queue := hqperm.mem_iff.mpr (List.mem_cons_self _ _)
    have hchainE := (hW.1 entry hqmem).1
    have hidE := (hW.1 entry hqmem).2
    have hWrest : AStar.WfP m sampler start { e with queue := rest } := by
      constructor
      · intro kv hkv
        exact hW.1 kv (hqperm.mem_iff.mpr (List.mem_cons_of_mem _ hkv))
      · exact hW.2
    have hfst := AStar.stepT_fst m goal sampler entry.2
      ({ e with queue := rest }, { log with pops := log.pops ++ [entry.2] })
    have hpops := AStar.stepT_pops m goal sampler entry.2
      ({ e with queue := rest }, { log with pops := log.pops ++ [entry.2] })
    cases hs : AStar.stepT m goal sampler entry.2
      ({ e with queue := rest }, { log with pops := log.pops ++ [entry.2] }) with
    | mk done el2 =>
      obtain ⟨E2, L2⟩ := el2
      rw [hs] at h hfst hpops
      dsimp only at h hfst hpops
      have hsw := AStar.step_wf m sampler start goal entry.2 { e with queue := rest }
        hWrest hchainE hidE
      have hengine : E2 = (AStar.step m goal sampler entry.2 { e with queue := rest }).2 :=
        hfst.2
      cases done with
      | true =>
        simp only [Prod.mk.injEq] at h
        obtain ⟨hr, he1, hlog1⟩ := h
        subst he1; subst hlog1
        have hconv : m.converge entry.2.state goal = true := by
          have h3 := hsw.2.2.1
          rw [← h3, ← hfst.1]
        refine ⟨by rw [hengine]; exact hsw.1, by rw [hengine]; exact hsw.2.1,
          Or.inr ⟨entry.2, hpops, by rw [hengine]; exact hsw.2.2.2,
            by rw [hengine]; exact le_trans hidE hsw.2.1,
            Or.inl ⟨hconv, hr.symm⟩⟩⟩
      | false =>
        simp only [Prod.mk.injEq] at h
        obtain ⟨hr, he1, hlog1⟩ := h
        subst he1; subst hlog1
        have hconv : m.converge entry.2.state goal = false := by
          have h3 := hsw.2.2.1
          rw [← h3, ← hfst.1]
        refine ⟨by rw [hengine]; exact hsw.1, by rw [hengine]; exact hsw.2.1,
          Or.inr ⟨entry.2, hpops, by rw [hengine]; exact hsw.2.2.2,
            by rw [hengine]; exact le_trans hidE hsw.2.1,
            Or.inr ⟨hconv, hr.symm⟩⟩⟩

theorem AStar.next_trajectoryT_spec (m : HeuristicModel σ κ π)
    (start goal : σ) (sampler : σ → List κ) (e : AStar σ κ π) (log : ALog σ κ π)
    (r : PathResult σ κ) (e1 : AStar σ κ π) (log1 : ALog σ κ π)
    (hW : AStar.WfP m sampler start e)
    (h : AStar.next_trajectoryT m start goal sampler (e, log) = (r, e1, log1)) :
    AStar.WfP m sampler start e1 ∧
    e.id_counter ≤ e1.id_counter ∧
    ((r = .Err .Unreachable ∧ log1.pops = log.pops) ∨
     (∃ nd, log1.pops = log.pops ++ [nd] ∧
       AChain m sampler start e1.parent_map nd ∧
       nd.id.id ≤ e1.id_counter ∧
       ((m.converge nd.state goal = true ∧
         r = .Final (AStar.unwind_trajectory m e1 nd)) ∨
        (m.converge nd.state goal = false ∧
         r = .Intermediate (AStar.unwind_trajectory m e1 nd))))) := by
  by_cases hb : (e.parent_map.isEmpty && e.queue.isEmpty) = true
  · have hseed : AStar.next_trajectoryT m start goal sampler (e, log) =
        AStar.next_trajectoryT m start goal sampler
          ({ e with queue := e.queue ++ [AStar.seed m start goal] },
           { log with pushes := log.pushes ++ [(AStar.seed m start goal).2] }) := by
      rw [AStar.next_trajectoryT, if_pos hb]
      rw [AStar.next_trajectoryT, if_neg (by
        have : e.queue ++ [AStar.seed m start goal] ≠ [] := by simp
        simp [List.isEmpty_iff, this])]
    rw [hseed] at h
    have hWs := AStar.seed_wf m sampler start goal e hW
    have hcore := AStar.next_trajectoryT_core m start goal sampler _ _ r e1 log1 hWs
      (by
        have : e.queue ++ [AStar.seed m start goal] ≠ [] := by simp
        simp [List.isEmpty_iff, this]) h
    refine ⟨hcore.1, hcore.2.1, ?_⟩
    rcases hcore.2.2 with ⟨hr, hpops, he1, hq⟩ | hrest
    · exact absurd hq (by simp)
    · exact Or.inr hrest
  · have hcore := AStar.next_trajectoryT_core m start goal sampler e log r e1 log1 hW hb h
    refine ⟨hcore.1, hcore.2.1, ?_⟩
    rcases hcore.2.2 with ⟨hr, hpops, he1, hq⟩ | hrest
    · exact Or.inl ⟨hr, hpops⟩
    · exact Or.inr hrest


theorem Dijkstra.next_trajectoryT_core_d (m : Model σ κ π)
    (start goal : σ) (sampler : σ → List κ) (e : Dijkstra σ κ π) (log : DLog σ κ π)
    (r : PathResult σ κ) (e1 : Dijkstra σ κ π) (log1 : DLog σ κ π)
    (hW : Dijkstra.WfP m sampler start e)
    (hne : ¬(e.parent_map.isEmpty && e.queue.isEmpty) = true)
    (h : Dijkstra.next_trajectoryT m start goal sampler (e, log) = (r, e1, log1)) :
    Dijkstra.WfP m sampler start e1 ∧
    e.id_counter ≤ e1.id_counter ∧
    ((r = .Err .Unreachable ∧ log1.pops = log.pops ∧ e1 = e ∧ e.queue = []) ∨
     (∃ nd, log1.pops = log.pops ++ [nd] ∧
       DChain m sampler start e1.parent_map nd ∧
       nd.id.id ≤ e1.id_counter ∧
       ((m.converge nd.state goal = true ∧
         r = .Final (Dijkstra.unwind_trajectory e1 nd)) ∨
        (m.converge nd.state goal = false ∧
         r = .Intermediate (Dijkstra.unwind_trajectory e1 nd))))) := by
  unfold Dijkstra.next_trajectoryT at h
  rw [if_neg hne] at h
  dsimp only at h
  cases hp : popMax e.queue with
  | none =>
    rw [hp] at h
    simp only [Prod.mk.injEq] at h
    obtain ⟨hr, he1, hlog1⟩ := h
    exact ⟨by rw [← he1]; exact hW, by rw [← he1], Or.inl ⟨hr.symm, by rw [← hlog1],
      he1.symm, (popMax_none_iff _).mp hp⟩⟩
  | some er =>
    obtain ⟨entry, rest⟩ := er
    rw [hp] at h
    dsimp only at h
    have hqperm := popMax_perm e.queue entry rest hp
    have hqmem : entry ∈ e.queue := hqperm.mem_iff.mpr (List.mem_cons_self _ _)
    have hchainE := (hW.1 entry hqmem).1
    have hidE := (hW.1 entry hqmem).2
    have hWrest : Dijkstra.WfP m sampler start { e with queue := rest } := by
      constructor
      · intro kv hkv
        exact hW.1 kv (hqperm.mem_iff.mpr (List.mem_cons_of_mem _ hkv))
      · exact hW.2
    have hfst := Dijkstra.stepT_fst_d m goal sampler entry.2
      ({ e with queue := rest }, { log with pops := log.pops ++ [entry.2] })
    have hpops := Dijkstra.stepT_pops_d m goal sampler entry.2
      ({ e with queue := rest }, { log with pops := log.pops ++ [entry.2] })
    cases hs : Dijkstra.stepT m goal sampler entry.2
      ({ e with queue := rest }, { log with pops := log.pops ++ [entry.2] }) with
    | mk done el2 =>
      obtain ⟨E2, L2⟩ := el2
      rw [hs] at h hfst hpops
      dsimp only at h hfst hpops
      have hsw := Dijkstra.step_wf_d m sampler start goal entry.2 { e with queue := rest }
        hWrest hchainE hidE
      have hengine : E2 = (Dijkstra.step m goal sampler entry.2 { e with queue := rest }).2 :=
        hfst.2
      cases done with
      | true =>
        simp only [Prod.mk.injEq] at h
        obtain ⟨hr, he1, hlog1⟩ := h
        subst he1; subst hlog1
        have hconv : m.converge entry.2.state goal = true := by
          have h3 := hsw.2.2.1
          rw [← h3, ← hfst.1]
        refine ⟨by rw [hengine]; exact hsw.1, by rw [hengine]; exact hsw.2.1,
          Or.inr ⟨entry.2, hpops, by rw [hengine]; exact hsw.2.2.2,
            by rw [hengine]; exact le_trans hidE hsw.2.1,
            Or.inl ⟨hconv, hr.symm⟩⟩⟩
      | false =>
        simp only [Prod.mk.injEq] at h
        obtain ⟨hr, he1, hlog1⟩ := h
        subst he1; subst hlog1
        have hconv : m.converge entry.2.state goal = false := by
          have h3 := hsw.2.2.1
          rw [← h3, ← hfst.1]
        refine ⟨by rw [hengine]; exact hsw.1, by rw [hengine]; exact hsw.2.1,
          Or.inr ⟨entry.2, hpops, by rw [hengine]; exact hsw.2.2.2,
            by rw [hengine]; exact le_trans hidE hsw.2.1,
            Or.inr ⟨hconv, hr.symm⟩⟩⟩

theorem Dijkstra.next_trajectoryT_spec_d (m : Model σ κ π)
    (start goal : σ) (sampler : σ → List κ) (e : Dijkstra σ κ π) (log : DLog σ κ π)
    (r : PathResult σ κ) (e1 : Dijkstra σ κ π) (log1 : DLog σ κ π)
    (hW : Dijkstra.WfP m sampler start e)
    (h : Dijkstra.next_trajectoryT m start goal sampler (e, log) = (r, e1, log1)) :
    Dijkstra.WfP m sampler start e1 ∧
    e.id_counter ≤ e1.id_counter ∧
    ((r = .Err .Unreachable ∧ log1.pops = log.pops) ∨
     (∃ nd, log1.pops = log.pops ++ [nd] ∧
       DChain m sampler start e1.parent_map nd ∧
       nd.id.id ≤ e1.id_counter ∧
       ((m.converge nd.state goal = true ∧
         r = .Final (Dijkstra.unwind_trajectory e1 nd)) ∨
        (m.converge nd.state goal = false ∧
         r = .Intermediate (Dijkstra.unwind_trajectory e1 nd))))) := by
  by_cases hb : (e.parent_map.isEmpty && e.queue.isEmpty) = true
  · have hseed : Dijkstra.next_trajectoryT m start goal sampler (e, log) =
        Dijkstra.next_trajectoryT m start goal sampler
          ({ e with queue := e.queue ++ [Dijkstra.seed m start] },
           { log with pushes := log.pushes ++ [(Dijkstra.seed m start).2] }) := by
      rw [Dijkstra.next_trajectoryT, if_pos hb]
      rw [Dijkstra.next_trajectoryT, if_neg (by
        have : e.queue ++ [Dijkstra.seed m start] ≠ [] := by simp
        simp [List.isEmpty_iff, this])]
    rw [hseed] at h
    have hWs := Dijkstra.seed_wf_d m sampler start e hW
    have hcore := Dijkstra.next_trajectoryT_core_d m start goal sampler _ _ r e1 log1 hWs
      (by
        have : e.queue ++ [Dijkstra.seed m start] ≠ [] := by simp
        simp [List.isEmpty_iff, this]) h
    refine ⟨hcore.1, hcore.2.1, ?_⟩
    rcases hcore.2.2 with ⟨hr, hpops, he1, hq⟩ | hrest
    · exact absurd hq (by simp)
    · exact Or.inr hrest
  · have hcore := Dijkstra.next_trajectoryT_core_d m start goal sampler e log r e1 log1 hW hb h
    refine ⟨hcore.1, hcore.2.1, ?_⟩
    rcases hcore.2.2 with ⟨hr, hpops, he1, hq⟩ | hrest
    · exact Or.inl ⟨hr, hpops⟩
    · exact Or.inr hrest

end NtSpec

section IdInvPreservation

theorem AStar.expand_idinv (m : HeuristicModel σ κ π) (goal : σ)
    (current : ANode σ κ) (e : AStar σ κ π) (c : κ)
    (hI : AStar.IdInv e) (hcur : current.id.id ≤ e.id_counter) :
    AStar.IdInv (AStar.expand m goal current e c) ∧
    e.id_counter ≤ (AStar.expand m goal current e c).id_counter := by
  rcases AStar.expand_spec m goal current e c with ⟨_, heq⟩ | ⟨cs, _, hcase⟩
  · rw [heq]; exact ⟨hI, le_refl _⟩
  · rcases hcase with ⟨best, _, _, heq⟩ | ⟨_, heq⟩
    · rw [heq]
      refine ⟨⟨?_, ?_⟩, by dsimp only; omega⟩
      · intro kv hkv
        have := hI.1 kv hkv
        dsimp only
        omega
      · intro kp hkp
        have := hI.2 kp hkp
        dsimp only
        exact ⟨this.1, this.2.1, by omega⟩
    · rw [heq]
      refine ⟨⟨?_, ?_⟩, by dsimp only; omega⟩
      · intro kv hkv
        dsimp only at hkv
        rcases List.mem_append.mp hkv with hold | hnew
        · have := hI.1 kv hold
          dsimp only
          omega
        · have : kv = ((AStar.child m goal current e c cs).id.f,
              AStar.child m goal current e c cs) := by simpa using hnew
          rw [this]
          dsimp only [AStar.child]
          omega
      · intro kp hkp
        dsimp only at hkp
        rcases mem_setL e.parent_map (e.id_counter + 1) current kp hkp with hnew | hold
        · rw [hnew]
          dsimp only
          exact ⟨by omega, by omega, by omega⟩
        · have := hI.2 kp hold
          exact ⟨this.1, this.2.1, by dsimp only; omega⟩

theorem Dijkstra.expand_idinv_d (m : Model σ κ π)
    (current : DNode σ κ) (e : Dijkstra σ κ π) (c : κ)
    (hI : Dijkstra.IdInv e) (hcur : current.id.id ≤ e.id_counter) :
    Dijkstra.IdInv (Dijkstra.expand m current e c) ∧
    e.id_counter ≤ (Dijkstra.expand m current e c).id_counter := by
  rcases Dijkstra.expand_spec_d m current e c with ⟨_, heq⟩ | ⟨cs, _, hcase⟩
  · rw [heq]; exact ⟨hI, le_refl _⟩
  · rcases hcase with ⟨best, _, _, heq⟩ | ⟨_, heq⟩
    · rw [heq]
      refine ⟨⟨?_, ?_⟩, by dsimp only; omega⟩
      · intro kv hkv
        have := hI.1 kv hkv
        dsimp only
        omega
      · intro kp hkp
        have := hI.2 kp hkp
        dsimp only
        exact ⟨this.1, this.2.1, by omega⟩
    · rw [heq]
      refine ⟨⟨?_, ?_⟩, by dsimp only; omega⟩
      · intro kv hkv
        dsimp only at hkv
        rcases List.mem_append.mp hkv with hold | hnew
        · have := hI.1 kv hold
          dsimp only
          omega
        · have : kv = ((Dijkstra.child m current e c cs).id.g,
              Dijkstra.child m current e c cs) := by simpa using hnew
          rw [this]
          dsimp only [Dijkstra.child]
          omega
      · intro kp hkp
        dsimp only at hkp
        rcases mem_setL e.parent_map (e.id_counter + 1) current kp hkp with hnew | hold
        · rw [hnew]
          dsimp only
          exact ⟨by omega, by omega, by omega⟩
        · have := hI.2 kp hold
          exact ⟨this.1, this.2.1, by dsimp only; omega⟩

theorem AStar.fold_idinv (m : HeuristicModel σ κ π) (goal : σ)
    (current : ANode σ κ) :
    ∀ (l : List κ) (e : AStar σ κ π),
      AStar.IdInv e → current.id.id ≤ e.id_counter →
      AStar.IdInv (l.foldl (AStar.expand m goal current) e) ∧
      e.id_counter ≤ (l.foldl (AStar.expand m goal current) e).id_counter := by
  intro l
  induction l with
  | nil => intro e hI _; exact ⟨hI, le_refl _⟩
  | cons c cs ih =>
    intro e hI hcur
    simp only [List.foldl_cons]
    have h1 := AStar.expand_idinv m goal current e c hI hcur
    have h2 := ih (AStar.expand m goal current e c) h1.1 (by omega)
    exact ⟨h2.1, le_trans h1.2 h2.2⟩

theorem Dijkstra.fold_idinv_d (m : Model σ κ π) (current : DNode σ κ) :
    ∀ (l : List κ) (e : Dijkstra σ κ π),
      Dijkstra.IdInv e → current.id.id ≤ e.id_counter →
      Dijkstra.IdInv (l.foldl (Dijkstra.expand m current) e) ∧
      e.id_counter ≤ (l.foldl (Dijkstra.expand m current) e).id_counter := by
  intro l
  induction l with
  | nil => intro e hI _; exact ⟨hI, le_refl _⟩
  | cons c cs ih =>
    intro e hI hcur
    simp only [List.foldl_cons]
    have h1 := Dijkstra.expand_idinv_d m current e c hI hcur
    have h2 := ih (Dijkstra.expand m current e c) h1.1 (by omega)
    exact ⟨h2.1, le_trans h1.2 h2.2⟩

theorem AStar.step_idinv (m : HeuristicModel σ κ π) (goal : σ)
    (sampler : σ → List κ) (current : ANode σ κ) (e : AStar σ κ π)
    (hI : AStar.IdInv e) (hcur : current.id.id ≤ e.id_counter) :
    AStar.IdInv (AStar.step m goal sampler current e).2 ∧
    e.id_counter ≤ (AStar.step m goal sampler current e).2.id_counter := by
  unfold AStar.step
  cases m.converge current.state goal with
  | true => exact ⟨hI, le_refl _⟩
  | false => exact AStar.fold_idinv m goal current (sampler current.state) e hI hcur

theorem Dijkstra.step_idinv_d (m : Model σ κ π) (goal : σ)
    (sampler : σ → List κ) (current : DNode σ κ) (e : Dijkstra σ κ π)
    (hI : Dijkstra.IdInv e) (hcur : current.id.id ≤ e.id_counter) :
    Dijkstra.IdInv (Dijkstra.step m goal sampler current e).2 ∧
    e.id_counter ≤ (Dijkstra.step m goal sampler current e).2.id_counter := by
  unfold Dijkstra.step
  cases m.converge current.state goal with
  | true => exact ⟨hI, le_refl _⟩
  | false => exact Dijkstra.fold_idinv_d m current (sampler current.state) e hI hcur

theorem AStar.optLoop_idinv (m : HeuristicModel σ κ π) (goal : σ)
    (sampler : σ → List κ) :
    ∀ (fuel : Nat) (e : AStar σ κ π) (r : PathResult σ κ) (e1 : AStar σ κ π),
      AStar.IdInv e →
      AStar.optLoop m goal sampler fuel e = some (r, e1) →
      AStar.IdInv e1 := by
  intro fuel
  induction fuel with
  | zero => intro e r e1 hI h; simp [AStar.optLoop] at h
  | succ fuel ih =>
    intro e r e1 hI h
    rw [AStar.optLoop] at h
    cases hp : popMin e.queue with
    | none =>
      rw [hp] at h
      simp only [Option.some.injEq, Prod.mk.injEq] at h
      rw [← h.2]
      exact hI
    | some er =>
      obtain ⟨entry, rest⟩ := er
      rw [hp] at h
      dsimp only at h
      have hqperm := popMin_perm e.queue entry rest hp
      have hqmem : entry ∈ e.queue := hqperm.mem_iff.mpr (List.mem_cons_self _ _)
      have hIrest : AStar.IdInv { e with queue := rest } :=
        ⟨fun kv hkv => hI.1 kv (hqperm.mem_iff.mpr (List.mem_cons_of_mem _ hkv)), hI.2⟩
      have hstep := AStar.step_idinv m goal sampler entry.2 { e with queue := rest }
        hIrest (hI.1 entry hqmem)
      cases hs : AStar.step m goal sampler entry.2 { e with queue := rest } with
      | mk done e2 =>
        rw [hs] at h hstep
        cases done with
        | true =>
          simp only [Option.some.injEq, Prod.mk.injEq] at h
          rw [← h.2]
          exact hstep.1
        | false => exact ih e2 r e1 hstep.1 h

theorem Dijkstra.optLoop_idinv_d (m : Model σ κ π) (goal : σ)
    (sampler : σ → List κ) :
    ∀ (fuel : Nat) (e : Dijkstra σ κ π) (r : PathResult σ κ) (e1 : Dijkstra σ κ π),
      Dijkstra.IdInv e →
      Dijkstra.optLoop m goal sampler fuel e = some (r, e1) →
      Dijkstra.IdInv e1 := by
  intro fuel
  induction fuel with
  | zero => intro e r e1 hI h; simp [Dijkstra.optLoop] at h
  | succ fuel ih =>
    intro e r e1 hI h
    rw [Dijkstra.optLoop] at h
    cases hp : popMax e.queue with
    | none =>
      rw [hp] at h
      simp only [Option.some.injEq, Prod.mk.injEq] at h
      rw [← h.2]
      exact hI
    | some er =>
      obtain ⟨entry, rest⟩ := er
      rw [hp] at h
      dsimp only at h
      have hqperm := popMax_perm e.queue entry rest hp
      have hqmem : entry ∈ e.queue := hqperm.mem_iff.mpr (List.mem_cons_self _ _)
      have hIrest : Dijkstra.IdInv { e with queue := rest } :=
        ⟨fun kv hkv => hI.1 kv (hqperm.mem_iff.mpr (List.mem_cons_of_mem _ hkv)), hI.2⟩
      have hstep := Dijkstra.step_idinv_d m goal sampler entry.2 { e with queue := rest }
        hIrest (hI.1 entry hqmem)
      cases hs : Dijkstra.step m goal sampler entry.2 { e with queue := rest } with
      | mk done e2 =>
        rw [hs] at h hstep
        cases done with
        | true =>
          simp only [Option.some.injEq, Prod.mk.injEq] at h
          rw [← h.2]
          exact hstep.1
        | false => exact ih e2 r e1 hstep.1 h

theorem AStar.optimize_idinv (fuel : Nat) (m : HeuristicModel σ κ π)
    (start goal : σ) (sampler : σ → List κ) (e : AStar σ κ π)
    (r : PathResult σ κ) (e1 : AStar σ κ π) (hI : AStar.IdInv e)
    (h : AStar.optimize fuel m start goal sampler e = some (r, e1)) :
    AStar.IdInv e1 := by
  unfold AStar.optimize at h
  split at h
  · simp only [Option.some.injEq, Prod.mk.injEq] at h
    rw [← h.2]
    exact hI
  · dsimp only at h
    split at h
    · refine AStar.optLoop_idinv m goal sampler fuel _ r e1 ?_ h
      constructor
      · intro kv hkv
        dsimp only at hkv
        rcases List.mem_append.mp hkv with hold | hnew
        · exact hI.1 kv hold
        · have : kv = AStar.seed m start goal := by simpa using hnew
          rw [this]
          simp [AStar.seed]
      · exact hI.2
    · exact AStar.optLoop_idinv m goal sampler fuel e r e1 hI h

theorem Dijkstra.optimize_idinv_d (fuel : Nat) (m : Model σ κ π)
    (start goal : σ) (sampler : σ → List κ) (e : Dijkstra σ κ π)
    (r : PathResult σ κ) (e1 : Dijkstra σ κ π) (hI : Dijkstra.IdInv e)
    (h : Dijkstra.optimize fuel m start goal sampler e = some (r, e1)) :
    Dijkstra.IdInv e1 := by
  unfold Dijkstra.optimize at h
  split at h
  · simp only [Option.some.injEq, Prod.mk.injEq] at h
    rw [← h.2]
    exact hI
  · dsimp only at h
    split at h
    · refine Dijkstra.optLoop_idinv_d m goal sampler fuel _ r e1 ?_ h
      constructor
      · intro kv hkv
        dsimp only at hkv
        rcases List.mem_append.mp hkv with hold | hnew
        · exact hI.1 kv hold
        · have : kv = Dijkstra.seed m start := by simpa using hnew
          rw [this]
          simp [Dijkstra.seed]
      · exact hI.2
    · exact Dijkstra.optLoop_idinv_d m goal sampler fuel e r e1 hI h

theorem AStar.nt_idinv (m : HeuristicModel σ κ π) (start goal : σ)
    (sampler : σ → List κ) (e : AStar σ κ π) (hI : AStar.IdInv e) :
    AStar.IdInv (AStar.next_trajectory m start goal sampler e).2 := by
  have hseedI : ∀ e2 : AStar σ κ π, AStar.IdInv e2 →
      AStar.IdInv { e2 with queue := e2.queue ++ [AStar.seed m start goal] } := by
    intro e2 hI2
    constructor
    · intro kv hkv
      dsimp only at hkv
      rcases List.mem_append.mp hkv with hold | hnew
      · exact hI2.1 kv hold
      · have : kv = AStar.seed m start goal := by simpa using hnew
        rw [this]
        simp [AStar.seed]
    · exact hI2.2
  have hcore : ∀ e1 : AStar σ κ π, AStar.IdInv e1 →
      AStar.IdInv (match popMin e1.queue with
        | none => ((.Err .Unreachable : PathResult σ κ), e1)
        | some (entry, rest) =>
          match AStar.step m goal sampler entry.2 { e1 with queue := rest } with
          | (true, e3) => (.Final (AStar.unwind_trajectory m e3 entry.2), e3)
          | (false, e3) => (.Intermediate (AStar.unwind_trajectory m e3 entry.2), e3)).2 := by
    intro e1 hI1
    cases hp : popMin e1.queue with
    | none => exact hI1
    | some er =>
      obtain ⟨entry, rest⟩ := er
      dsimp only
      have hqperm := popMin_perm _ entry rest hp
      have hqmem : entry ∈ e1.queue := hqperm.mem_iff.mpr (List.mem_cons_self _ _)
      have hIrest : AStar.IdInv { e1 with queue := rest } :=
        ⟨fun kv hkv => hI1.1 kv (hqperm.mem_iff.mpr (List.mem_cons_of_mem _ hkv)), hI1.2⟩
      have hstep := AStar.step_idinv m goal sampler entry.2 _ hIrest (hI1.1 entry hqmem)
      cases hs : AStar.step m goal sampler entry.2 { e1 with queue := rest } with
      | mk done e2 =>
        rw [hs] at hstep
        cases done <;> exact hstep.1
  unfold AStar.next_trajectory
  by_cases hb : (e.parent_map.isEmpty && e.queue.isEmpty) = true
  · rw [if_pos hb]
    exact hcore _ (hseedI e hI)
  · rw [if_neg hb]
    exact hcore e hI

theorem Dijkstra.nt_idinv_d (m : Model σ κ π) (start goal : σ)
    (sampler : σ → List κ) (e : Dijkstra σ κ π) (hI : Dijkstra.IdInv e) :
    Dijkstra.IdInv (Dijkstra.next_trajectory m start goal sampler e).2 := by
  have hseedI : ∀ e2 : Dijkstra σ κ π, Dijkstra.IdInv e2 →
      Dijkstra.IdInv { e2 with queue := e2.queue ++ [Dijkstra.seed m start] } := by
    intro e2 hI2
    constructor
    · intro kv hkv
      dsimp only at hkv
      rcases List.mem_append.mp hkv with hold | hnew
      · exact hI2.1 kv hold
      · have : kv = Dijkstra.seed m start := by simpa using hnew
        rw [this]
        simp [Dijkstra.seed]
    · exact hI2.2
  have hcore : ∀ e1 : Dijkstra σ κ π, Dijkstra.IdInv e1 →
      Dijkstra.IdInv (match popMax e1.queue with
        | none => ((.Err .Unreachable : PathResult σ κ), e1)
        | some (entry, rest) =>
          match Dijkstra.step m goal sampler entry.2 { e1 with queue := rest } with
          | (true, e3) => (.Final (Dijkstra.unwind_trajectory e3 entry.2), e3)
          | (false, e3) => (.Intermediate (Dijkstra.unwind_trajectory e3 entry.2), e3)).2 := by
    intro e1 hI1
    cases hp : popMax e1.queue with
    | none => exact hI1
    | some er =>
      obtain ⟨entry, rest⟩ := er
      dsimp only
      have hqperm := popMax_perm _ entry rest hp
      have hqmem : entry ∈ e1.queue := hqperm.mem_iff.mpr (List.mem_cons_self _ _)
      have hIrest : Dijkstra.IdInv { e1 with queue := rest } :=
        ⟨fun kv hkv => hI1.1 kv (hqperm.mem_iff.mpr (List.mem_cons_of_mem _ hkv)), hI1.2⟩
      have hstep := Dijkstra.step_idinv_d m goal sampler entry.2 _ hIrest (hI1.1 entry hqmem)
      cases hs : Dijkstra.step m goal sampler entry.2 { e1 with queue := rest } with
      | mk done e2 =>
        rw [hs] at hstep
        cases done <;> exact hstep.1
  unfold Dijkstra.next_trajectory
  by_cases hb : (e.parent_map.isEmpty && e.queue.isEmpty) = true
  · rw [if_pos hb]
    exact hcore _ (hseedI e hI)
  · rw [if_neg hb]
    exact hcore e hI

theorem AStar.reach_idinv (e : AStar σ κ π) (h : AStar.Reach e) : AStar.IdInv e := by
  induction h with
  | new => exact ⟨by simp [AStar.new], by simp [AStar.new]⟩
  | clear e _ ih => exact ⟨by simp [AStar.clear], by simp [AStar.clear]⟩
  | opt e e1 fuel m start goal sampler r _ hopt ih =>
    exact AStar.optimize_idinv fuel m start goal sampler e r e1 ih hopt
  | nt e m start goal sampler _ ih =>
    exact AStar.nt_idinv m start goal sampler e ih

theorem Dijkstra.reach_idinv_d (e : Dijkstra σ κ π) (h : Dijkstra.Reach e) :
    Dijkstra.IdInv e := by
  induction h with
  | new => exact ⟨by simp [Dijkstra.new], by simp [Dijkstra.new]⟩
  | opt e e1 fuel m start goal sampler r _ hopt ih =>
    exact Dijkstra.optimize_idinv_d fuel m start goal sampler e r e1 ih hopt
  | nt e m start goal sampler _ ih =>
    exact Dijkstra.nt_idinv_d m start goal sampler e ih

end IdInvPreservation

section FuelStability

theorem AStar.unwindAux_fuel_stable (m : HeuristicModel σ κ π)
    (pm : List (Nat × ANode σ κ))
    (hdec : ∀ kp ∈ pm, kp.2.id.id < kp.1) :
    ∀ (n : Nat) (nd : ANode σ κ), nd.id.id ≤ n →
      ∀ (f1 f2 : Nat) (acc : List (σ × κ)) (c : Int),
        nd.id.id < f1 → nd.id.id < f2 →
        AStar.unwindAux m pm f1 nd acc c = AStar.unwindAux m pm f2 nd acc c := by
  intro n
  induction n with
  | zero =>
    intro nd hn f1 f2 acc c h1 h2
    cases f1 with
    | zero => omega
    | succ a =>
      cases f2 with
      | zero => omega
      | succ b =>
        simp only [AStar.unwindAux]
        cases hp : lookupL pm nd.id.id with
        | none => rfl
        | some p =>
          have := hdec (nd.id.id, p) (lookupL_mem pm nd.id.id p hp)
          dsimp at this
          omega
  | succ n ih =>
    intro nd hn f1 f2 acc c h1 h2
    cases f1 with
    | zero => omega
    | succ a =>
      cases f2 with
      | zero => omega
      | succ b =>
        simp only [AStar.unwindAux]
        cases hp : lookupL pm nd.id.id with
        | none => rfl
        | some p =>
          have hplt := hdec (nd.id.id, p) (lookupL_mem pm nd.id.id p hp)
          dsimp at hplt
          exact ih p (by omega) a b _ _ (by omega) (by omega)

theorem Dijkstra.unwindAux_fuel_stable_d (pm : List (Nat × DNode σ κ))
    (hdec : ∀ kp ∈ pm, kp.2.id.id < kp.1) :
    ∀ (n : Nat) (nd : DNode σ κ), nd.id.id ≤ n →
      ∀ (f1 f2 : Nat) (acc : List (σ × κ)),
        nd.id.id < f1 → nd.id.id < f2 →
        Dijkstra.unwindAux pm f1 nd acc = Dijkstra.unwindAux pm f2 nd acc := by
  intro n
  induction n with
  | zero =>
    intro nd hn f1 f2 acc h1 h2
    cases f1 with
    | zero => omega
    | succ a =>
      cases f2 with
      | zero => omega
      | succ b =>
        simp only [Dijkstra.unwindAux]
        cases hp : lookupL pm nd.id.id with
        | none => rfl
        | some p =>
          have := hdec (nd.id.id, p) (lookupL_mem pm nd.id.id p hp)
          dsimp at this
          omega
  | succ n ih =>
    intro nd hn f1 f2 acc h1 h2
    cases f1 with
    | zero => omega
    | succ a =>
      cases f2 with
      | zero => omega
      | succ b =>
        simp only [Dijkstra.unwindAux]
        cases hp : lookupL pm nd.id.id with
        | none => rfl
        | some p =>
          have hplt := hdec (nd.id.id, p) (lookupL_mem pm nd.id.id p hp)
          dsimp at hplt
          exact ih p (by omega) a b _ (by omega) (by omega)

end FuelStability

/-- C9: in every engine state reachable by any sequence of `optimize`,
`next_trajectory` and `clear` calls, each parent-map entry maps a child node
id to a parent node with a strictly smaller unique id, so the parent-chain
walk of `unwind_trajectory` strictly decreases the id at every step and is
insensitive to any fuel beyond the walked node's id: the walk terminates for
every node, in particular for every node ever popped from the frontier.
This holds for both engines. -/
theorem parent_ids_decrease_unwind_terminates :
    (∀ e : AStar σ κ π, AStar.Reach e →
      (∀ kp ∈ e.parent_map, kp.2.id.id < kp.1) ∧
      (∀ (m : HeuristicModel σ κ π) (nd : ANode σ κ) (f1 f2 : Nat)
        (acc : List (σ × κ)) (c : Int), nd.id.id < f1 → nd.id.id < f2 →
        AStar.unwindAux m e.parent_map f1 nd acc c =
          AStar.unwindAux m e.parent_map f2 nd acc c)) ∧
    (∀ e : Dijkstra σ κ π, Dijkstra.Reach e →
      (∀ kp ∈ e.parent_map, kp.2.id.id < kp.1) ∧
      (∀ (nd : DNode σ κ) (f1 f2 : Nat) (acc : List (σ × κ)),
        nd.id.id < f1 → nd.id.id < f2 →
        Dijkstra.unwindAux e.parent_map f1 nd acc =
          Dijkstra.unwindAux e.parent_map f2 nd acc)) := by
  constructor
  · intro e hR
    have hI := AStar.reach_idinv e hR
    have hdec : ∀ kp ∈ e.parent_map, kp.2.id.id < kp.1 :=
      fun kp hkp => (hI.2 kp hkp).1
    exact ⟨hdec, fun m nd f1 f2 acc c h1 h2 =>
      AStar.unwindAux_fuel_stable m e.parent_map hdec nd.id.id nd (le_refl _)
        f1 f2 acc c h1 h2⟩
  · intro e hR
    have hI := Dijkstra.reach_idinv_d e hR
    have hdec : ∀ kp ∈ e.parent_map, kp.2.id.id < kp.1 :=
      fun kp hkp => (hI.2 kp hkp).1
    exact ⟨hdec, fun nd f1 f2 acc h1 h2 =>
      Dijkstra.unwindAux_fuel_stable_d e.parent_map hdec nd.id.id nd (le_refl _)
        f1 f2 acc h1 h2⟩

/-- Witness for C9 on engines that each ran one `next_trajectory` call. -/
theorem parent_ids_decrease_unwind_terminates_witness :
    AStar.unwindAux mUnitH
      (AStar.next_trajectory mUnitH 0 1 samplerSingle AStar.new).2.parent_map
      3 ⟨⟨1, 1, 1⟩, 1, 0⟩ [] 0 =
    AStar.unwindAux mUnitH
      (AStar.next_trajectory mUnitH 0 1 samplerSingle AStar.new).2.parent_map
      9 ⟨⟨1, 1, 1⟩, 1, 0⟩ [] 0 ∧
    Dijkstra.unwindAux
      (Dijkstra.next_trajectory mUnit 0 1 samplerSingle Dijkstra.new).2.parent_map
      3 ⟨⟨1, 1⟩, 1, 0⟩ [] =
    Dijkstra.unwindAux
      (Dijkstra.next_trajectory mUnit 0 1 samplerSingle Dijkstra.new).2.parent_map
      9 ⟨⟨1, 1⟩, 1, 0⟩ [] := by
  constructor
  · exact (parent_ids_decrease_unwind_terminates.1 _
      (AStar.Reach.nt AStar.new mUnitH 0 1 samplerSingle AStar.Reach.new)).2
      mUnitH ⟨⟨1, 1, 1⟩, 1, 0⟩ 3 9 [] 0 (by decide) (by decide)
  · exact (parent_ids_decrease_unwind_terminates.2 _
      (Dijkstra.Reach.nt Dijkstra.new mUnit 0 1 samplerSingle Dijkstra.Reach.new)).2
      ⟨⟨1, 1⟩, 1, 0⟩ 3 9 [] (by decide) (by decide)

/-- Counterexample to C2 as stated, on the contract-checking engine: with the
negative-unit-cost model every push key stays at or below the last popped key
(seed key 0 popped, child key -1 pushed then popped), so the run is exactly
the program's; it returns a Final trajectory of cost 0 while the accumulated
cost stored in the final popped node is -1. -/
theorem dijkstra_cost_not_from_popped_node :
    (DijkstraF.optimize 10 mNeg 0 1 samplerSingle DijkstraF.new).map
      (fun x => ((match x.1 with | .ok (.Final t) _ => some t.cost | _ => none),
        x.2.getLast?.map (fun nd => nd.id.g))) =
      some (some 0, some (-1)) ∧ (0 : Int) ≠ -1 := by
  constructor
  · rfl
  · decide

/-- C2 amended: the A* trajectory cost is the sum of `model.cost` re-invoked
over the consecutive edges of the reconstructed start-to-current list, each
invocation taking the later state and its control first (`edgeSum`); the
Dijkstra trajectory cost is the accumulated cost stored in the node at which
the parent walk stops — the chain's root, whose stored cost is
`Cost::default()` — so every Final trajectory an engine run returns carries
cost zero, not the final popped node's accumulated cost. -/
theorem trajectory_cost_sources :
    (∀ (m : HeuristicModel σ κ π) (e : AStar σ κ π) (nd : ANode σ κ),
      (AStar.unwind_trajectory m e nd).cost =
        edgeSum m.toModel (AStar.unwind_trajectory m e nd).trajectory) ∧
    (∀ (m : Model σ κ π) (sampler : σ → List κ) (start : σ)
      (e : Dijkstra σ κ π) (nd : DNode σ κ),
      DChain m sampler start e.parent_map nd →
      (Dijkstra.unwind_trajectory e nd).cost = 0) ∧
    (∀ (fuel : Nat) (m : Model σ κ π) (start goal : σ) (sampler : σ → List κ)
      (e : Dijkstra σ κ π) (log : DLog σ κ π) (t : Trajectory σ κ)
      (e1 : Dijkstra σ κ π) (log1 : DLog σ κ π),
      Dijkstra.WfP m sampler start e →
      Dijkstra.optimizeT fuel m start goal sampler (e, log) =
        some (.Final t, e1, log1) →
      t.cost = 0) := by
  refine ⟨AStar.unwind_cost_eq_edgeSum, Dijkstra.unwind_cost_of_chain_d, ?_⟩
  intro fuel m start goal sampler e log t e1 log1 hW h
  have hspec := Dijkstra.optimizeT_spec_d fuel m start goal sampler e log
    (.Final t) e1 log1 hW h
  rcases hspec.2.2 with ⟨_, ht, _, _⟩ | ⟨_, newp, _, hdisj⟩
  · cases ht
    rfl
  · rcases hdisj with ⟨hr, _, _⟩ | ⟨pre, nd, _, _, _, hch, _, hr⟩
    · cases hr
    · cases hr
      exact Dijkstra.unwind_cost_of_chain_d m sampler start e1 nd hch

/-- Witness for the amended C2 on concrete runs of both engines. -/
theorem trajectory_cost_sources_witness :
    (AStar.unwind_trajectory mUnitH AStar.new ⟨⟨0, 0, 0⟩, 0, 7⟩).cost =
      edgeSum mUnitH.toModel
        (AStar.unwind_trajectory mUnitH AStar.new ⟨⟨0, 0, 0⟩, 0, 7⟩).trajectory ∧
    (Dijkstra.unwind_trajectory (Dijkstra.new : Dijkstra Nat Nat Nat)
      ⟨⟨0, 0⟩, 0, 7⟩).cost = 0 ∧
    ∀ t e1 log1, Dijkstra.optimizeT 10 mUnit 0 1 samplerSingle
        (Dijkstra.new, DLog.empty) = some (.Final t, e1, log1) → t.cost = 0 := by
  refine ⟨trajectory_cost_sources.1 mUnitH AStar.new ⟨⟨0, 0, 0⟩, 0, 7⟩, ?_, ?_⟩
  · exact trajectory_cost_sources.2.1 mUnit samplerSingle 0
      (Dijkstra.new : Dijkstra Nat Nat Nat)
      ⟨⟨0, 0⟩, 0, 7⟩ (DChain.root _ rfl rfl rfl rfl)
  · intro t e1 log1 h
    exact trajectory_cost_sources.2.2 10 mUnit 0 1 samplerSingle
      Dijkstra.new DLog.empty t e1 log1
      (by refine ⟨?_, ?_⟩ <;> simp [Dijkstra.new]) h

/-- Counterexample to C3 as stated, on the contract-checking engine: the
negative-unit-cost run (whose pushes all respect the radix contract, so it is
exactly the program's) returns a Final trajectory beginning with the popped
node's pair (1, 0) rather than with the start state 0 — its step list is not
reversed into start-to-current order. -/
theorem dijkstra_trajectory_not_reversed :
    (DijkstraF.optimize 10 mNeg 0 1 samplerSingle DijkstraF.new).map
      (fun x => match x.1 with
        | .ok (.Final t) _ => some t.trajectory.head? | _ => none) =
      some (some (some (1, 0))) ∧ ((1, 0) : Nat × Nat) ≠ ((0, 7) : Nat × Nat) := by
  exact ⟨rfl, by decide⟩

/-- C3 amended: A* trajectories run start-to-current (the head is the
synthetic root's start state and default control, the last element is the
just-popped node's pair), while Dijkstra trajectories are not reversed and
run current-to-start (the head is the just-popped node's pair, the last
element is the root's pair); the single-step trajectory of the
converge-at-start short circuit is the exception carrying no popped node. -/
theorem trajectory_step_order :
    (∀ (fuel : Nat) (m : HeuristicModel σ κ π) (start goal : σ)
      (sampler : σ → List κ) (e : AStar σ κ π) (log : ALog σ κ π)
      (t : Trajectory σ κ) (e1 : AStar σ κ π) (log1 : ALog σ κ π),
      AStar.WfP m sampler start e →
      AStar.optimizeT fuel m start goal sampler (e, log) = some (.Final t, e1, log1) →
      t.trajectory.head? = some (start, m.default_control) ∧
      ((∃ nd, log1.pops.getLast? = some nd ∧
        t.trajectory.getLast? = some (nd.state, nd.control)) ∨
       (m.converge start goal = true ∧ t = ⟨0, [(start, m.default_control)]⟩))) ∧
    (∀ (m : HeuristicModel σ κ π) (start goal : σ) (sampler : σ → List κ)
      (e : AStar σ κ π) (log : ALog σ κ π) (r : PathResult σ κ)
      (e1 : AStar σ κ π) (log1 : ALog σ κ π) (t : Trajectory σ κ),
      AStar.WfP m sampler start e →
      AStar.next_trajectoryT m start goal sampler (e, log) = (r, e1, log1) →
      (r = .Final t ∨ r = .Intermediate t) →
      t.trajectory.head? = some (start, m.default_control) ∧
      ∃ nd, log1.pops.getLast? = some nd ∧
        t.trajectory.getLast? = some (nd.state, nd.control)) ∧
    (∀ (fuel : Nat) (m : Model σ κ π) (start goal : σ)
      (sampler : σ → List κ) (e : Dijkstra σ κ π) (log : DLog σ κ π)
      (t : Trajectory σ κ) (e1 : Dijkstra σ κ π) (log1 : DLog σ κ π),
      Dijkstra.WfP m sampler start e →
      Dijkstra.optimizeT fuel m start goal sampler (e, log) = some (.Final t, e1, log1) →
      t.trajectory.getLast? = some (start, m.default_control) ∧
      ((∃ nd, log1.pops.getLast? = some nd ∧
        t.trajectory.head? = some (nd.state, nd.control)) ∨
       (m.converge start goal = true ∧ t = ⟨0, [(start, m.default_control)]⟩))) ∧
    (∀ (m : Model σ κ π) (start goal : σ) (sampler : σ → List κ)
      (e : Dijkstra σ κ π) (log : DLog σ κ π) (r : PathResult σ κ)
      (e1 : Dijkstra σ κ π) (log1 : DLog σ κ π) (t : Trajectory σ κ),
      Dijkstra.WfP m sampler start e →
      Dijkstra.next_trajectoryT m start goal sampler (e, log) = (r, e1, log1) →
      (r = .Final t ∨ r = .Intermediate t) →
      t.trajectory.getLast? = some (start, m.default_control) ∧
      ∃ nd, log1.pops.getLast? = some nd ∧
        t.trajectory.head? = some (nd.state, nd.control)) := by
  refine ⟨?_, ?_, ?_, ?_⟩
  · intro fuel m start goal sampler e log t e1 log1 hW h
    have hspec := AStar.optimizeT_spec fuel m start goal sampler e log
      (.Final t) e1 log1 hW h
    rcases hspec.2.2 with ⟨hcv, ht, _, _⟩ | ⟨_, newp, hnp, hdisj⟩
    · cases ht
      exact ⟨rfl, Or.inr ⟨hcv, rfl⟩⟩
    · rcases hdisj with ⟨hr, _, _⟩ | ⟨pre, nd, hpre, _, _, hch, _, hr⟩
      · cases hr
      · cases hr
        refine ⟨AStar.unwind_head_of_chain m sampler start e1 nd hch,
          Or.inl ⟨nd, ?_, AStar.unwind_last_eq_popped m e1 nd⟩⟩
        rw [hnp, hpre, ← List.append_assoc]
        exact List.getLast?_concat _
  · intro m start goal sampler e log r e1 log1 t hW h hrt
    have hspec := AStar.next_trajectoryT_spec m start goal sampler e log
      r e1 log1 hW h
    rcases hspec.2.2 with ⟨hr, _⟩ | ⟨nd, hnp, hch, _, hcase⟩
    · rcases hrt with h1 | h1 <;> rw [h1] at hr <;> cases hr
    · have ht : t = AStar.unwind_trajectory m e1 nd := by
        rcases hcase with ⟨hcv, hr⟩ | ⟨hcv, hr⟩
        · rcases hrt with h1 | h1
          · rw [h1] at hr
            injection hr with h2 <;> first
              | exact h2
              | rfl
          · rw [h1] at hr
            exact absurd hr (by simp)
        · rcases hrt with h1 | h1
          · rw [h1] at hr
            exact absurd hr (by simp)
          · rw [h1] at hr
            injection hr with h2 <;> first
              | exact h2
              | rfl
      rw [ht]
      refine ⟨AStar.unwind_head_of_chain m sampler start e1 nd hch,
        nd, ?_, AStar.unwind_last_eq_popped m e1 nd⟩
      rw [hnp]
      exact List.getLast?_concat _
  · intro fuel m start goal sampler e log t e1 log1 hW h
    have hspec := Dijkstra.optimizeT_spec_d fuel m start goal sampler e log
      (.Final t) e1 log1 hW h
    rcases hspec.2.2 with ⟨hcv, ht, _, _⟩ | ⟨_, newp, hnp, hdisj⟩
    · cases ht
      exact ⟨rfl, Or.inr ⟨hcv, rfl⟩⟩
    · rcases hdisj with ⟨hr, _, _⟩ | ⟨pre, nd, hpre, _, _, hch, _, hr⟩
      · cases hr
      · cases hr
        refine ⟨Dijkstra.unwind_last_of_chain m sampler start e1 nd hch,
          Or.inl ⟨nd, ?_, Dijkstra.unwind_head_eq_popped e1 nd⟩⟩
        rw [hnp, hpre, ← List.append_assoc]
        exact List.getLast?_concat _
  · intro m start goal sampler e log r e1 log1 t hW h hrt
    have hspec := Dijkstra.next_trajectoryT_spec_d m start goal sampler e log
      r e1 log1 hW h
    rcases hspec.2.2 with ⟨hr, _⟩ | ⟨nd, hnp, hch, _, hcase⟩
    · rcases hrt with h1 | h1 <;> rw [h1] at hr <;> cases hr
    · have ht : t = Dijkstra.unwind_trajectory e1 nd := by
        rcases hcase with ⟨hcv, hr⟩ | ⟨hcv, hr⟩
        · rcases hrt with h1 | h1
          · rw [h1] at hr
            injection hr with h2 <;> first
              | exact h2
              | rfl
          · rw [h1] at hr
            exact absurd hr (by simp)
        · rcases hrt with h1 | h1
          · rw [h1] at hr
            exact absurd hr (by simp)
          · rw [h1] at hr
            injection hr with h2 <;> first
              | exact h2
              | rfl
      rw [ht]
      refine ⟨Dijkstra.unwind_last_of_chain m sampler start e1 nd hch,
        nd, ?_, Dijkstra.unwind_head_eq_popped e1 nd⟩
      rw [hnp]
      exact List.getLast?_concat _

/-- Witness for the amended C3 on concrete runs of both engines. -/
theorem trajectory_step_order_witness :
    (∀ t e1 log1, AStar.optimizeT 10 mUnitH 0 1 samplerSingle
        (AStar.new, ALog.empty) = some (.Final t, e1, log1) →
      t.trajectory.head? = some (0, 7)) ∧
    (∀ t e1 log1, Dijkstra.optimizeT 10 mUnit 0 1 samplerSingle
        (Dijkstra.new, DLog.empty) = some (.Final t, e1, log1) →
      t.trajectory.getLast? = some (0, 7)) := by
  constructor
  · intro t e1 log1 h
    have := (trajectory_step_order.1 10 mUnitH 0 1 samplerSingle AStar.new
      ALog.empty t e1 log1 (by refine ⟨?_, ?_⟩ <;> simp [AStar.new]) h).1
    simpa using this
  · intro t e1 log1 h
    have := (trajectory_step_order.2.2.1 10 mUnit 0 1 samplerSingle Dijkstra.new
      DLog.empty t e1 log1 (by refine ⟨?_, ?_⟩ <;> simp [Dijkstra.new]) h).1
    simpa using this

section LoopPops

theorem AStar.step_fst_converge (m : HeuristicModel σ κ π) (goal : σ)
    (sampler : σ → List κ) (current : ANode σ κ) (e : AStar σ κ π) :
    (AStar.step m goal sampler current e).1 = m.converge current.state goal := by
  unfold AStar.step
  cases m.converge current.state goal <;> rfl

theorem Dijkstra.step_fst_converge_d (m : Model σ κ π) (goal : σ)
    (sampler : σ → List κ) (current : DNode σ κ) (e : Dijkstra σ κ π) :
    (Dijkstra.step m goal sampler current e).1 = m.converge current.state goal := by
  unfold Dijkstra.step
  cases m.converge current.state goal <;> rfl

theorem AStar.optLoopT_pops (m : HeuristicModel σ κ π) (goal : σ)
    (sampler : σ → List κ) :
    ∀ (fuel : Nat) (e : AStar σ κ π) (log : ALog σ κ π) (r : PathResult σ κ)
      (e1 : AStar σ κ π) (log1 : ALog σ κ π),
      AStar.optLoopT m goal sampler fuel (e, log) = some (r, e1, log1) →
      ∃ newp, log1.pops = log.pops ++ newp ∧
        ((r = .Err .Unreachable ∧ e1.queue = [] ∧
          ∀ nd ∈ newp, m.converge nd.state goal = false) ∨
         (∃ pre nd, newp = pre ++ [nd] ∧
           (∀ x ∈ pre, m.converge x.state goal = false) ∧
           m.converge nd.state goal = true ∧
           r = .Final (AStar.unwind_trajectory m e1 nd))) := by
  intro fuel
  induction fuel with
  | zero => intro e log r e1 log1 h; simp [AStar.optLoopT] at h
  | succ fuel ih =>
    intro e log r e1 log1 h
    rw [AStar.optLoopT] at h
    cases hp : popMin e.queue with
    | none =>
      rw [hp] at h
      simp only [Option.some.injEq, Prod.mk.injEq] at h
      obtain ⟨hr, he1, hlog1⟩ := h
      subst hr; subst he1; subst hlog1
      exact ⟨[], by simp, Or.inl ⟨rfl, (popMin_none_iff _).mp hp, by simp⟩⟩
    | some er =>
      obtain ⟨entry, rest⟩ := er
      rw [hp] at h
      dsimp only at h
      have hfst := AStar.stepT_fst m goal sampler entry.2
        ({ e with queue := rest }, { log with pops := log.pops ++ [entry.2] })
      have hpops := AStar.stepT_pops m goal sampler entry.2
        ({ e with queue := rest }, { log with pops := log.pops ++ [entry.2] })
      cases hs : AStar.stepT m goal sampler entry.2
        ({ e with queue := rest }, { log with pops := log.pops ++ [entry.2] }) with
      | mk done el2 =>
        obtain ⟨E2, L2⟩ := el2
        rw [hs] at h hfst hpops
        dsimp only at h hfst hpops
        have hcveq : done = m.converge entry.2.state goal := by
          rw [hfst.1]
          exact AStar.step_fst_converge m goal sampler entry.2 { e with queue := rest }
        cases done with
        | true =>
          simp only [Option.some.injEq, Prod.mk.injEq] at h
          obtain ⟨hr, he1, hlog1⟩ := h
          subst hr; subst he1; subst hlog1
          exact ⟨[entry.2], by rw [hpops],
            Or.inr ⟨[], entry.2, by simp, by simp, hcveq.symm, rfl⟩⟩
        | false =>
          obtain ⟨newp, hnp, hdisj⟩ := ih E2 L2 r e1 log1 h
          refine ⟨entry.2 :: newp, by rw [hnp, hpops]; simp, ?_⟩
          rcases hdisj with ⟨hr, hq, hall⟩ | ⟨pre, nd, hpre, hallpre, hcv, hr⟩
          · refine Or.inl ⟨hr, hq, ?_⟩
            intro nd hnd
            rcases List.mem_cons.mp hnd with h1 | h1
            · rw [h1]; exact hcveq.symm
            · exact hall nd h1
          · refine Or.inr ⟨entry.2 :: pre, nd, by rw [hpre]; simp, ?_, hcv, hr⟩
            intro x hx
            rcases List.mem_cons.mp hx with h1 | h1
            · rw [h1]; exact hcveq.symm
            · exact hallpre x h1

theorem Dijkstra.optLoopT_pops_d (m : Model σ κ π) (goal : σ)
    (sampler : σ → List κ) :
    ∀ (fuel : Nat) (e : Dijkstra σ κ π) (log : DLog σ κ π) (r : PathResult σ κ)
      (e1 : Dijkstra σ κ π) (log1 : DLog σ κ π),
      Dijkstra.optLoopT m goal sampler fuel (e, log) = some (r, e1, log1) →
      ∃ newp, log1.pops = log.pops ++ newp ∧
        ((r = .Err .Unreachable ∧ e1.queue = [] ∧
          ∀ nd ∈ newp, m.converge nd.state goal = false) ∨
         (∃ pre nd, newp = pre ++ [nd] ∧
           (∀ x ∈ pre, m.converge x.state goal = false) ∧
           m.converge nd.state goal = true ∧
           r = .Final (Dijkstra.unwind_trajectory e1 nd))) := by
  intro fuel
  induction fuel with
  | zero => intro e log r e1 log1 h; simp [Dijkstra.optLoopT] at h
  | succ fuel ih =>
    intro e log r e1 log1 h
    rw [Dijkstra.optLoopT] at h
    cases hp : popMax e.queue with
    | none =>
      rw [hp] at h
      simp only [Option.some.injEq, Prod.mk.injEq] at h
      obtain ⟨hr, he1, hlog1⟩ := h
      subst hr; subst he1; subst hlog1
      exact ⟨[], by simp, Or.inl ⟨rfl, (popMax_none_iff _).mp hp, by simp⟩⟩
    | some er =>
      obtain ⟨entry, rest⟩ := er
      rw [hp] at h
      dsimp only at h
      have hfst := Dijkstra.stepT_fst_d m goal sampler entry.2
        ({ e with queue := rest }, { log with pops := log.pops ++ [entry.2] })
      have hpops := Dijkstra.stepT_pops_d m goal sampler entry.2
        ({ e with queue := rest }, { log with pops := log.pops ++ [entry.2] })
      cases hs : Dijkstra.stepT m goal sampler entry.2
        ({ e with queue := rest }, { log with pops := log.pops ++ [entry.2] }) with
      | mk done el2 =>
        obtain ⟨E2, L2⟩ := el2
        rw [hs] at h hfst hpops
        dsimp only at h hfst hpops
        have hcveq : done = m.converge entry.2.state goal := by
          rw [hfst.1]
          exact Dijkstra.step_fst_converge_d m goal sampler entry.2 { e with queue := rest }
        cases done with
        | true =>
          simp only [Option.some.injEq, Prod.mk.injEq] at h
          obtain ⟨hr, he1, hlog1⟩ := h
          subst hr; subst he1; subst hlog1
          exact ⟨[entry.2], by rw [hpops],
            Or.inr ⟨[], entry.2, by simp, by simp, hcveq.symm, rfl⟩⟩
        | false =>
          obtain ⟨newp, hnp, hdisj⟩ := ih E2 L2 r e1 log1 h
          refine ⟨entry.2 :: newp, by rw [hnp, hpops]; simp, ?_⟩
          rcases hdisj with ⟨hr, hq, hall⟩ | ⟨pre, nd, hpre, hallpre, hcv, hr⟩
          · refine Or.inl ⟨hr, hq, ?_⟩
            intro nd hnd
            rcases List.mem_cons.mp hnd with h1 | h1
            · rw [h1]; exact hcveq.symm
            · exact hall nd h1
          · refine Or.inr ⟨entry.2 :: pre, nd, by rw [hpre]; simp, ?_, hcv, hr⟩
            intro x hx
            rcases List.mem_cons.mp hx with h1 | h1
            · rw [h1]; exact hcveq.symm
            · exact hallpre x h1

end LoopPops

/-- C5: for either engine, when `converge(start, goal)` does not hold
initially, every result `optimize` returns is never `Intermediate`; it is
`Err Unreachable` exactly when the final frontier is empty and no node popped
during the run converges with the goal, and in every other case it is
`Final`. -/
theorem optimize_unreachable_iff_exhaustion :
    (∀ (fuel : Nat) (m : HeuristicModel σ κ π) (start goal : σ)
       (sampler : σ → List κ) (e : AStar σ κ π) (log : ALog σ κ π)
       (r : PathResult σ κ) (e1 : AStar σ κ π) (log1 : ALog σ κ π),
       m.converge start goal = false →
       AStar.optimizeT fuel m start goal sampler (e, log) = some (r, e1, log1) →
       (∀ t, r ≠ .Intermediate t) ∧
       ∃ newp, log1.pops = log.pops ++ newp ∧
         (r = .Err .Unreachable ↔
           e1.queue = [] ∧ ∀ nd ∈ newp, m.converge nd.state goal = false) ∧
         (r ≠ .Err .Unreachable → ∃ t, r = .Final t)) ∧
    (∀ (fuel : Nat) (m : Model σ κ π) (start goal : σ)
       (sampler : σ → List κ) (e : Dijkstra σ κ π) (log : DLog σ κ π)
       (r : PathResult σ κ) (e1 : Dijkstra σ κ π) (log1 : DLog σ κ π),
       m.converge start goal = false →
       Dijkstra.optimizeT fuel m start goal sampler (e, log) = some (r, e1, log1) →
       (∀ t, r ≠ .Intermediate t) ∧
       ∃ newp, log1.pops = log.pops ++ newp ∧
         (r = .Err .Unreachable ↔
           e1.queue = [] ∧ ∀ nd ∈ newp, m.converge nd.state goal = false) ∧
         (r ≠ .Err .Unreachable → ∃ t, r = .Final t)) := by
  constructor
  · intro fuel m start goal sampler e log r e1 log1 hcv hopt
    rw [AStar.optimizeT, if_neg (by simp [hcv])] at hopt
    dsimp only at hopt
    have key : ∀ (e0 : AStar σ κ π) (log0 : ALog σ κ π), log0.pops = log.pops →
        AStar.optLoopT m goal sampler fuel (e0, log0) = some (r, e1, log1) →
        (∀ t, r ≠ .Intermediate t) ∧
        ∃ newp, log1.pops = log.pops ++ newp ∧
          (r = .Err .Unreachable ↔
            e1.queue = [] ∧ ∀ nd ∈ newp, m.converge nd.state goal = false) ∧
          (r ≠ .Err .Unreachable → ∃ t, r = .Final t) := by
      intro e0 log0 hlp h
      obtain ⟨newp, hnp, hd⟩ := AStar.optLoopT_pops m goal sampler fuel e0 log0 r e1 log1 h
      rw [hlp] at hnp
      rcases hd with ⟨hr, hq, hall⟩ | ⟨pre, nd, hpre, hallpre, hcvnd, hr⟩
      · subst hr
        refine ⟨by intro t h1; exact absurd h1 (by simp), newp, hnp, ?_, ?_⟩
        · exact ⟨fun _ => ⟨hq, hall⟩, fun _ => rfl⟩
        · intro hne; exact absurd rfl hne
      · subst hr
        refine ⟨by intro t h1; exact absurd h1 (by simp), newp, hnp, ?_, ?_⟩
        · constructor
          · intro h1; exact absurd h1 (by simp)
          · rintro ⟨hq2, hall2⟩
            exact absurd hcvnd (by rw [hall2 nd (by rw [hpre]; simp)]; simp)
        · intro _; exact ⟨_, rfl⟩
    by_cases hq : e.queue.isEmpty
    · rw [if_pos hq] at hopt
      refine key _ _ ?_ hopt
      rfl
    · rw [if_neg hq] at hopt
      exact key _ _ rfl hopt
  · intro fuel m start goal sampler e log r e1 log1 hcv hopt
    rw [Dijkstra.optimizeT, if_neg (by simp [hcv])] at hopt
    dsimp only at hopt
    have key : ∀ (e0 : Dijkstra σ κ π) (log0 : DLog σ κ π), log0.pops = log.pops →
        Dijkstra.optLoopT m goal sampler fuel (e0, log0) = some (r, e1, log1) →
        (∀ t, r ≠ .Intermediate t) ∧
        ∃ newp, log1.pops = log.pops ++ newp ∧
          (r = .Err .Unreachable ↔
            e1.queue = [] ∧ ∀ nd ∈ newp, m.converge nd.state goal = false) ∧
          (r ≠ .Err .Unreachable → ∃ t, r = .Final t) := by
      intro e0 log0 hlp h
      obtain ⟨newp, hnp, hd⟩ := Dijkstra.optLoopT_pops_d m goal sampler fuel e0 log0 r e1 log1 h
      rw [hlp] at hnp
      rcases hd with ⟨hr, hq, hall⟩ | ⟨pre, nd, hpre, hallpre, hcvnd, hr⟩
      · subst hr
        refine ⟨by intro t h1; exact absurd h1 (by simp), newp, hnp, ?_, ?_⟩
        · exact ⟨fun _ => ⟨hq, hall⟩, fun _ => rfl⟩
        · intro hne; exact absurd rfl hne
      · subst hr
        refine ⟨by intro t h1; exact absurd h1 (by simp), newp, hnp, ?_, ?_⟩
        · constructor
          · intro h1; exact absurd h1 (by simp)
          · rintro ⟨hq2, hall2⟩
            exact absurd hcvnd (by rw [hall2 nd (by rw [hpre]; simp)]; simp)
        · intro _; exact ⟨_, rfl⟩
    by_cases hq : e.queue.isEmpty
    · rw [if_pos hq] at hopt
      refine key _ _ ?_ hopt
      rfl
    · rw [if_neg hq] at hopt
      exact key _ _ rfl hopt

/-- C5 witness: a concrete run of each engine on a model with no converging
state and an empty sampler, ending in `Err Unreachable` with an exhausted
frontier and a single non-converging pop. -/
theorem optimize_unreachable_iff_exhaustion_witness :
    ((∀ t, (PathResult.Err .Unreachable : PathResult Nat Nat) ≠ .Intermediate t) ∧
     ∃ newp, [(⟨⟨0, 0, 0⟩, 0, 0⟩ : ANode Nat Nat)] = [] ++ newp ∧
       ((PathResult.Err .Unreachable : PathResult Nat Nat) = .Err .Unreachable ↔
         ([] : List (Int × ANode Nat Nat)) = [] ∧
         ∀ nd ∈ newp, mLoop.converge nd.state 1 = false) ∧
       ((PathResult.Err .Unreachable : PathResult Nat Nat) ≠ .Err .Unreachable →
         ∃ t, (PathResult.Err .Unreachable : PathResult Nat Nat) = .Final t)) ∧
    ((∀ t, (PathResult.Err .Unreachable : PathResult Nat Nat) ≠ .Intermediate t) ∧
     ∃ newp, [(⟨⟨0, 0⟩, 0, 0⟩ : DNode Nat Nat)] = [] ++ newp ∧
       ((PathResult.Err .Unreachable : PathResult Nat Nat) = .Err .Unreachable ↔
         ([] : List (Int × DNode Nat Nat)) = [] ∧
         ∀ nd ∈ newp, mLoop.toModel.converge nd.state 1 = false) ∧
       ((PathResult.Err .Unreachable : PathResult Nat Nat) ≠ .Err .Unreachable →
         ∃ t, (PathResult.Err .Unreachable : PathResult Nat Nat) = .Final t)) :=
  ⟨optimize_unreachable_iff_exhaustion.1 3 mLoop 0 1 samplerEmpty AStar.new ALog.empty
     (.Err .Unreachable) ⟨[], [], [], 0⟩
     ⟨[⟨⟨0, 0, 0⟩, 0, 0⟩], [⟨⟨0, 0, 0⟩, 0, 0⟩], []⟩ (by decide) (by decide),
   optimize_unreachable_iff_exhaustion.2 3 mLoop.toModel 0 1 samplerEmpty Dijkstra.new
     DLog.empty (.Err .Unreachable) ⟨[], [], [], 0⟩
     ⟨[⟨⟨0, 0⟩, 0, 0⟩], [⟨⟨0, 0⟩, 0, 0⟩], []⟩ (by decide) (by decide)⟩

section C6Lemmas

theorem candMin_cons (q : π) (g : Int) (L : List (π × Int)) (p : π) :
    candMin ((q, g) :: L) p =
      if q = p then
        some (match candMin L p with | none => g | some v => min g v)
      else candMin L p := by
  cases h : candMin L p <;> simp [candMin, h]

theorem candMin_single (q : π) (g : Int) (p : π) :
    candMin [(q, g)] p = if q = p then some g else none := by
  simp [candMin]

theorem optMin_none_right : ∀ a : Option Int, optMin a none = a
  | none => rfl
  | some _ => rfl

theorem candMin_append : ∀ (L1 L2 : List (π × Int)) (p : π),
    candMin (L1 ++ L2) p = optMin (candMin L1 p) (candMin L2 p) := by
  intro L1
  induction L1 with
  | nil => intro L2 p; rfl
  | cons kv L1 ih =>
    obtain ⟨q, g⟩ := kv
    intro L2 p
    rw [List.cons_append, candMin_cons, candMin_cons, ih]
    by_cases hq : q = p
    · rw [if_pos hq, if_pos hq]
      cases h1 : candMin L1 p <;> cases h2 : candMin L2 p <;>
        simp [optMin, min_assoc]
    · rw [if_neg hq, if_neg hq]

theorem AStar.expandT_gridcand (m : HeuristicModel σ κ π) (goal : σ)
    (current : ANode σ κ) (L0 : List (π × Int)) (e : AStar σ κ π)
    (log : ALog σ κ π) (c : κ)
    (hInv : ∀ p, (lookupL e.grid p).map AId.g = candMin (L0 ++ log.cands) p) :
    ∀ p, (lookupL (AStar.expandT m goal current (e, log) c).1.grid p).map AId.g
      = candMin (L0 ++ (AStar.expandT m goal current (e, log) c).2.cands) p := by
  intro p
  cases hI : m.integrate current.state c with
  | none =>
    unfold AStar.expandT
    rw [hI]
    exact hInv p
  | some cs =>
    unfold AStar.expandT
    rw [hI]
    dsimp only
    cases hG : lookupL e.grid (m.grid_position cs) with
    | none =>
      dsimp only
      rw [← List.append_assoc, candMin_append, candMin_single, ← hInv p]
      by_cases hp : m.grid_position cs = p
      · subst hp
        rw [lookupL_setL_self, hG, if_pos rfl]
        rfl
      · rw [lookupL_setL_ne _ _ _ _ (fun h => hp h.symm), if_neg hp, optMin_none_right]
    | some best =>
      dsimp only
      by_cases hle : best.g ≤ current.id.g + m.cost current.state c cs
      · rw [if_pos hle]
        dsimp only
        rw [← List.append_assoc, candMin_append, candMin_single, ← hInv p]
        by_cases hp : m.grid_position cs = p
        · subst hp
          rw [hG, if_pos rfl]
          simp [optMin, min_eq_left hle]
        · rw [if_neg hp, optMin_none_right]
      · rw [if_neg hle]
        dsimp only
        rw [← List.append_assoc, candMin_append, candMin_single, ← hInv p]
        by_cases hp : m.grid_position cs = p
        · subst hp
          rw [lookupL_setL_self, hG, if_pos rfl]
          have hmin : min best.g (current.id.g + m.cost current.state c cs)
              = current.id.g + m.cost current.state c cs :=
            min_eq_right (le_of_lt (lt_of_not_ge hle))
          simp [optMin, hmin]
        · rw [lookupL_setL_ne _ _ _ _ (fun h => hp h.symm), if_neg hp, optMin_none_right]

theorem AStar.foldT_gridcand (m : HeuristicModel σ κ π) (goal : σ)
    (current : ANode σ κ) (L0 : List (π × Int)) :
    ∀ (l : List κ) (el : AStar σ κ π × ALog σ κ π),
      (∀ p, (lookupL el.1.grid p).map AId.g = candMin (L0 ++ el.2.cands) p) →
      ∀ p, (lookupL (l.foldl (AStar.expandT m goal current) el).1.grid p).map AId.g
        = candMin (L0 ++ (l.foldl (AStar.expandT m goal current) el).2.cands) p := by
  intro l
  induction l with
  | nil => intro el h; exact h
  | cons c cs ih =>
    intro el h
    simp only [List.foldl_cons]
    exact ih _ (by
      obtain ⟨e, log⟩ := el
      exact AStar.expandT_gridcand m goal current L0 e log c h)

theorem AStar.stepT_gridcand (m : HeuristicModel σ κ π) (goal : σ)
    (sampler : σ → List κ) (current : ANode σ κ) (L0 : List (π × Int))
    (el : AStar σ κ π × ALog σ κ π)
    (h : ∀ p, (lookupL el.1.grid p).map AId.g = candMin (L0 ++ el.2.cands) p) :
    ∀ p, (lookupL (AStar.stepT m goal sampler current el).2.1.grid p).map AId.g
      = candMin (L0 ++ (AStar.stepT m goal sampler current el).2.2.cands) p := by
  unfold AStar.stepT
  split
  · exact h
  · exact AStar.foldT_gridcand m goal current L0 _ el h

theorem AStar.optLoopT_gridcand (m : HeuristicModel σ κ π) (goal : σ)
    (sampler : σ → List κ) (L0 : List (π × Int)) :
    ∀ (fuel : Nat) (el : AStar σ κ π × ALog σ κ π) (r : PathResult σ κ)
      (e1 : AStar σ κ π) (log1 : ALog σ κ π),
      (∀ p, (lookupL el.1.grid p).map AId.g = candMin (L0 ++ el.2.cands) p) →
      AStar.optLoopT m goal sampler fuel el = some (r, e1, log1) →
      ∀ p, (lookupL e1.grid p).map AId.g = candMin (L0 ++ log1.cands) p := by
  intro fuel
  induction fuel with
  | zero => intro el r e1 log1 _ h; simp [AStar.optLoopT] at h
  | succ fuel ih =>
    intro el r e1 log1 hInv h
    obtain ⟨E, L⟩ := el
    rw [AStar.optLoopT] at h
    cases hp : popMin E.queue with
    | none =>
      rw [hp] at h
      simp only [Option.some.injEq, Prod.mk.injEq] at h
      obtain ⟨_, he1, hlog1⟩ := h
      subst he1; subst hlog1
      exact hInv
    | some er =>
      obtain ⟨entry, rest⟩ := er
      rw [hp] at h
      dsimp only at h
      have hInv1 : ∀ p, (lookupL ({ E with queue := rest } : AStar σ κ π).grid p).map AId.g
          = candMin (L0 ++ ({ L with pops := L.pops ++ [entry.2] } : ALog σ κ π).cands) p :=
        hInv
      have hstep := AStar.stepT_gridcand m goal sampler entry.2 L0
        ({ E with queue := rest }, { L with pops := L.pops ++ [entry.2] }) hInv1
      cases hs : AStar.stepT m goal sampler entry.2
        ({ E with queue := rest }, { L with pops := L.pops ++ [entry.2] }) with
      | mk done el2 =>
        obtain ⟨E2, L2⟩ := el2
        rw [hs] at h hstep
        dsimp only at h hstep
        cases done with
        | true =>
          simp only [Option.some.injEq, Prod.mk.injEq] at h
          obtain ⟨_, he1, hlog1⟩ := h
          subst he1; subst hlog1
          exact hstep
        | false => exact ih (E2, L2) r e1 log1 hstep h

theorem AStar.optimizeT_gridcand (fuel : Nat) (m : HeuristicModel σ κ π)
    (start goal : σ) (sampler : σ → List κ) (L0 : List (π × Int))
    (el : AStar σ κ π × ALog σ κ π) (r : PathResult σ κ)
    (e1 : AStar σ κ π) (log1 : ALog σ κ π)
    (hInv : ∀ p, (lookupL el.1.grid p).map AId.g = candMin (L0 ++ el.2.cands) p)
    (h : AStar.optimizeT fuel m start goal sampler el = some (r, e1, log1)) :
    ∀ p, (lookupL e1.grid p).map AId.g = candMin (L0 ++ log1.cands) p := by
  obtain ⟨E, L⟩ := el
  rw [AStar.optimizeT] at h
  by_cases hcv : m.converge start goal
  · rw [if_pos hcv] at h
    simp only [Option.some.injEq, Prod.mk.injEq] at h
    obtain ⟨_, he1, hlog1⟩ := h
    subst he1; subst hlog1
    exact hInv
  · rw [if_neg hcv] at h
    dsimp only at h
    by_cases hq : E.queue.isEmpty
    · rw [if_pos hq] at h
      exact AStar.optLoopT_gridcand m goal sampler L0 fuel
        ({ E with queue := E.queue ++ [AStar.seed m start goal] },
         { L with pushes := L.pushes ++ [(AStar.seed m start goal).2] })
        r e1 log1 hInv h
    · rw [if_neg hq] at h
      exact AStar.optLoopT_gridcand m goal sampler L0 fuel (E, L) r e1 log1 hInv h

theorem AStar.ntT_gridcand (m : HeuristicModel σ κ π) (start goal : σ)
    (sampler : σ → List κ) (L0 : List (π × Int))
    (el : AStar σ κ π × ALog σ κ π)
    (hInv : ∀ p, (lookupL el.1.grid p).map AId.g = candMin (L0 ++ el.2.cands) p) :
    ∀ p, (lookupL (AStar.next_trajectoryT m start goal sampler el).2.1.grid p).map AId.g
      = candMin (L0 ++ (AStar.next_trajectoryT m start goal sampler el).2.2.cands) p := by
  have hcore : ∀ (el1 : AStar σ κ π × ALog σ κ π),
      (∀ p, (lookupL el1.1.grid p).map AId.g = candMin (L0 ++ el1.2.cands) p) →
      ∀ p, (lookupL (match popMin el1.1.queue with
        | none => ((.Err .Unreachable : PathResult σ κ), el1)
        | some (entry, rest) =>
          match AStar.stepT m goal sampler entry.2
            ({ el1.1 with queue := rest },
             { el1.2 with pops := el1.2.pops ++ [entry.2] }) with
          | (true, el3) => (.Final (AStar.unwind_trajectory m el3.1 entry.2), el3)
          | (false, el3) => (.Intermediate (AStar.unwind_trajectory m el3.1 entry.2), el3)
        ).2.1.grid p).map AId.g
        = candMin (L0 ++ (match popMin el1.1.queue with
        | none => ((.Err .Unreachable : PathResult σ κ), el1)
        | some (entry, rest) =>
          match AStar.stepT m goal sampler entry.2
            ({ el1.1 with queue := rest },
             { el1.2 with pops := el1.2.pops ++ [entry.2] }) with
          | (true, el3) => (.Final (AStar.unwind_trajectory m el3.1 entry.2), el3)
          | (false, el3) => (.Intermediate (AStar.unwind_trajectory m el3.1 entry.2), el3)
        ).2.2.cands) p := by
    intro el1 hInv1 p
    cases hp : popMin el1.1.queue with
    | none => exact hInv1 p
    | some er =>
      obtain ⟨entry, rest⟩ := er
      dsimp only
      have hstep := AStar.stepT_gridcand m goal sampler entry.2 L0
        ({ el1.1 with queue := rest }, { el1.2 with pops := el1.2.pops ++ [entry.2] }) hInv1
      cases hs : AStar.stepT m goal sampler entry.2
        ({ el1.1 with queue := rest }, { el1.2 with pops := el1.2.pops ++ [entry.2] }) with
      | mk done el3 =>
        rw [hs] at hstep
        cases done with
        | true => exact hstep p
        | false => exact hstep p
  unfold AStar.next_trajectoryT
  by_cases hseed : el.1.parent_map.isEmpty && el.1.queue.isEmpty
  · rw [if_pos hseed]
    exact hcore _ hInv
  · rw [if_neg hseed]
    exact hcore el hInv

end C6Lemmas

section C6LemmasD

theorem Dijkstra.expandT_gridcand_d (m : Model σ κ π)
    (current : DNode σ κ) (L0 : List (π × Int)) (e : Dijkstra σ κ π)
    (log : DLog σ κ π) (c : κ)
    (hInv : ∀ p, (lookupL e.grid p).map DId.g = candMin (L0 ++ log.cands) p) :
    ∀ p, (lookupL (Dijkstra.expandT m current (e, log) c).1.grid p).map DId.g
      = candMin (L0 ++ (Dijkstra.expandT m current (e, log) c).2.cands) p := by
  intro p
  cases hI : m.integrate current.state c with
  | none =>
    unfold Dijkstra.expandT
    rw [hI]
    exact hInv p
  | some cs =>
    unfold Dijkstra.expandT
    rw [hI]
    dsimp only
    cases hG : lookupL e.grid (m.grid_position cs) with
    | none =>
      dsimp only
      rw [← List.append_assoc, candMin_append, candMin_single, ← hInv p]
      by_cases hp : m.grid_position cs = p
      · subst hp
        rw [lookupL_setL_self, hG, if_pos rfl]
        rfl
      · rw [lookupL_setL_ne _ _ _ _ (fun h => hp h.symm), if_neg hp, optMin_none_right]
    | some best =>
      dsimp only
      by_cases hle : best.g ≤ current.id.g + m.cost current.state c cs
      · rw [if_pos hle]
        dsimp only
        rw [← List.append_assoc, candMin_append, candMin_single, ← hInv p]
        by_cases hp : m.grid_position cs = p
        · subst hp
          rw [hG, if_pos rfl]
          simp [optMin, min_eq_left hle]
        · rw [if_neg hp, optMin_none_right]
      · rw [if_neg hle]
        dsimp only
        rw [← List.append_assoc, candMin_append, candMin_single, ← hInv p]
        by_cases hp : m.grid_position cs = p
        · subst hp
          rw [lookupL_setL_self, hG, if_pos rfl]
          have hmin : min best.g (current.id.g + m.cost current.state c cs)
              = current.id.g + m.cost current.state c cs :=
            min_eq_right (le_of_lt (lt_of_not_ge hle))
          simp [optMin, hmin]
        · rw [lookupL_setL_ne _ _ _ _ (fun h => hp h.symm), if_neg hp, optMin_none_right]

theorem Dijkstra.foldT_gridcand_d (m : Model σ κ π)
    (current : DNode σ κ) (L0 : List (π × Int)) :
    ∀ (l : List κ) (el : Dijkstra σ κ π × DLog σ κ π),
      (∀ p, (lookupL el.1.grid p).map DId.g = candMin (L0 ++ el.2.cands) p) →
      ∀ p, (lookupL (l.foldl (Dijkstra.expandT m current) el).1.grid p).map DId.g
        = candMin (L0 ++ (l.foldl (Dijkstra.expandT m current) el).2.cands) p := by
  intro l
  induction l with
  | nil => intro el h; exact h
  | cons c cs ih =>
    intro el h
    simp only [List.foldl_cons]
    exact ih _ (by
      obtain ⟨e, log⟩ := el
      exact Dijkstra.expandT_gridcand_d m current L0 e log c h)

theorem Dijkstra.stepT_gridcand_d (m : Model σ κ π) (goal : σ)
    (sampler : σ → List κ) (current : DNode σ κ) (L0 : List (π × Int))
    (el : Dijkstra σ κ π × DLog σ κ π)
    (h : ∀ p, (lookupL el.1.grid p).map DId.g = candMin (L0 ++ el.2.cands) p) :
    ∀ p, (lookupL (Dijkstra.stepT m goal sampler current el).2.1.grid p).map DId.g
      = candMin (L0 ++ (Dijkstra.stepT m goal sampler current el).2.2.cands) p := by
  unfold Dijkstra.stepT
  split
  · exact h
  · exact Dijkstra.foldT_gridcand_d m current L0 _ el h

theorem Dijkstra.optLoopT_gridcand_d (m : Model σ κ π) (goal : σ)
    (sampler : σ → List κ) (L0 : List (π × Int)) :
    ∀ (fuel : Nat) (el : Dijkstra σ κ π × DLog σ κ π) (r : PathResult σ κ)
      (e1 : Dijkstra σ κ π) (log1 : DLog σ κ π),
      (∀ p, (lookupL el.1.grid p).map DId.g = candMin (L0 ++ el.2.cands) p) →
      Dijkstra.optLoopT m goal sampler fuel el = some (r, e1, log1) →
      ∀ p, (lookupL e1.grid p).map DId.g = candMin (L0 ++ log1.cands) p := by
  intro fuel
  induction fuel with
  | zero => intro el r e1 log1 _ h; simp [Dijkstra.optLoopT] at h
  | succ fuel ih =>
    intro el r e1 log1 hInv h
    obtain ⟨E, L⟩ := el
    rw [Dijkstra.optLoopT] at h
    cases hp : popMax E.queue with
    | none =>
      rw [hp] at h
      simp only [Option.some.injEq, Prod.mk.injEq] at h
      obtain ⟨_, he1, hlog1⟩ := h
      subst he1; subst hlog1
      exact hInv
    | some er =>
      obtain ⟨entry, rest⟩ := er
      rw [hp] at h
      dsimp only at h
      have hInv1 : ∀ p, (lookupL ({ E with queue := rest } : Dijkstra σ κ π).grid p).map DId.g
          = candMin (L0 ++ ({ L with pops := L.pops ++ [entry.2] } : DLog σ κ π).cands) p :=
        hInv
      have hstep := Dijkstra.stepT_gridcand_d m goal sampler entry.2 L0
        ({ E with queue := rest }, { L with pops := L.pops ++ [entry.2] }) hInv1
      cases hs : Dijkstra.stepT m goal sampler entry.2
        ({ E with queue := rest }, { L with pops := L.pops ++ [entry.2] }) with
      | mk done el2 =>
        obtain ⟨E2, L2⟩ := el2
        rw [hs] at h hstep
        dsimp only at h hstep
        cases done with
        | true =>
          simp only [Option.some.injEq, Prod.mk.injEq] at h
          obtain ⟨_, he1, hlog1⟩ := h
          subst he1; subst hlog1
          exact hstep
        | false => exact ih (E2, L2) r e1 log1 hstep h

theorem Dijkstra.optimizeT_gridcand_d (fuel : Nat) (m : Model σ κ π)
    (start goal : σ) (sampler : σ → List κ) (L0 : List (π × Int))
    (el : Dijkstra σ κ π × DLog σ κ π) (r : PathResult σ κ)
    (e1 : Dijkstra σ κ π) (log1 : DLog σ κ π)
    (hInv : ∀ p, (lookupL el.1.grid p).map DId.g = candMin (L0 ++ el.2.cands) p)
    (h : Dijkstra.optimizeT fuel m start goal sampler el = some (r, e1, log1)) :
    ∀ p, (lookupL e1.grid p).map DId.g = candMin (L0 ++ log1.cands) p := by
  obtain ⟨E, L⟩ := el
  rw [Dijkstra.optimizeT] at h
  by_cases hcv : m.converge start goal
  · rw [if_pos hcv] at h
    simp only [Option.some.injEq, Prod.mk.injEq] at h
    obtain ⟨_, he1, hlog1⟩ := h
    subst he1; subst hlog1
    exact hInv
  · rw [if_neg hcv] at h
    dsimp only at h
    by_cases hq : E.queue.isEmpty
    · rw [if_pos hq] at h
      exact Dijkstra.optLoopT_gridcand_d m goal sampler L0 fuel
        ({ E with queue := E.queue ++ [Dijkstra.seed m start] },
         { L with pushes := L.pushes ++ [(Dijkstra.seed m start).2] })
        r e1 log1 hInv h
    · rw [if_neg hq] at h
      exact Dijkstra.optLoopT_gridcand_d m goal sampler L0 fuel (E, L) r e1 log1 hInv h

theorem Dijkstra.ntT_gridcand_d (m : Model σ κ π) (start goal : σ)
    (sampler : σ → List κ) (L0 : List (π × Int))
    (el : Dijkstra σ κ π × DLog σ κ π)
    (hInv : ∀ p, (lookupL el.1.grid p).map DId.g = candMin (L0 ++ el.2.cands) p) :
    ∀ p, (lookupL (Dijkstra.next_trajectoryT m start goal sampler el).2.1.grid p).map DId.g
      = candMin (L0 ++ (Dijkstra.next_trajectoryT m start goal sampler el).2.2.cands) p := by
  have hcore : ∀ (el1 : Dijkstra σ κ π × DLog σ κ π),
      (∀ p, (lookupL el1.1.grid p).map DId.g = candMin (L0 ++ el1.2.cands) p) →
      ∀ p, (lookupL (match popMax el1.1.queue with
        | none => ((.Err .Unreachable : PathResult σ κ), el1)
        | some (entry, rest) =>
          match Dijkstra.stepT m goal sampler entry.2
            ({ el1.1 with queue := rest },
             { el1.2 with pops := el1.2.pops ++ [entry.2] }) with
          | (true, el3) => (.Final (Dijkstra.unwind_trajectory el3.1 entry.2), el3)
          | (false, el3) => (.Intermediate (Dijkstra.unwind_trajectory el3.1 entry.2), el3)
        ).2.1.grid p).map DId.g
        = candMin (L0 ++ (match popMax el1.1.queue with
        | none => ((.Err .Unreachable : PathResult σ κ), el1)
        | some (entry, rest) =>
          match Dijkstra.stepT m goal sampler entry.2
            ({ el1.1 with queue := rest },
             { el1.2 with pops := el1.2.pops ++ [entry.2] }) with
          | (true, el3) => (.Final (Dijkstra.unwind_trajectory el3.1 entry.2), el3)
          | (false, el3) => (.Intermediate (Dijkstra.unwind_trajectory el3.1 entry.2), el3)
        ).2.2.cands) p := by
    intro el1 hInv1 p
    cases hp : popMax el1.1.queue with
    | none => exact hInv1 p
    | some er =>
      obtain ⟨entry, rest⟩ := er
      dsimp only
      have hstep := Dijkstra.stepT_gridcand_d m goal sampler entry.2 L0
        ({ el1.1 with queue := rest }, { el1.2 with pops := el1.2.pops ++ [entry.2] }) hInv1
      cases hs : Dijkstra.stepT m goal sampler entry.2
        ({ el1.1 with queue := rest }, { el1.2 with pops := el1.2.pops ++ [entry.2] }) with
      | mk done el3 =>
        rw [hs] at hstep
        cases done with
        | true => exact hstep p
        | false => exact hstep p
  unfold Dijkstra.next_trajectoryT
  by_cases hseed : el.1.parent_map.isEmpty && el.1.queue.isEmpty
  · rw [if_pos hseed]
    exact hcore _ hInv
  · rw [if_neg hseed]
    exact hcore el hInv

end C6LemmasD

/-- C6 counterexample: on a fresh A* engine, one `next_trajectory` call pushes
the seed node (grid position 0) onto the frontier, yet the resulting engine's
best-cost map has no entry for position 0 — a discovered position missing from
the map. -/
theorem discovered_position_missing_from_grid :
    ((AStar.next_trajectoryT mLoop 0 1 samplerEmpty
        (AStar.new, ALog.empty)).2.2.pushes.map fun nd => mLoop.grid_position nd.state)
      = [0] ∧
    lookupL (AStar.next_trajectoryT mLoop 0 1 samplerEmpty
        (AStar.new, ALog.empty)).2.1.grid 0 = none := by
  decide

/-- C6 (amended): in every reachable engine state of either engine the
best-cost map holds exactly the grid positions of the candidate children ever
examined by the deduplication check (the seed node, pushed without such a
check, is absent), each mapped to the least accumulated cost ever seen for
that position; and locally a candidate costing at least the stored entry
mutates nothing but the id counter while a strictly cheaper one overwrites
the entry with its own cost. -/
theorem grid_tracks_min_candidate_cost :
    (∀ (e : AStar σ κ π) (L : List (π × Int)), AStar.ReachL e L →
       ∀ p, (lookupL e.grid p).map AId.g = candMin L p) ∧
    (∀ (e : Dijkstra σ κ π) (L : List (π × Int)), Dijkstra.ReachL e L →
       ∀ p, (lookupL e.grid p).map DId.g = candMin L p) ∧
    (∀ (m : HeuristicModel σ κ π) (goal : σ) (current : ANode σ κ)
       (e : AStar σ κ π) (c : κ) (cs : σ) (best : AId),
       m.integrate current.state c = some cs →
       lookupL e.grid (m.grid_position cs) = some best →
       (best.g ≤ current.id.g + m.cost current.state c cs →
         AStar.expand m goal current e c = { e with id_counter := e.id_counter + 1 }) ∧
       (current.id.g + m.cost current.state c cs < best.g →
         lookupL (AStar.expand m goal current e c).grid (m.grid_position cs) =
           some (AStar.child m goal current e c cs).id ∧
         (AStar.child m goal current e c cs).id.g =
           current.id.g + m.cost current.state c cs)) ∧
    (∀ (m : Model σ κ π) (current : DNode σ κ)
       (e : Dijkstra σ κ π) (c : κ) (cs : σ) (best : DId),
       m.integrate current.state c = some cs →
       lookupL e.grid (m.grid_position cs) = some best →
       (best.g ≤ current.id.g + m.cost current.state c cs →
         Dijkstra.expand m current e c = { e with id_counter := e.id_counter + 1 }) ∧
       (current.id.g + m.cost current.state c cs < best.g →
         lookupL (Dijkstra.expand m current e c).grid (m.grid_position cs) =
           some (Dijkstra.child m current e c cs).id ∧
         (Dijkstra.child m current e c cs).id.g =
           current.id.g + m.cost current.state c cs)) := by
  refine ⟨?_, ?_, ?_, ?_⟩
  · intro e L hReach
    induction hReach with
    | new => intro p; rfl
    | clear e0 L0 _ _ => intro p; rfl
    | opt e0 e1 L0 fuel m start goal sampler r log _ hopt ih =>
      have h0 : ∀ p, (lookupL e0.grid p).map AId.g
          = candMin (L0 ++ (ALog.empty : ALog σ κ π).cands) p := by
        intro p
        rw [show (ALog.empty : ALog σ κ π).cands = [] from rfl, List.append_nil]
        exact ih p
      exact AStar.optimizeT_gridcand fuel m start goal sampler L0
        (e0, ALog.empty) r e1 log h0 hopt
    | nt e0 L0 m start goal sampler _ ih =>
      have h0 : ∀ p, (lookupL e0.grid p).map AId.g
          = candMin (L0 ++ (ALog.empty : ALog σ κ π).cands) p := by
        intro p
        rw [show (ALog.empty : ALog σ κ π).cands = [] from rfl, List.append_nil]
        exact ih p
      exact AStar.ntT_gridcand m start goal sampler L0 (e0, ALog.empty) h0
  · intro e L hReach
    induction hReach with
    | new => intro p; rfl
    | opt e0 e1 L0 fuel m start goal sampler r log _ hopt ih =>
      have h0 : ∀ p, (lookupL e0.grid p).map DId.g
          = candMin (L0 ++ (DLog.empty : DLog σ κ π).cands) p := by
        intro p
        rw [show (DLog.empty : DLog σ κ π).cands = [] from rfl, List.append_nil]
        exact ih p
      exact Dijkstra.optimizeT_gridcand_d fuel m start goal sampler L0
        (e0, DLog.empty) r e1 log h0 hopt
    | nt e0 L0 m start goal sampler _ ih =>
      have h0 : ∀ p, (lookupL e0.grid p).map DId.g
          = candMin (L0 ++ (DLog.empty : DLog σ κ π).cands) p := by
        intro p
        rw [show (DLog.empty : DLog σ κ π).cands = [] from rfl, List.append_nil]
        exact ih p
      exact Dijkstra.ntT_gridcand_d m start goal sampler L0 (e0, DLog.empty) h0
  · intro m goal current e c cs best hI hG
    rcases AStar.expand_spec m goal current e c with ⟨hI0, _⟩ |
        ⟨cs0, hI0, ⟨best0, hG0, hle0, heq⟩ | ⟨hdisj, heq⟩⟩
    · rw [hI0] at hI; exact absurd hI (by simp)
    all_goals rw [hI0] at hI
    all_goals injection hI with hcs
    all_goals subst hcs
    · rw [hG0] at hG
      injection hG with hbest
      subst hbest
      constructor
      · intro _; exact heq
      · intro hlt; exact absurd hle0 (by omega)
    · rcases hdisj with hnone | ⟨best0, hG0, hlt0⟩
      · rw [hnone] at hG; exact absurd hG (by simp)
      · rw [hG0] at hG
        injection hG with hbest
        subst hbest
        constructor
        · intro hle; exact absurd hlt0 (by omega)
        · intro _
          rw [heq]
          dsimp only
          exact ⟨lookupL_setL_self _ _ _, rfl⟩
  · intro m current e c cs best hI hG
    rcases Dijkstra.expand_spec_d m current e c with ⟨hI0, _⟩ |
        ⟨cs0, hI0, ⟨best0, hG0, hle0, heq⟩ | ⟨hdisj, heq⟩⟩
    · rw [hI0] at hI; exact absurd hI (by simp)
    all_goals rw [hI0] at hI
    all_goals injection hI with hcs
    all_goals subst hcs
    · rw [hG0] at hG
      injection hG with hbest
      subst hbest
      constructor
      · intro _; exact heq
      · intro hlt; exact absurd hle0 (by omega)
    · rcases hdisj with hnone | ⟨best0, hG0, hlt0⟩
      · rw [hnone] at hG; exact absurd hG (by simp)
      · rw [hG0] at hG
        injection hG with hbest
        subst hbest
        constructor
        · intro hle; exact absurd hlt0 (by omega)
        · intro _
          rw [heq]
          dsimp only
          exact ⟨lookupL_setL_self _ _ _, rfl⟩

/-- C6 witness: the invariant and the local discipline evaluated on concrete
runs: one `next_trajectory` call of each engine on the two-state unit-cost
model, a pruned A* candidate, and an overwriting Dijkstra candidate. -/
theorem grid_tracks_min_candidate_cost_witness :
    ((lookupL (AStar.next_trajectoryT mUnitH 0 5 samplerSingle
        (AStar.new, ALog.empty)).2.1.grid 1).map AId.g
      = candMin ([] ++ (AStar.next_trajectoryT mUnitH 0 5 samplerSingle
        (AStar.new, ALog.empty)).2.2.cands) 1) ∧
    ((lookupL (Dijkstra.next_trajectoryT mUnit 0 5 samplerSingle
        (Dijkstra.new, DLog.empty)).2.1.grid 1).map DId.g
      = candMin ([] ++ (Dijkstra.next_trajectoryT mUnit 0 5 samplerSingle
        (Dijkstra.new, DLog.empty)).2.2.cands) 1) ∧
    (AStar.expand mUnitH 5 ⟨⟨0, 0, 0⟩, 0, 7⟩ ⟨[], [], [(1, ⟨5, 0, 0⟩)], 0⟩ 0
      = ⟨[], [], [(1, ⟨5, 0, 0⟩)], 1⟩) ∧
    (lookupL (Dijkstra.expand mUnit ⟨⟨0, 0⟩, 0, 7⟩ ⟨[], [(1, ⟨5, 9⟩)], [], 0⟩ 0).grid
        (mUnit.grid_position 1)
      = some (Dijkstra.child mUnit ⟨⟨0, 0⟩, 0, 7⟩ ⟨[], [(1, ⟨5, 9⟩)], [], 0⟩ 0 1).id ∧
     (Dijkstra.child mUnit ⟨⟨0, 0⟩, 0, 7⟩ ⟨[], [(1, ⟨5, 9⟩)], [], 0⟩ 0 1).id.g = 0 + 1) :=
  ⟨grid_tracks_min_candidate_cost.1 _ _
     (AStar.ReachL.nt AStar.new [] mUnitH 0 5 samplerSingle AStar.ReachL.new) 1,
   grid_tracks_min_candidate_cost.2.1 _ _
     (Dijkstra.ReachL.nt Dijkstra.new [] mUnit 0 5 samplerSingle Dijkstra.ReachL.new) 1,
   (grid_tracks_min_candidate_cost.2.2.1 mUnitH 5 ⟨⟨0, 0, 0⟩, 0, 7⟩
     ⟨[], [], [(1, ⟨5, 0, 0⟩)], 0⟩ 0 1 ⟨5, 0, 0⟩ (by decide) (by decide)).1 (by decide),
   (grid_tracks_min_candidate_cost.2.2.2 mUnit ⟨⟨0, 0⟩, 0, 7⟩
     ⟨[], [(1, ⟨5, 9⟩)], [], 0⟩ 0 1 ⟨5, 9⟩ (by decide) (by decide)).2 (by decide)⟩

section C7A

theorem setL_ne_nil {α β : Type} [DecidableEq α] :
    ∀ (l : List (α × β)) (k : α) (v : β), setL l k v ≠ []
  | [], k, v => by simp [setL]
  | (k0, v0) :: rest, k, v => by
    unfold setL
    split <;> simp

theorem AStar.unwind_root (m : HeuristicModel σ κ π) (e : AStar σ κ π)
    (nd : ANode σ κ) (h : lookupL e.parent_map nd.id.id = none) :
    AStar.unwind_trajectory m e nd = ⟨0, [(nd.state, nd.control)]⟩ := by
  simp [AStar.unwind_trajectory, AStar.unwindAux, h]

theorem Dijkstra.unwind_root_d (e : Dijkstra σ κ π)
    (nd : DNode σ κ) (h : lookupL e.parent_map nd.id.id = none) :
    Dijkstra.unwind_trajectory e nd = ⟨nd.id.g, [(nd.state, nd.control)]⟩ := by
  simp [Dijkstra.unwind_trajectory, Dijkstra.unwindAux, h]

theorem AStar.expand_pm_ne (m : HeuristicModel σ κ π) (goal : σ)
    (current : ANode σ κ) (e : AStar σ κ π) (c : κ)
    (h : e.parent_map ≠ []) :
    (AStar.expand m goal current e c).parent_map ≠ [] := by
  rcases AStar.expand_spec m goal current e c with ⟨_, heq⟩ |
      ⟨cs, _, ⟨best, _, _, heq⟩ | ⟨_, heq⟩⟩
  · rw [heq]; exact h
  · rw [heq]; exact h
  · rw [heq]; exact setL_ne_nil _ _ _

theorem AStar.fold_pm_ne (m : HeuristicModel σ κ π) (goal : σ)
    (current : ANode σ κ) :
    ∀ (l : List κ) (e : AStar σ κ π), e.parent_map ≠ [] →
      (l.foldl (AStar.expand m goal current) e).parent_map ≠ [] := by
  intro l
  induction l with
  | nil => intro e h; exact h
  | cons c cs ih =>
    intro e h
    simp only [List.foldl_cons]
    exact ih _ (AStar.expand_pm_ne m goal current e c h)

theorem AStar.step_pm_ne (m : HeuristicModel σ κ π) (goal : σ)
    (sampler : σ → List κ) (current : ANode σ κ) (e : AStar σ κ π)
    (h : e.parent_map ≠ []) :
    (AStar.step m goal sampler current e).2.parent_map ≠ [] := by
  unfold AStar.step
  split
  · exact h
  · exact AStar.fold_pm_ne m goal current _ e h

theorem AStar.fold_id (m : HeuristicModel σ κ π) (goal : σ)
    (current : ANode σ κ) :
    ∀ (l : List κ) (e : AStar σ κ π),
      (∀ c ∈ l, m.integrate current.state c = none) →
      l.foldl (AStar.expand m goal current) e = e := by
  intro l
  induction l with
  | nil => intro e _; rfl
  | cons c cs ih =>
    intro e h
    simp only [List.foldl_cons]
    have hc : AStar.expand m goal current e c = e := by
      unfold AStar.expand
      rw [h c (List.mem_cons_self c cs)]
    rw [hc]
    exact ih e (fun c1 h1 => h c1 (List.mem_cons_of_mem c h1))

theorem AStar.fold_nopush (m : HeuristicModel σ κ π) (goal : σ)
    (current : ANode σ κ) :
    ∀ (l : List κ) (e : AStar σ κ π), e.grid = [] → e.parent_map = [] →
      (l.foldl (AStar.expand m goal current) e).parent_map = [] →
      (∀ c ∈ l, m.integrate current.state c = none) ∧
      l.foldl (AStar.expand m goal current) e = e := by
  intro l
  induction l with
  | nil => intro e _ _ _; exact ⟨by simp, rfl⟩
  | cons c cs ih =>
    intro e hg hpm hfold
    simp only [List.foldl_cons] at hfold ⊢
    rcases AStar.expand_spec m goal current e c with ⟨hI, heq⟩ |
        ⟨cs0, hI, ⟨best, hG, hle, heq⟩ | ⟨hdisj, heq⟩⟩
    · rw [heq] at hfold ⊢
      obtain ⟨hall, hfix⟩ := ih e hg hpm hfold
      refine ⟨?_, hfix⟩
      intro c1 h1
      rcases List.mem_cons.mp h1 with h2 | h2
      · rw [h2]; exact hI
      · exact hall c1 h2
    · rw [hg] at hG
      exact absurd hG (by simp [lookupL])
    · exfalso
      rw [heq] at hfold
      exact AStar.fold_pm_ne m goal current cs _ (by
        dsimp only
        exact setL_ne_nil _ _ _) hfold

end C7A

section C7B

theorem AStar.nt_noseed (m : HeuristicModel σ κ π) (start goal : σ)
    (sampler : σ → List κ) (e : AStar σ κ π)
    (hb : (e.parent_map.isEmpty && e.queue.isEmpty) = false) :
    AStar.next_trajectory m start goal sampler e =
      match popMin e.queue with
      | none => (.Err .Unreachable, e)
      | some (entry, rest) =>
        match AStar.step m goal sampler entry.2 { e with queue := rest } with
        | (true, e3) => (.Final (AStar.unwind_trajectory m e3 entry.2), e3)
        | (false, e3) => (.Intermediate (AStar.unwind_trajectory m e3 entry.2), e3) := by
  unfold AStar.next_trajectory
  rw [hb]
  rfl

theorem AStar.nt_fresh (m : HeuristicModel σ κ π) (start goal : σ)
    (sampler : σ → List κ) (e0 : AStar σ κ π)
    (hq0 : e0.queue = []) (hpm0 : e0.parent_map = []) :
    AStar.next_trajectory m start goal sampler e0 =
      match AStar.step m goal sampler (AStar.seed m start goal).2
          { e0 with queue := [] } with
      | (true, e3) =>
          (.Final (AStar.unwind_trajectory m e3 (AStar.seed m start goal).2), e3)
      | (false, e3) =>
          (.Intermediate (AStar.unwind_trajectory m e3 (AStar.seed m start goal).2), e3) := by
  obtain ⟨q, pm, g, c⟩ := e0
  dsimp only at hq0 hpm0
  subst hq0; subst hpm0
  rfl

end C7B

section C7C

theorem AStar.optLoop_succ (m : HeuristicModel σ κ π) (goal : σ)
    (sampler : σ → List κ) (fuel : Nat) (e : AStar σ κ π) :
    AStar.optLoop m goal sampler (fuel + 1) e =
      match popMin e.queue with
      | none => some (.Err .Unreachable, e)
      | some (entry, rest) =>
        match AStar.step m goal sampler entry.2 { e with queue := rest } with
        | (true, e2) => some (.Final (AStar.unwind_trajectory m e2 entry.2), e2)
        | (false, e2) => AStar.optLoop m goal sampler fuel e2 := rfl

theorem AStar.optimize_fresh (fuel : Nat) (m : HeuristicModel σ κ π)
    (start goal : σ) (sampler : σ → List κ) (e0 : AStar σ κ π)
    (hq0 : e0.queue = []) (hcv : m.converge start goal = false) :
    AStar.optimize (fuel + 1) m start goal sampler e0 =
      match AStar.step m goal sampler (AStar.seed m start goal).2
          { e0 with queue := [] } with
      | (true, e3) =>
          some (.Final (AStar.unwind_trajectory m e3 (AStar.seed m start goal).2), e3)
      | (false, e3) => AStar.optLoop m goal sampler fuel e3 := by
  obtain ⟨q, pm, g, c⟩ := e0
  dsimp only at hq0
  subst hq0
  unfold AStar.optimize
  rw [hcv]
  rfl

theorem AStar.coreSim (m : HeuristicModel σ κ π) (start goal : σ)
    (sampler : σ → List κ) :
    ∀ (n : Nat) (e : AStar σ κ π) (t : Trajectory σ κ),
      e.parent_map ≠ [] →
      AStar.ntFF m start goal sampler n e t →
      ∃ fuel e1, AStar.optLoop m goal sampler fuel e = some (.Final t, e1) := by
  intro n
  induction n with
  | zero =>
    intro e t hpm hFF
    simp only [AStar.ntFF] at hFF
    have hb : (e.parent_map.isEmpty && e.queue.isEmpty) = false := by
      cases hp : e.parent_map with
      | nil => exact absurd hp hpm
      | cons a l => rfl
    rw [AStar.nt_noseed m start goal sampler e hb] at hFF
    cases hp : popMin e.queue with
    | none => rw [hp] at hFF; simp at hFF
    | some er =>
      obtain ⟨entry, rest⟩ := er
      rw [hp] at hFF
      dsimp only at hFF
      cases hs : AStar.step m goal sampler entry.2 { e with queue := rest } with
      | mk done e3 =>
        rw [hs] at hFF
        cases done with
        | false => simp at hFF
        | true =>
          dsimp only at hFF
          injection hFF with ht
          refine ⟨1, e3, ?_⟩
          rw [AStar.optLoop_succ, hp]
          dsimp only
          rw [hs]
          dsimp only
          rw [ht]
  | succ n ih =>
    intro e t hpm hFF
    simp only [AStar.ntFF] at hFF
    obtain ⟨hnf, hFF2⟩ := hFF
    have hb : (e.parent_map.isEmpty && e.queue.isEmpty) = false := by
      cases hp : e.parent_map with
      | nil => exact absurd hp hpm
      | cons a l => rfl
    rw [AStar.nt_noseed m start goal sampler e hb] at hnf hFF2
    cases hp : popMin e.queue with
    | none =>
      rw [hp] at hFF2
      dsimp only at hFF2
      exact ih e t hpm hFF2
    | some er =>
      obtain ⟨entry, rest⟩ := er
      rw [hp] at hnf hFF2
      dsimp only at hnf hFF2
      cases hs : AStar.step m goal sampler entry.2 { e with queue := rest } with
      | mk done e3 =>
        rw [hs] at hnf hFF2
        cases done with
        | true => simp [PathResult.isFinal] at hnf
        | false =>
          dsimp only at hFF2
          have hpm3 : e3.parent_map ≠ [] := by
            have hmono := AStar.step_pm_ne m goal sampler entry.2
              { e with queue := rest } (by exact hpm)
            rw [hs] at hmono
            exact hmono
          obtain ⟨fuel, e1, hloop⟩ := ih e3 t hpm3 hFF2
          refine ⟨fuel + 1, e1, ?_⟩
          rw [AStar.optLoop_succ, hp]
          dsimp only
          rw [hs]
          exact hloop

theorem AStar.ntStuck (m : HeuristicModel σ κ π) (start goal : σ)
    (sampler : σ → List κ)
    (hcv : m.converge start goal = false)
    (hnone : ∀ c ∈ sampler start, m.integrate start c = none) :
    ∀ (n : Nat) (e : AStar σ κ π) (t : Trajectory σ κ),
      e.queue = [] → e.parent_map = [] →
      ¬ AStar.ntFF m start goal sampler n e t := by
  have hstep : ∀ (e : AStar σ κ π),
      AStar.step m goal sampler (AStar.seed m start goal).2 { e with queue := [] }
        = (false, { e with queue := [] }) := by
    intro e
    unfold AStar.step
    rw [show m.converge (AStar.seed m start goal).2.state goal = false from hcv]
    simp only [Bool.false_eq_true, if_false]
    rw [AStar.fold_id m goal (AStar.seed m start goal).2
      (sampler (AStar.seed m start goal).2.state) { e with queue := [] }
      (fun c hc => hnone c hc)]
  intro n
  induction n with
  | zero =>
    intro e t hq hpm hFF
    simp only [AStar.ntFF] at hFF
    rw [AStar.nt_fresh m start goal sampler e hq hpm] at hFF
    rw [hstep e] at hFF
    simp at hFF
  | succ n ih =>
    intro e t hq hpm hFF
    simp only [AStar.ntFF] at hFF
    obtain ⟨_, hFF2⟩ := hFF
    rw [AStar.nt_fresh m start goal sampler e hq hpm] at hFF2
    rw [hstep e] at hFF2
    dsimp only at hFF2
    exact ih { e with queue := [] } t rfl (by exact hpm) hFF2

end C7C

section C7D

theorem AStar.ntMatchesOptimize (m : HeuristicModel σ κ π) (start goal : σ)
    (sampler : σ → List κ) (e0 : AStar σ κ π) (n : Nat) (t : Trajectory σ κ)
    (hq0 : e0.queue = []) (hpm0 : e0.parent_map = []) (hg0 : e0.grid = [])
    (hFF : AStar.ntFF m start goal sampler n e0 t) :
    ∃ fuel e1, AStar.optimize fuel m start goal sampler e0 = some (.Final t, e1) := by
  cases hcv : m.converge start goal with
  | true =>
    have hstep : AStar.step m goal sampler (AStar.seed m start goal).2
        { e0 with queue := [] } = (true, { e0 with queue := [] }) := by
      unfold AStar.step
      rw [show m.converge (AStar.seed m start goal).2.state goal = true from hcv]
      rfl
    have hlk : lookupL ({ e0 with queue := ([] : List (Int × ANode σ κ)) } :
        AStar σ κ π).parent_map (AStar.seed m start goal).2.id.id = none := by
      show lookupL e0.parent_map (AStar.seed m start goal).2.id.id = none
      rw [hpm0]
      rfl
    have hunw := AStar.unwind_root m { e0 with queue := [] }
      (AStar.seed m start goal).2 hlk
    have hopt : AStar.optimize 1 m start goal sampler e0
        = some (.Final ⟨0, [(start, m.default_control)]⟩, e0) := by
      unfold AStar.optimize
      rw [hcv]
      rfl
    cases n with
    | zero =>
      simp only [AStar.ntFF] at hFF
      rw [AStar.nt_fresh m start goal sampler e0 hq0 hpm0] at hFF
      rw [hstep] at hFF
      dsimp only at hFF
      injection hFF with ht
      subst ht
      refine ⟨1, e0, ?_⟩
      rw [hunw]
      exact hopt
    | succ n =>
      simp only [AStar.ntFF] at hFF
      obtain ⟨hnf, _⟩ := hFF
      rw [AStar.nt_fresh m start goal sampler e0 hq0 hpm0] at hnf
      rw [hstep] at hnf
      simp [PathResult.isFinal] at hnf
  | false =>
    have hstep : AStar.step m goal sampler (AStar.seed m start goal).2
        { e0 with queue := [] }
        = (false, (sampler (AStar.seed m start goal).2.state).foldl
            (AStar.expand m goal (AStar.seed m start goal).2) { e0 with queue := [] }) := by
      unfold AStar.step
      rw [show m.converge (AStar.seed m start goal).2.state goal = false from hcv]
      rfl
    cases n with
    | zero =>
      simp only [AStar.ntFF] at hFF
      rw [AStar.nt_fresh m start goal sampler e0 hq0 hpm0] at hFF
      rw [hstep] at hFF
      simp at hFF
    | succ n =>
      simp only [AStar.ntFF] at hFF
      obtain ⟨_, hFF2⟩ := hFF
      rw [AStar.nt_fresh m start goal sampler e0 hq0 hpm0] at hFF2
      rw [hstep] at hFF2
      dsimp only at hFF2
      by_cases hpm1 : ((sampler (AStar.seed m start goal).2.state).foldl
          (AStar.expand m goal (AStar.seed m start goal).2)
          { e0 with queue := [] }).parent_map = []
      · obtain ⟨hnone, hfix⟩ := AStar.fold_nopush m goal (AStar.seed m start goal).2
          (sampler (AStar.seed m start goal).2.state) { e0 with queue := [] }
          (by exact hg0) (by exact hpm0) hpm1
        rw [hfix] at hFF2
        exact absurd hFF2 (AStar.ntStuck m start goal sampler hcv
          (fun c hc => hnone c hc) n { e0 with queue := [] } t rfl (by exact hpm0))
      · obtain ⟨fuel, e1, hloop⟩ := AStar.coreSim m start goal sampler n _ t hpm1 hFF2
        refine ⟨fuel + 1, e1, ?_⟩
        rw [AStar.optimize_fresh fuel m start goal sampler e0 hq0 hcv]
        rw [hstep]
        exact hloop

end C7D

section C7E

theorem Dijkstra.nt_noseed_d (m : Model σ κ π) (start goal : σ)
    (sampler : σ → List κ) (e : Dijkstra σ κ π)
    (hb : (e.parent_map.isEmpty && e.queue.isEmpty) = false) :
    Dijkstra.next_trajectory m start goal sampler e =
      match popMax e.queue with
      | none => (.Err .Unreachable, e)
      | some (entry, rest) =>
        match Dijkstra.step m goal sampler entry.2 { e with queue := rest } with
        | (true, e3) => (.Final (Dijkstra.unwind_trajectory e3 entry.2), e3)
        | (false, e3) => (.Intermediate (Dijkstra.unwind_trajectory e3 entry.2), e3) := by
  unfold Dijkstra.next_trajectory
  rw [hb]
  rfl

theorem Dijkstra.nt_fresh_d (m : Model σ κ π) (start goal : σ)
    (sampler : σ → List κ) (e0 : Dijkstra σ κ π)
    (hq0 : e0.queue = []) (hpm0 : e0.parent_map = []) :
    Dijkstra.next_trajectory m start goal sampler e0 =
      match Dijkstra.step m goal sampler (Dijkstra.seed m start).2
          { e0 with queue := [] } with
      | (true, e3) =>
          (.Final (Dijkstra.unwind_trajectory e3 (Dijkstra.seed m start).2), e3)
      | (false, e3) =>
          (.Intermediate (Dijkstra.unwind_trajectory e3 (Dijkstra.seed m start).2), e3) := by
  obtain ⟨q, g, pm, c⟩ := e0
  dsimp only at hq0 hpm0
  subst hq0; subst hpm0
  rfl

theorem Dijkstra.optLoop_succ_d (m : Model σ κ π) (goal : σ)
    (sampler : σ → List κ) (fuel : Nat) (e : Dijkstra σ κ π) :
    Dijkstra.optLoop m goal sampler (fuel + 1) e =
      match popMax e.queue with
      | none => some (.Err .Unreachable, e)
      | some (entry, rest) =>
        match Dijkstra.step m goal sampler entry.2 { e with queue := rest } with
        | (true, e2) => some (.Final (Dijkstra.unwind_trajectory e2 entry.2), e2)
        | (false, e2) => Dijkstra.optLoop m goal sampler fuel e2 := rfl

theorem Dijkstra.optimize_fresh_d (fuel : Nat) (m : Model σ κ π)
    (start goal : σ) (sampler : σ → List κ) (e0 : Dijkstra σ κ π)
    (hq0 : e0.queue = []) (hcv : m.converge start goal = false) :
    Dijkstra.optimize (fuel + 1) m start goal sampler e0 =
      match Dijkstra.step m goal sampler (Dijkstra.seed m start).2
          { e0 with queue := [] } with
      | (true, e3) =>
          some (.Final (Dijkstra.unwind_trajectory e3 (Dijkstra.seed m start).2), e3)
      | (false, e3) => Dijkstra.optLoop m goal sampler fuel e3 := by
  obtain ⟨q, g, pm, c⟩ := e0
  dsimp only at hq0
  subst hq0
  unfold Dijkstra.optimize
  rw [hcv]
  rfl

theorem Dijkstra.expand_pm_ne_d (m : Model σ κ π)
    (current : DNode σ κ) (e : Dijkstra σ κ π) (c : κ)
    (h : e.parent_map ≠ []) :
    (Dijkstra.expand m current e c).parent_map ≠ [] := by
  rcases Dijkstra.expand_spec_d m current e c with ⟨_, heq⟩ |
      ⟨cs, _, ⟨best, _, _, heq⟩ | ⟨_, heq⟩⟩
  · rw [heq]; exact h
  · rw [heq]; exact h
  · rw [heq]; exact setL_ne_nil _ _ _

theorem Dijkstra.fold_pm_ne_d (m : Model σ κ π)
    (current : DNode σ κ) :
    ∀ (l : List κ) (e : Dijkstra σ κ π), e.parent_map ≠ [] →
      (l.foldl (Dijkstra.expand m current) e).parent_map ≠ [] := by
  intro l
  induction l with
  | nil => intro e h; exact h
  | cons c cs ih =>
    intro e h
    simp only [List.foldl_cons]
    exact ih _ (Dijkstra.expand_pm_ne_d m current e c h)

theorem Dijkstra.step_pm_ne_d (m : Model σ κ π) (goal : σ)
    (sampler : σ → List κ) (current : DNode σ κ) (e : Dijkstra σ κ π)
    (h : e.parent_map ≠ []) :
    (Dijkstra.step m goal sampler current e).2.parent_map ≠ [] := by
  unfold Dijkstra.step
  split
  · exact h
  · exact Dijkstra.fold_pm_ne_d m current _ e h

theorem Dijkstra.fold_id_d (m : Model σ κ π)
    (current : DNode σ κ) :
    ∀ (l : List κ) (e : Dijkstra σ κ π),
      (∀ c ∈ l, m.integrate current.state c = none) →
      l.foldl (Dijkstra.expand m current) e = e := by
  intro l
  induction l with
  | nil => intro e _; rfl
  | cons c cs ih =>
    intro e h
    simp only [List.foldl_cons]
    have hc : Dijkstra.expand m current e c = e := by
      unfold Dijkstra.expand
      rw [h c (List.mem_cons_self c cs)]
    rw [hc]
    exact ih e (fun c1 h1 => h c1 (List.mem_cons_of_mem c h1))

theorem Dijkstra.fold_nopush_d (m : Model σ κ π)
    (current : DNode σ κ) :
    ∀ (l : List κ) (e : Dijkstra σ κ π), e.grid = [] → e.parent_map = [] →
      (l.foldl (Dijkstra.expand m current) e).parent_map = [] →
      (∀ c ∈ l, m.integrate current.state c = none) ∧
      l.foldl (Dijkstra.expand m current) e = e := by
  intro l
  induction l with
  | nil => intro e _ _ _; exact ⟨by simp, rfl⟩
  | cons c cs ih =>
    intro e hg hpm hfold
    simp only [List.foldl_cons] at hfold ⊢
    rcases Dijkstra.expand_spec_d m current e c with ⟨hI, heq⟩ |
        ⟨cs0, hI, ⟨best, hG, hle, heq⟩ | ⟨hdisj, heq⟩⟩
    · rw [heq] at hfold ⊢
      obtain ⟨hall, hfix⟩ := ih e hg hpm hfold
      refine ⟨?_, hfix⟩
      intro c1 h1
      rcases List.mem_cons.mp h1 with h2 | h2
      · rw [h2]; exact hI
      · exact hall c1 h2
    · rw [hg] at hG
      exact absurd hG (by simp [lookupL])
    · exfalso
      rw [heq] at hfold
      exact Dijkstra.fold_pm_ne_d m current cs _ (by
        dsimp only
        exact setL_ne_nil _ _ _) hfold

theorem Dijkstra.coreSim_d (m : Model σ κ π) (start goal : σ)
    (sampler : σ → List κ) :
    ∀ (n : Nat) (e : Dijkstra σ κ π) (t : Trajectory σ κ),
      e.parent_map ≠ [] →
      Dijkstra.ntFF m start goal sampler n e t →
      ∃ fuel e1, Dijkstra.optLoop m goal sampler fuel e = some (.Final t, e1) := by
  intro n
  induction n with
  | zero =>
    intro e t hpm hFF
    simp only [Dijkstra.ntFF] at hFF
    have hb : (e.parent_map.isEmpty && e.queue.isEmpty) = false := by
      cases hp : e.parent_map with
      | nil => exact absurd hp hpm
      | cons a l => rfl
    rw [Dijkstra.nt_noseed_d m start goal sampler e hb] at hFF
    cases hp : popMax e.queue with
    | none => rw [hp] at hFF; simp at hFF
    | some er =>
      obtain ⟨entry, rest⟩ := er
      rw [hp] at hFF
      dsimp only at hFF
      cases hs : Dijkstra.step m goal sampler entry.2 { e with queue := rest } with
      | mk done e3 =>
        rw [hs] at hFF
        cases done with
        | false => simp at hFF
        | true =>
          dsimp only at hFF
          injection hFF with ht
          refine ⟨1, e3, ?_⟩
          rw [Dijkstra.optLoop_succ_d, hp]
          dsimp only
          rw [hs]
          dsimp only
          rw [ht]
  | succ n ih =>
    intro e t hpm hFF
    simp only [Dijkstra.ntFF] at hFF
    obtain ⟨hnf, hFF2⟩ := hFF
    have hb : (e.parent_map.isEmpty && e.queue.isEmpty) = false := by
      cases hp : e.parent_map with
      | nil => exact absurd hp hpm
      | cons a l => rfl
    rw [Dijkstra.nt_noseed_d m start goal sampler e hb] at hnf hFF2
    cases hp : popMax e.queue with
    | none =>
      rw [hp] at hFF2
      dsimp only at hFF2
      exact ih e t hpm hFF2
    | some er =>
      obtain ⟨entry, rest⟩ := er
      rw [hp] at hnf hFF2
      dsimp only at hnf hFF2
      cases hs : Dijkstra.step m goal sampler entry.2 { e with queue := rest } with
      | mk done e3 =>
        rw [hs] at hnf hFF2
        cases done with
        | true => simp [PathResult.isFinal] at hnf
        | false =>
          dsimp only at hFF2
          have hpm3 : e3.parent_map ≠ [] := by
            have hmono := Dijkstra.step_pm_ne_d m goal sampler entry.2
              { e with queue := rest } (by exact hpm)
            rw [hs] at hmono
            exact hmono
          obtain ⟨fuel, e1, hloop⟩ := ih e3 t hpm3 hFF2
          refine ⟨fuel + 1, e1, ?_⟩
          rw [Dijkstra.optLoop_succ_d, hp]
          dsimp only
          rw [hs]
          exact hloop

theorem Dijkstra.ntStuck_d (m : Model σ κ π) (start goal : σ)
    (sampler : σ → List κ)
    (hcv : m.converge start goal = false)
    (hnone : ∀ c ∈ sampler start, m.integrate start c = none) :
    ∀ (n : Nat) (e : Dijkstra σ κ π) (t : Trajectory σ κ),
      e.queue = [] → e.parent_map = [] →
      ¬ Dijkstra.ntFF m start goal sampler n e t := by
  have hstep : ∀ (e : Dijkstra σ κ π),
      Dijkstra.step m goal sampler (Dijkstra.seed m start).2 { e with queue := [] }
        = (false, { e with queue := [] }) := by
    intro e
    unfold Dijkstra.step
    rw [show m.converge (Dijkstra.seed m start).2.state goal = false from hcv]
    simp only [Bool.false_eq_true, if_false]
    rw [Dijkstra.fold_id_d m (Dijkstra.seed m start).2
      (sampler (Dijkstra.seed m start).2.state) { e with queue := [] }
      (fun c hc => hnone c hc)]
  intro n
  induction n with
  | zero =>
    intro e t hq hpm hFF
    simp only [Dijkstra.ntFF] at hFF
    rw [Dijkstra.nt_fresh_d m start goal sampler e hq hpm] at hFF
    rw [hstep e] at hFF
    simp at hFF
  | succ n ih =>
    intro e t hq hpm hFF
    simp only [Dijkstra.ntFF] at hFF
    obtain ⟨_, hFF2⟩ := hFF
    rw [Dijkstra.nt_fresh_d m start goal sampler e hq hpm] at hFF2
    rw [hstep e] at hFF2
    dsimp only at hFF2
    exact ih { e with queue := [] } t rfl (by exact hpm) hFF2

theorem Dijkstra.ntMatchesOptimize_d (m : Model σ κ π) (start goal : σ)
    (sampler : σ → List κ) (e0 : Dijkstra σ κ π) (n : Nat) (t : Trajectory σ κ)
    (hq0 : e0.queue = []) (hpm0 : e0.parent_map = []) (hg0 : e0.grid = [])
    (hFF : Dijkstra.ntFF m start goal sampler n e0 t) :
    ∃ fuel e1, Dijkstra.optimize fuel m start goal sampler e0 = some (.Final t, e1) := by
  cases hcv : m.converge start goal with
  | true =>
    have hstep : Dijkstra.step m goal sampler (Dijkstra.seed m start).2
        { e0 with queue := [] } = (true, { e0 with queue := [] }) := by
      unfold Dijkstra.step
      rw [show m.converge (Dijkstra.seed m start).2.state goal = true from hcv]
      rfl
    have hlk : lookupL ({ e0 with queue := ([] : List (Int × DNode σ κ)) } :
        Dijkstra σ κ π).parent_map (Dijkstra.seed m start).2.id.id = none := by
      show lookupL e0.parent_map (Dijkstra.seed m start).2.id.id = none
      rw [hpm0]
      rfl
    have hunw := Dijkstra.unwind_root_d { e0 with queue := [] }
      (Dijkstra.seed m start).2 hlk
    have hopt : Dijkstra.optimize 1 m start goal sampler e0
        = some (.Final ⟨0, [(start, m.default_control)]⟩, e0) := by
      unfold Dijkstra.optimize
      rw [hcv]
      rfl
    cases n with
    | zero =>
      simp only [Dijkstra.ntFF] at hFF
      rw [Dijkstra.nt_fresh_d m start goal sampler e0 hq0 hpm0] at hFF
      rw [hstep] at hFF
      dsimp only at hFF
      injection hFF with ht
      subst ht
      refine ⟨1, e0, ?_⟩
      rw [hunw]
      exact hopt
    | succ n =>
      simp only [Dijkstra.ntFF] at hFF
      obtain ⟨hnf, _⟩ := hFF
      rw [Dijkstra.nt_fresh_d m start goal sampler e0 hq0 hpm0] at hnf
      rw [hstep] at hnf
      simp [PathResult.isFinal] at hnf
  | false =>
    have hstep : Dijkstra.step m goal sampler (Dijkstra.seed m start).2
        { e0 with queue := [] }
        = (false, (sampler (Dijkstra.seed m start).2.state).foldl
            (Dijkstra.expand m (Dijkstra.seed m start).2) { e0 with queue := [] }) := by
      unfold Dijkstra.step
      rw [show m.converge (Dijkstra.seed m start).2.state goal = false from hcv]
      rfl
    cases n with
    | zero =>
      simp only [Dijkstra.ntFF] at hFF
      rw [Dijkstra.nt_fresh_d m start goal sampler e0 hq0 hpm0] at hFF
      rw [hstep] at hFF
      simp at hFF
    | succ n =>
      simp only [Dijkstra.ntFF] at hFF
      obtain ⟨_, hFF2⟩ := hFF
      rw [Dijkstra.nt_fresh_d m start goal sampler e0 hq0 hpm0] at hFF2
      rw [hstep] at hFF2
      dsimp only at hFF2
      by_cases hpm1 : ((sampler (Dijkstra.seed m start).2.state).foldl
          (Dijkstra.expand m (Dijkstra.seed m start).2)
          { e0 with queue := [] }).parent_map = []
      · obtain ⟨hnone, hfix⟩ := Dijkstra.fold_nopush_d m (Dijkstra.seed m start).2
          (sampler (Dijkstra.seed m start).2.state) { e0 with queue := [] }
          (by exact hg0) (by exact hpm0) hpm1
        rw [hfix] at hFF2
        exact absurd hFF2 (Dijkstra.ntStuck_d m start goal sampler hcv
          (fun c hc => hnone c hc) n { e0 with queue := [] } t rfl (by exact hpm0))
      · obtain ⟨fuel, e1, hloop⟩ := Dijkstra.coreSim_d m start goal sampler n _ t hpm1 hFF2
        refine ⟨fuel + 1, e1, ?_⟩
        rw [Dijkstra.optimize_fresh_d fuel m start goal sampler e0 hq0 hcv]
        rw [hstep]
        exact hloop

end C7E

/-- C7: starting from a fresh or just-cleared engine (empty frontier, parent
map and best-cost map; any id counter), if repeatedly invoking
`next_trajectory` with fixed model, sampler, start and goal first returns a
`Final` result at some call, its trajectory equals the one `optimize` returns
on the same engine state with the same arguments; for either engine. -/
theorem nt_iteration_matches_optimize :
    (∀ (m : HeuristicModel σ κ π) (start goal : σ) (sampler : σ → List κ)
       (e0 : AStar σ κ π) (n : Nat) (t : Trajectory σ κ),
       e0.queue = [] → e0.parent_map = [] → e0.grid = [] →
       AStar.ntFF m start goal sampler n e0 t →
       ∃ fuel e1, AStar.optimize fuel m start goal sampler e0
         = some (.Final t, e1)) ∧
    (∀ (m : Model σ κ π) (start goal : σ) (sampler : σ → List κ)
       (e0 : Dijkstra σ κ π) (n : Nat) (t : Trajectory σ κ),
       e0.queue = [] → e0.parent_map = [] → e0.grid = [] →
       Dijkstra.ntFF m start goal sampler n e0 t →
       ∃ fuel e1, Dijkstra.optimize fuel m start goal sampler e0
         = some (.Final t, e1)) :=
  ⟨fun m start goal sampler e0 n t hq hpm hg hFF =>
     AStar.ntMatchesOptimize m start goal sampler e0 n t hq hpm hg hFF,
   fun m start goal sampler e0 n t hq hpm hg hFF =>
     Dijkstra.ntMatchesOptimize_d m start goal sampler e0 n t hq hpm hg hFF⟩

/-- C7 witness: on the two-state unit-cost model the second `next_trajectory`
call returns the first `Final`, and `optimize` on the same fresh engine
returns a `Final` with the identical trajectory, for both engines. -/
theorem nt_iteration_matches_optimize_witness :
    (∃ fuel e1, AStar.optimize fuel mUnitH 0 1 samplerSingle AStar.new
       = some (.Final ⟨1, [(0, 7), (1, 0)]⟩, e1)) ∧
    (∃ fuel e1, Dijkstra.optimize fuel mUnit 0 1 samplerSingle Dijkstra.new
       = some (.Final ⟨0, [(1, 0), (0, 7)]⟩, e1)) :=
  ⟨nt_iteration_matches_optimize.1 mUnitH 0 1 samplerSingle AStar.new 1
     ⟨1, [(0, 7), (1, 0)]⟩ rfl rfl rfl
     (by exact ⟨by decide,
       (by decide : (AStar.next_trajectory mUnitH 0 1 samplerSingle
         (AStar.next_trajectory mUnitH 0 1 samplerSingle AStar.new).2).1
           = .Final ⟨1, [(0, 7), (1, 0)]⟩)⟩),
   nt_iteration_matches_optimize.2 mUnit 0 1 samplerSingle Dijkstra.new 1
     ⟨0, [(1, 0), (0, 7)]⟩ rfl rfl rfl
     (by exact ⟨by decide,
       (by decide : (Dijkstra.next_trajectory mUnit 0 1 samplerSingle
         (Dijkstra.next_trajectory mUnit 0 1 samplerSingle Dijkstra.new).2).1
           = .Final ⟨0, [(1, 0), (0, 7)]⟩)⟩)⟩

section C1Paths

theorem runPath_cons (m : Model σ κ π) (sampler : σ → List κ) (s : σ)
    (c : κ) (cs : List κ) :
    runPath m sampler s (c :: cs) =
      if c ∈ sampler s then
        match m.integrate s c with
        | some s1 =>
          match runPath m sampler s1 cs with
          | some (t, g) => some (t, m.cost s c s1 + g)
          | none => none
        | none => none
      else none := rfl

theorem runPath_append (m : Model σ κ π) (sampler : σ → List κ) :
    ∀ (l1 l2 : List κ) (s : σ),
      runPath m sampler s (l1 ++ l2) =
        match runPath m sampler s l1 with
        | none => none
        | some (t, g1) =>
          match runPath m sampler t l2 with
          | none => none
          | some (u, g2) => some (u, g1 + g2) := by
  intro l1
  induction l1 with
  | nil =>
    intro l2 s
    simp only [List.nil_append]
    rw [show runPath m sampler s [] = some (s, 0) from rfl]
    dsimp only
    cases h2 : runPath m sampler s l2 with
    | none => rfl
    | some p => obtain ⟨u, g2⟩ := p; simp
  | cons c l1 ih =>
    intro l2 s
    rw [List.cons_append, runPath_cons m sampler s c (l1 ++ l2),
      runPath_cons m sampler s c l1]
    by_cases hmem : c ∈ sampler s
    · rw [if_pos hmem, if_pos hmem]
      cases hI : m.integrate s c with
      | none => rfl
      | some s1 =>
        dsimp only
        rw [ih l2 s1]
        cases h1 : runPath m sampler s1 l1 with
        | none => rfl
        | some p =>
          obtain ⟨t, g1⟩ := p
          dsimp only
          cases h2 : runPath m sampler t l2 with
          | none => rfl
          | some q =>
            obtain ⟨u, g2⟩ := q
            simp [add_assoc]
    · rw [if_neg hmem, if_neg hmem]

theorem runPath_nonneg (m : Model σ κ π) (sampler : σ → List κ)
    (hc : ∀ (s : σ) (c : κ) (t : σ), 0 ≤ m.cost s c t) :
    ∀ (cs : List κ) (s t : σ) (g : Int),
      runPath m sampler s cs = some (t, g) → 0 ≤ g := by
  intro cs
  induction cs with
  | nil =>
    intro s t g h
    simp only [runPath, Option.some.injEq, Prod.mk.injEq] at h
    omega
  | cons c cs ih =>
    intro s t g h
    unfold runPath at h
    by_cases hmem : c ∈ sampler s
    · rw [if_pos hmem] at h
      cases hI : m.integrate s c with
      | none => rw [hI] at h; exact absurd h (by simp)
      | some s1 =>
        rw [hI] at h
        dsimp only at h
        cases h1 : runPath m sampler s1 cs with
        | none => rw [h1] at h; exact absurd h (by simp)
        | some p =>
          obtain ⟨t1, g1⟩ := p
          rw [h1] at h
          dsimp only at h
          simp only [Option.some.injEq, Prod.mk.injEq] at h
          obtain ⟨_, hg⟩ := h
          have := ih s1 t1 g1 h1
          have := hc s c s1
          omega
    · rw [if_neg hmem] at h
      exact absurd h (by simp)

theorem AChain_runPath (m : HeuristicModel σ κ π) (sampler : σ → List κ)
    (start : σ) (pm : List (Nat × ANode σ κ)) (nd : ANode σ κ)
    (hc : AChain m sampler start pm nd) :
    ∃ cs, runPath m.toModel sampler start cs = some (nd.state, nd.id.g) := by
  induction hc with
  | root nd hnone hstate hctrl hg =>
    refine ⟨[], ?_⟩
    rw [hstate, hg]
    rfl
  | step nd p hlook hchain hid hmem hint hg ih =>
    obtain ⟨cs, hcs⟩ := ih
    refine ⟨cs ++ [nd.control], ?_⟩
    rw [runPath_append m.toModel sampler cs [nd.control] start, hcs]
    dsimp only
    unfold runPath
    rw [if_pos hmem, hint]
    dsimp only
    rw [show runPath m.toModel sampler nd.state [] = some (nd.state, 0) from rfl]
    dsimp only
    rw [hg]
    norm_num

end C1Paths

section C1Cex

theorem mUnit_minpath : ∀ (cs : List Nat) (t : Nat) (g : Int),
    runPath mUnit samplerSingle 0 cs = some (t, g) →
    mUnit.converge t 1 = true → 1 ≤ g := by
  intro cs t g h hcv
  cases cs with
  | nil =>
    rw [show runPath mUnit samplerSingle 0 [] = some (0, 0) from rfl] at h
    simp only [Option.some.injEq, Prod.mk.injEq] at h
    obtain ⟨ht, _⟩ := h
    rw [← ht] at hcv
    exact absurd hcv (by decide)
  | cons c cs =>
    rw [runPath_cons] at h
    by_cases hc0 : c = 0
    · subst hc0
      rw [if_pos (by decide)] at h
      rw [show mUnit.integrate 0 0 = some 1 from rfl] at h
      dsimp only at h
      cases h1 : runPath mUnit samplerSingle 1 cs with
      | none => rw [h1] at h; exact absurd h (by simp)
      | some p =>
        obtain ⟨t1, g1⟩ := p
        rw [h1] at h
        dsimp only at h
        simp only [Option.some.injEq, Prod.mk.injEq] at h
        obtain ⟨_, hg⟩ := h
        have hnn := runPath_nonneg mUnit samplerSingle
          (fun _ _ _ => by norm_num [mUnit]) cs 1 t1 g1 h1
        rw [show mUnit.cost 0 0 1 = 1 from rfl] at hg
        omega
    · rw [if_neg (by simpa [samplerSingle] using hc0)] at h
      exact absurd h (by simp)

/-- C1 counterexample: three concrete search instances refute the claimed
optimality. (a) With the admissible zero heuristic and non-negative costs,
position aliasing makes A* return Unreachable although a converging path of
cost 3 exists. (b) With an asymmetric cost function A* returns a Final
trajectory of cost 5 although a converging path of cost 2 exists. (c) The
Dijkstra engine keys its radix heap by raw accumulated cost, so with
non-negative costs and an existing converging path the push of the first
positive-cost child violates the heap's monotone contract and the program
panics instead of returning the minimum-cost trajectory. -/
theorem optimize_not_minimum_cost :
    ((∀ (s c t : Nat), 0 ≤ mAlias.cost s c t) ∧
     (∀ (s g : Nat), mAlias.heuristic s g = 0) ∧
     runPath mAlias.toModel samplerAlias 0 [2, 3] = some (3, 3) ∧
     mAlias.converge 3 3 = true ∧
     (AStar.optimize 10 mAlias 0 3 samplerAlias AStar.new).map Prod.fst
       = some (.Err .Unreachable)) ∧
    ((∀ (s c t : Nat), 0 ≤ mAsym.cost s c t) ∧
     (∀ (s g : Nat), mAsym.heuristic s g = 0) ∧
     runPath mAsym.toModel samplerSingle 0 [0] = some (1, 2) ∧
     mAsym.converge 1 1 = true ∧
     (AStar.optimize 10 mAsym 0 1 samplerSingle AStar.new).map Prod.fst
       = some (.Final ⟨5, [(0, 0), (1, 0)]⟩) ∧
     (2 : Int) < 5) ∧
    ((∀ (s c t : Nat), 0 ≤ mUnit.cost s c t) ∧
     runPath mUnit samplerSingle 0 [0] = some (1, 1) ∧
     mUnit.converge 1 1 = true ∧
     DijkstraF.optimize 10 mUnit 0 1 samplerSingle DijkstraF.new
       = some (.panic, [⟨⟨0, 0⟩, 0, 7⟩])) :=
  ⟨⟨fun s c t => by
      unfold mAlias
      dsimp only
      split
      · norm_num
      · split <;> norm_num,
    fun _ _ => rfl, by decide, by decide, by decide⟩,
   ⟨fun s c t => by
      unfold mAsym
      dsimp only
      split
      · norm_num
      · split <;> norm_num,
    fun _ _ => rfl, by decide, by decide, by decide, by decide⟩,
   ⟨fun _ _ _ => zero_le_one, by decide, by decide, by decide⟩⟩

end C1Cex

section C1Inv

theorem AStar.expand_grid_mono (m : HeuristicModel σ κ π) (goal : σ)
    (current : ANode σ κ) (e : AStar σ κ π) (c : κ) :
    ∀ p b, lookupL e.grid p = some b →
      ∃ b', lookupL (AStar.expand m goal current e c).grid p = some b' ∧
        b'.g ≤ b.g := by
  intro p b hb
  rcases AStar.expand_spec m goal current e c with ⟨_, heq⟩ |
      ⟨cs, hI, ⟨best, hG, hle, heq⟩ | ⟨hdisj, heq⟩⟩
  · rw [heq]; exact ⟨b, hb, le_refl _⟩
  · rw [heq]; exact ⟨b, hb, le_refl _⟩
  · rw [heq]
    dsimp only
    by_cases hp : m.grid_position cs = p
    · subst hp
      rcases hdisj with hnone | ⟨best, hG, hlt⟩
      · rw [hnone] at hb; exact absurd hb (by simp)
      · rw [hG] at hb
        injection hb with hbb
        refine ⟨(AStar.child m goal current e c cs).id, lookupL_setL_self _ _ _, ?_⟩
        rw [← hbb]
        show (AStar.child m goal current e c cs).id.g ≤ best.g
        dsimp [AStar.child]
        omega
    · exact ⟨b, by rw [lookupL_setL_ne _ _ _ _ (fun h => hp h.symm)]; exact hb, le_refl _⟩

theorem AStar.fold_grid_mono (m : HeuristicModel σ κ π) (goal : σ)
    (current : ANode σ κ) :
    ∀ (l : List κ) (e : AStar σ κ π) (p : π) (b : AId),
      lookupL e.grid p = some b →
      ∃ b', lookupL ((l.foldl (AStar.expand m goal current) e)).grid p = some b' ∧
        b'.g ≤ b.g := by
  intro l
  induction l with
  | nil => intro e p b hb; exact ⟨b, hb, le_refl _⟩
  | cons c cs ih =>
    intro e p b hb
    simp only [List.foldl_cons]
    obtain ⟨b1, hb1, hle1⟩ := AStar.expand_grid_mono m goal current e c p b hb
    obtain ⟨b2, hb2, hle2⟩ := ih (AStar.expand m goal current e c) p b1 hb1
    exact ⟨b2, hb2, le_trans hle2 hle1⟩

theorem AStar.expand_queue_mono (m : HeuristicModel σ κ π) (goal : σ)
    (current : ANode σ κ) (e : AStar σ κ π) (c : κ) :
    ∀ kv ∈ e.queue, kv ∈ (AStar.expand m goal current e c).queue := by
  intro kv hkv
  rcases AStar.expand_spec m goal current e c with ⟨_, heq⟩ |
      ⟨cs, hI, ⟨best, hG, hle, heq⟩ | ⟨hdisj, heq⟩⟩
  · rw [heq]; exact hkv
  · rw [heq]; exact hkv
  · rw [heq]
    exact List.mem_append_left _ hkv

theorem AStar.fold_queue_mono (m : HeuristicModel σ κ π) (goal : σ)
    (current : ANode σ κ) :
    ∀ (l : List κ) (e : AStar σ κ π) (kv : Int × ANode σ κ),
      kv ∈ e.queue → kv ∈ (l.foldl (AStar.expand m goal current) e).queue := by
  intro l
  induction l with
  | nil => intro e kv h; exact h
  | cons c cs ih =>
    intro e kv h
    simp only [List.foldl_cons]
    exact ih _ kv (AStar.expand_queue_mono m goal current e c kv h)

theorem AStar.expand_keybounds (m : HeuristicModel σ κ π) (goal : σ)
    (current : ANode σ κ) (e : AStar σ κ π) (c : κ)
    (hh0 : ∀ (s g : σ), 0 ≤ m.heuristic s g)
    (hK : AStar.KeyBounds m goal e) :
    AStar.KeyBounds m goal (AStar.expand m goal current e c) := by
  rcases AStar.expand_spec m goal current e c with ⟨_, heq⟩ |
      ⟨cs, hI, ⟨best, hG, hle, heq⟩ | ⟨hdisj, heq⟩⟩
  · rw [heq]; exact hK
  · rw [heq]; exact hK
  · rw [heq]
    intro kv hkv
    rcases List.mem_append.mp hkv with h1 | h1
    · exact hK kv h1
    · rw [List.mem_singleton] at h1
      subst h1
      refine ⟨?_, ?_⟩
      · show (AStar.child m goal current e c cs).id.g ≤
          (AStar.child m goal current e c cs).id.f
        dsimp [AStar.child]
        have := hh0 cs goal
        omega
      · show (AStar.child m goal current e c cs).id.f ≤
          (AStar.child m goal current e c cs).id.g +
            m.heuristic (AStar.child m goal current e c cs).state goal
        dsimp [AStar.child]
        omega

theorem AStar.fold_keybounds (m : HeuristicModel σ κ π) (goal : σ)
    (current : ANode σ κ)
    (hh0 : ∀ (s g : σ), 0 ≤ m.heuristic s g) :
    ∀ (l : List κ) (e : AStar σ κ π),
      AStar.KeyBounds m goal e →
      AStar.KeyBounds m goal (l.foldl (AStar.expand m goal current) e) := by
  intro l
  induction l with
  | nil => intro e h; exact h
  | cons c cs ih =>
    intro e h
    simp only [List.foldl_cons]
    exact ih _ (AStar.expand_keybounds m goal current e c hh0 h)

theorem AStar.expand_gridbacked (m : HeuristicModel σ κ π) (goal : σ)
    (current : ANode σ κ) (e : AStar σ κ π) (c : κ)
    (pops : List (ANode σ κ))
    (hB : AStar.GridBacked m e pops) :
    AStar.GridBacked m (AStar.expand m goal current e c) pops := by
  rcases AStar.expand_spec m goal current e c with ⟨_, heq⟩ |
      ⟨cs, hI, ⟨best, hG, hle, heq⟩ | ⟨hdisj, heq⟩⟩
  · rw [heq]; exact hB
  · rw [heq]; exact hB
  · rw [heq]
    intro p b hb
    dsimp only at hb ⊢
    by_cases hp : m.grid_position cs = p
    · subst hp
      rw [lookupL_setL_self] at hb
      injection hb with hbb
      subst hbb
      refine ⟨AStar.child m goal current e c cs, rfl, rfl, Or.inl
        ⟨(AStar.child m goal current e c cs).id.f, ?_⟩⟩
      exact List.mem_append_right _ (List.mem_singleton_self _)
    · rw [lookupL_setL_ne _ _ _ _ (fun h => hp h.symm)] at hb
      obtain ⟨nd, hpos, hg, hq⟩ := hB p b hb
      refine ⟨nd, hpos, hg, ?_⟩
      rcases hq with ⟨key, hk⟩ | hpop
      · exact Or.inl ⟨key, List.mem_append_left _ hk⟩
      · exact Or.inr hpop

theorem AStar.fold_gridbacked (m : HeuristicModel σ κ π) (goal : σ)
    (current : ANode σ κ) (pops : List (ANode σ κ)) :
    ∀ (l : List κ) (e : AStar σ κ π),
      AStar.GridBacked m e pops →
      AStar.GridBacked m (l.foldl (AStar.expand m goal current) e) pops := by
  intro l
  induction l with
  | nil => intro e h; exact h
  | cons c cs ih =>
    intro e h
    simp only [List.foldl_cons]
    exact ih _ (AStar.expand_gridbacked m goal current e c pops h)

theorem AStar.fold_popsclosed (m : HeuristicModel σ κ π) (goal : σ)
    (current : ANode σ κ) (sampler : σ → List κ) (pops : List (ANode σ κ)) :
    ∀ (l : List κ) (e : AStar σ κ π),
      AStar.PopsClosed m sampler e pops →
      AStar.PopsClosed m sampler (l.foldl (AStar.expand m goal current) e) pops := by
  intro l
  induction l with
  | nil => intro e h; exact h
  | cons c cs ih =>
    intro e h
    simp only [List.foldl_cons]
    refine ih _ ?_
    intro nd hnd c1 hc1 cs1 hcs1
    obtain ⟨b, hb, hble⟩ := h nd hnd c1 hc1 cs1 hcs1
    obtain ⟨b', hb', hble'⟩ := AStar.expand_grid_mono m goal current e c _ b hb
    exact ⟨b', hb', le_trans hble' hble⟩

theorem AStar.fold_closes_current (m : HeuristicModel σ κ π) (goal : σ)
    (current : ANode σ κ) :
    ∀ (l : List κ) (e : AStar σ κ π) (c : κ), c ∈ l →
      ∀ cs, m.integrate current.state c = some cs →
      ∃ b, lookupL ((l.foldl (AStar.expand m goal current) e)).grid
          (m.grid_position cs) = some b ∧
        b.g ≤ current.id.g + m.cost current.state c cs := by
  intro l
  induction l with
  | nil => intro e c hc; exact absurd hc (by simp)
  | cons c0 l ih =>
    intro e c hc cs hcs
    simp only [List.foldl_cons]
    rcases List.mem_cons.mp hc with h1 | h1
    · subst h1
      have hloc : ∃ b, lookupL (AStar.expand m goal current e c).grid
          (m.grid_position cs) = some b ∧
          b.g ≤ current.id.g + m.cost current.state c cs := by
        rcases AStar.expand_spec m goal current e c with ⟨hI, heq⟩ |
            ⟨cs0, hI, ⟨best, hG, hle, heq⟩ | ⟨hdisj, heq⟩⟩
        · rw [hI] at hcs; exact absurd hcs (by simp)
        · rw [hI] at hcs
          injection hcs with hcc
          subst hcc
          rw [heq]
          exact ⟨best, hG, hle⟩
        · rw [hI] at hcs
          injection hcs with hcc
          subst hcc
          rw [heq]
          dsimp only
          refine ⟨(AStar.child m goal current e c cs0).id, lookupL_setL_self _ _ _, ?_⟩
          show (AStar.child m goal current e c cs0).id.g ≤
            current.id.g + m.cost current.state c cs0
          dsimp [AStar.child]
          omega
      obtain ⟨b, hb, hble⟩ := hloc
      obtain ⟨b', hb', hble'⟩ := AStar.fold_grid_mono m goal current l _ _ b hb
      exact ⟨b', hb', le_trans hble' hble⟩
    · exact ih (AStar.expand m goal current e c0) c h1 cs hcs

end C1Inv

section C1Climb

theorem AStar.step_snd_true (m : HeuristicModel σ κ π) (goal : σ)
    (sampler : σ → List κ) (cur : ANode σ κ) (e : AStar σ κ π)
    (hcv : m.converge cur.state goal = true) :
    (AStar.step m goal sampler cur e).2 = e := by
  unfold AStar.step
  rw [hcv]
  rfl

theorem AStar.step_snd_false (m : HeuristicModel σ κ π) (goal : σ)
    (sampler : σ → List κ) (cur : ANode σ κ) (e : AStar σ κ π)
    (hcv : m.converge cur.state goal = false) :
    (AStar.step m goal sampler cur e).2
      = (sampler cur.state).foldl (AStar.expand m goal cur) e := by
  unfold AStar.step
  rw [hcv]
  rfl

theorem AStar.climb (m : HeuristicModel σ κ π) (goal : σ) (sampler : σ → List κ)
    (t0 : σ) (g0 : Int)
    (hInj : Function.Injective m.grid_position)
    (hconv : m.converge t0 goal = true) :
    ∀ (rest : List κ) (e : AStar σ κ π) (pops : List (ANode σ κ))
      (s1 : σ) (gb gr : Int),
      (∀ nd ∈ pops, m.converge nd.state goal = false) →
      AStar.PopsClosed m sampler e pops →
      AStar.GridBacked m e pops →
      (∃ b, lookupL e.grid (m.grid_position s1) = some b ∧ b.g ≤ gb) →
      runPath m.toModel sampler s1 rest = some (t0, gr) →
      gb + gr ≤ g0 →
      ∃ key nd rest2 gr2, (key, nd) ∈ e.queue ∧
        runPath m.toModel sampler nd.state rest2 = some (t0, gr2) ∧
        nd.id.g + gr2 ≤ g0 := by
  intro rest
  induction rest with
  | nil =>
    intro e pops s1 gb gr hpops hPC hGB hb hrun hbound
    rw [show runPath m.toModel sampler s1 [] = some (s1, 0) from rfl] at hrun
    simp only [Option.some.injEq, Prod.mk.injEq] at hrun
    obtain ⟨ht, hgr⟩ := hrun
    obtain ⟨b, hbe, hble⟩ := hb
    obtain ⟨nd, hpos, hg, hq⟩ := hGB _ _ hbe
    have hstate : nd.state = s1 := hInj hpos
    rcases hq with ⟨key, hk⟩ | hpop
    · exact ⟨key, nd, [], 0, hk, by rw [hstate, ← ht]; rfl, by omega⟩
    · have hn := hpops nd hpop
      rw [hstate, ht, hconv] at hn
      exact absurd hn (by simp)
  | cons c rest ih =>
    intro e pops s1 gb gr hpops hPC hGB hb hrun hbound
    obtain ⟨b, hbe, hble⟩ := hb
    obtain ⟨nd, hpos, hg, hq⟩ := hGB _ _ hbe
    have hstate : nd.state = s1 := hInj hpos
    rcases hq with ⟨key, hk⟩ | hpop
    · exact ⟨key, nd, c :: rest, gr, hk, by rw [hstate]; exact hrun, by omega⟩
    · rw [runPath_cons] at hrun
      by_cases hmem : c ∈ sampler s1
      · rw [if_pos hmem] at hrun
        cases hI : m.integrate s1 c with
        | none => rw [hI] at hrun; exact absurd hrun (by simp)
        | some s2 =>
          rw [hI] at hrun
          dsimp only at hrun
          cases h2 : runPath m.toModel sampler s2 rest with
          | none => rw [h2] at hrun; exact absurd hrun (by simp)
          | some p =>
            obtain ⟨t2, gr2⟩ := p
            rw [h2] at hrun
            dsimp only at hrun
            simp only [Option.some.injEq, Prod.mk.injEq] at hrun
            obtain ⟨ht2, hgr⟩ := hrun
            subst ht2
            obtain ⟨b2, hb2, hble2⟩ := hPC nd hpop c (by rw [hstate]; exact hmem) s2
              (by rw [hstate]; exact hI)
            rw [hstate] at hble2
            refine ih e pops s2 (gb + m.toModel.cost s1 c s2) gr2 hpops hPC hGB
              ⟨b2, hb2, by omega⟩ h2 (by omega)
      · rw [if_neg hmem] at hrun
        exact absurd hrun (by simp)

end C1Climb

section C1Loop

theorem AStar.optLoopT_optimal (m : HeuristicModel σ κ π) (start goal : σ)
    (sampler : σ → List κ) (t0 : σ) (g0 : Int)
    (hInj : Function.Injective m.grid_position)
    (hh0 : ∀ (s g : σ), 0 ≤ m.heuristic s g)
    (hadm : ∀ (s : σ) (cs : List κ) (u : σ) (g : Int),
      runPath m.toModel sampler s cs = some (u, g) → m.converge u goal = true →
      m.heuristic s goal ≤ g)
    (hconv : m.converge t0 goal = true) :
    ∀ (fuel : Nat) (el : AStar σ κ π × ALog σ κ π) (r : PathResult σ κ)
      (e1 : AStar σ κ π) (log1 : ALog σ κ π),
      AStar.WfP m sampler start el.1 →
      (∀ nd ∈ el.2.pops, m.converge nd.state goal = false) →
      AStar.PopsClosed m sampler el.1 el.2.pops →
      AStar.GridBacked m el.1 el.2.pops →
      AStar.KeyBounds m goal el.1 →
      (∃ key nd rest gr, (key, nd) ∈ el.1.queue ∧
        runPath m.toModel sampler nd.state rest = some (t0, gr) ∧
        nd.id.g + gr ≤ g0) →
      AStar.optLoopT m goal sampler fuel el = some (r, e1, log1) →
      ∃ nd, m.converge nd.state goal = true ∧ nd.id.g ≤ g0 ∧
        AChain m sampler start e1.parent_map nd ∧
        r = .Final (AStar.unwind_trajectory m e1 nd) := by
  intro fuel
  induction fuel with
  | zero => intro el r e1 log1 _ _ _ _ _ _ h; simp [AStar.optLoopT] at h
  | succ fuel ih =>
    intro el r e1 log1 hW hpops hPC hGB hK hJ h
    obtain ⟨E, L⟩ := el
    obtain ⟨keyJ, ndJ, restJ, grJ, hkJ, hrunJ, hbJ⟩ := hJ
    rw [AStar.optLoopT] at h
    cases hp : popMin E.queue with
    | none =>
      rw [(popMin_none_iff E.queue).mp hp] at hkJ
      exact absurd hkJ (by simp)
    | some er =>
      obtain ⟨entry, rest⟩ := er
      rw [hp] at h
      dsimp only at h
      have hqperm := popMin_perm E.queue entry rest hp
      have hqle := popMin_le E.queue entry rest hp
      have hentrymem : entry ∈ E.queue := hqperm.mem_iff.mpr (List.mem_cons_self _ _)
      have hgle : entry.2.id.g ≤ g0 := by
        have h1 : entry.1 ≤ keyJ := hqle (keyJ, ndJ) hkJ
        have h2 := (hK (keyJ, ndJ) hkJ).2
        have h3 := hadm ndJ.state restJ t0 grJ hrunJ hconv
        have h4 := (hK entry hentrymem).1
        dsimp only at h2
        omega
      have hrestq : ∀ kv ∈ rest, kv ∈ E.queue := by
        intro kv hkv
        exact hqperm.mem_iff.mpr (List.mem_cons_of_mem _ hkv)
      have hfst := AStar.stepT_fst m goal sampler entry.2
        ({ E with queue := rest }, { L with pops := L.pops ++ [entry.2] })
      have hlpops := AStar.stepT_pops m goal sampler entry.2
        ({ E with queue := rest }, { L with pops := L.pops ++ [entry.2] })
      cases hs : AStar.stepT m goal sampler entry.2
        ({ E with queue := rest }, { L with pops := L.pops ++ [entry.2] }) with
      | mk done el2 =>
        obtain ⟨E2, L2⟩ := el2
        rw [hs] at h hfst hlpops
        dsimp only at h hfst hlpops
        have hdone : done = m.converge entry.2.state goal := by
          rw [hfst.1]
          exact AStar.step_fst_converge m goal sampler entry.2 { E with queue := rest }
        cases done with
        | true =>
          simp only [Option.some.injEq, Prod.mk.injEq] at h
          obtain ⟨hr, he1, hlog1⟩ := h
          subst he1; subst hlog1
          have hE2 : E2 = { E with queue := rest } := by
            rw [hfst.2]
            exact AStar.step_snd_true m goal sampler entry.2 _ hdone.symm
          refine ⟨entry.2, hdone.symm, hgle, ?_, hr.symm⟩
          rw [hE2]
          exact (hW.1 entry hentrymem).1
        | false =>
          have hcvf : m.converge entry.2.state goal = false := hdone.symm
          have hE2 : E2 = (sampler entry.2.state).foldl
              (AStar.expand m goal entry.2) { E with queue := rest } := by
            rw [hfst.2]
            exact AStar.step_snd_false m goal sampler entry.2 _ hcvf
          have hW2 : AStar.WfP m sampler start E2 := by
            have hW1 : AStar.WfP m sampler start
                ({ E with queue := rest } : AStar σ κ π) := by
              refine ⟨?_, hW.2⟩
              intro kv hkv
              exact hW.1 kv (hrestq kv hkv)
            rw [hfst.2]
            exact (AStar.step_wf m sampler start goal entry.2 _ hW1
              (hW.1 entry hentrymem).1 (hW.1 entry hentrymem).2).1
          have hpops2 : ∀ nd ∈ L2.pops, m.converge nd.state goal = false := by
            rw [hlpops]
            intro nd hnd
            rcases List.mem_append.mp hnd with h1 | h1
            · exact hpops nd h1
            · rw [List.mem_singleton] at h1
              subst h1
              exact hcvf
          have hPC2 : AStar.PopsClosed m sampler E2 L2.pops := by
            rw [hlpops, hE2]
            intro nd hnd
            rcases List.mem_append.mp hnd with h1 | h1
            · exact AStar.fold_popsclosed m goal entry.2 sampler L.pops _
                { E with queue := rest } hPC nd h1
            · rw [List.mem_singleton] at h1
              subst h1
              intro c hc cs hcs
              exact AStar.fold_closes_current m goal entry.2 _
                { E with queue := rest } c hc cs hcs
          have hGB2 : AStar.GridBacked m E2 L2.pops := by
            have hGB1 : AStar.GridBacked m ({ E with queue := rest } : AStar σ κ π)
                (L.pops ++ [entry.2]) := by
              intro p b hb
              obtain ⟨nd, hpos, hg, hq⟩ := hGB p b hb
              refine ⟨nd, hpos, hg, ?_⟩
              rcases hq with ⟨key, hk⟩ | hpop
              · rcases List.mem_cons.mp (hqperm.mem_iff.mp hk) with h1 | h1
                · right
                  rw [show nd = entry.2 from congrArg Prod.snd h1]
                  exact List.mem_append_right _ (List.mem_singleton_self _)
                · exact Or.inl ⟨key, h1⟩
              · exact Or.inr (List.mem_append_left _ hpop)
            rw [hlpops, hE2]
            exact AStar.fold_gridbacked m goal entry.2 _ _ _ hGB1
          have hK2 : AStar.KeyBounds m goal E2 := by
            have hK1 : AStar.KeyBounds m goal
                ({ E with queue := rest } : AStar σ κ π) := by
              intro kv hkv
              exact hK kv (hrestq kv hkv)
            rw [hE2]
            exact AStar.fold_keybounds m goal entry.2 hh0 _ _ hK1
          have hJ2 : ∃ key nd rest2 gr2, (key, nd) ∈ E2.queue ∧
              runPath m.toModel sampler nd.state rest2 = some (t0, gr2) ∧
              nd.id.g + gr2 ≤ g0 := by
            rcases List.mem_cons.mp (hqperm.mem_iff.mp hkJ) with h1 | h1
            · have hndJ : ndJ = entry.2 := congrArg Prod.snd h1
              subst hndJ
              cases restJ with
              | nil =>
                rw [show runPath m.toModel sampler entry.2.state []
                    = some (entry.2.state, 0) from rfl] at hrunJ
                simp only [Option.some.injEq, Prod.mk.injEq] at hrunJ
                obtain ⟨ht, _⟩ := hrunJ
                rw [ht, hconv] at hcvf
                exact absurd hcvf (by simp)
              | cons cJ restJ2 =>
                rw [runPath_cons] at hrunJ
                by_cases hmem : cJ ∈ sampler entry.2.state
                · rw [if_pos hmem] at hrunJ
                  cases hI : m.integrate entry.2.state cJ with
                  | none => rw [hI] at hrunJ; exact absurd hrunJ (by simp)
                  | some s2 =>
                    rw [hI] at hrunJ
                    dsimp only at hrunJ
                    cases h2 : runPath m.toModel sampler s2 restJ2 with
                    | none => rw [h2] at hrunJ; exact absurd hrunJ (by simp)
                    | some p =>
                      obtain ⟨t2, gr2⟩ := p
                      rw [h2] at hrunJ
                      dsimp only at hrunJ
                      simp only [Option.some.injEq, Prod.mk.injEq] at hrunJ
                      obtain ⟨ht2, hgr⟩ := hrunJ
                      rw [ht2] at h2
                      obtain ⟨b2, hb2, hble2⟩ := AStar.fold_closes_current m goal
                        entry.2 (sampler entry.2.state) { E with queue := rest }
                        cJ hmem s2 hI
                      rw [← hE2] at hb2
                      exact AStar.climb m goal sampler t0 g0 hInj hconv restJ2 E2
                        L2.pops s2 (entry.2.id.g + m.toModel.cost entry.2.state cJ s2)
                        gr2 hpops2 hPC2 hGB2 ⟨b2, hb2, hble2⟩ h2 (by omega)
                · rw [if_neg hmem] at hrunJ
                  exact absurd hrunJ (by simp)
            · refine ⟨keyJ, ndJ, restJ, grJ, ?_, hrunJ, hbJ⟩
              rw [hE2]
              exact AStar.fold_queue_mono m goal entry.2 _ _ _ h1
          exact ih (E2, L2) r e1 log1 hW2 hpops2 hPC2 hGB2 hK2 hJ2 h

end C1Loop

/-- Optimality of the simplified A* engine: when grid positions identify
states injectively, the cost function is symmetric in its state arguments and
non-negative, and the heuristic is non-negative and admissible, then any
result `optimize` returns on a fresh engine in the presence of a minimum-cost
converging path is `Final` with exactly that minimum cost. -/
theorem AStar.optimize_minimum_model (fuel : Nat) (m : HeuristicModel σ κ π)
    (start goal : σ) (sampler : σ → List κ)
    (hInj : Function.Injective m.grid_position)
    (hSym : ∀ (s : σ) (c : κ) (t : σ), m.toModel.cost s c t = m.toModel.cost t c s)
    (hc : ∀ (s : σ) (c : κ) (t : σ), 0 ≤ m.toModel.cost s c t)
    (hh0 : ∀ (s g : σ), 0 ≤ m.heuristic s g)
    (hadm : ∀ (s : σ) (cs : List κ) (u : σ) (g : Int),
      runPath m.toModel sampler s cs = some (u, g) → m.converge u goal = true →
      m.heuristic s goal ≤ g)
    (cs0 : List κ) (t0 : σ) (g0 : Int)
    (hP : runPath m.toModel sampler start cs0 = some (t0, g0))
    (hconv : m.converge t0 goal = true)
    (hmin : ∀ (cs : List κ) (u : σ) (g : Int),
      runPath m.toModel sampler start cs = some (u, g) →
      m.converge u goal = true → g0 ≤ g)
    (r : PathResult σ κ) (e1 : AStar σ κ π)
    (h : AStar.optimize fuel m start goal sampler AStar.new = some (r, e1)) :
    ∃ t, r = .Final t ∧ t.cost = g0 := by
  cases hcv : m.converge start goal with
  | true =>
    unfold AStar.optimize at h
    rw [hcv] at h
    simp only [if_true, Option.some.injEq, Prod.mk.injEq] at h
    obtain ⟨hr, _⟩ := h
    have hg0le : g0 ≤ 0 := hmin [] start 0 rfl hcv
    have h0le : 0 ≤ g0 := runPath_nonneg m.toModel sampler hc cs0 start t0 g0 hP
    refine ⟨⟨0, [(start, m.default_control)]⟩, hr.symm, ?_⟩
    show (0 : Int) = g0
    omega
  | false =>
    unfold AStar.optimize at h
    rw [hcv] at h
    simp only [Bool.false_eq_true, if_false] at h
    rw [if_pos (by rfl)] at h
    have hT := AStar.optLoopT_fst m goal sampler fuel
      ({ (AStar.new : AStar σ κ π) with
          queue := (AStar.new : AStar σ κ π).queue ++ [AStar.seed m start goal] },
       (ALog.empty : ALog σ κ π))
    rw [h] at hT
    cases hTv : AStar.optLoopT m goal sampler fuel
        ({ (AStar.new : AStar σ κ π) with
            queue := (AStar.new : AStar σ κ π).queue ++ [AStar.seed m start goal] },
         (ALog.empty : ALog σ κ π)) with
    | none => rw [hTv] at hT; exact absurd hT (by simp)
    | some v =>
      obtain ⟨r1, E1, L1⟩ := v
      rw [hTv] at hT
      simp only [Option.map_some', Option.some.injEq, Prod.mk.injEq] at hT
      obtain ⟨hr1, he1⟩ := hT
      have hWnew : AStar.WfP m sampler start (AStar.new : AStar σ κ π) := by
        refine ⟨?_, ?_⟩ <;> intro kv hkv <;> simp [AStar.new] at hkv
      have hW0 := AStar.seed_wf m sampler start goal AStar.new hWnew
      obtain ⟨nd, hcvnd, hgle, hchain, hrf⟩ :=
        AStar.optLoopT_optimal m start goal sampler t0 g0 hInj hh0 hadm hconv
          fuel _ r1 E1 L1 hW0
          (by intro nd hnd; simp [ALog.empty] at hnd)
          (by intro nd hnd; simp [ALog.empty] at hnd)
          (by intro p b hb; simp [AStar.new, lookupL] at hb)
          (by
            intro kv hkv
            simp only [AStar.new, List.nil_append, List.mem_singleton] at hkv
            subst hkv
            exact ⟨by simp [AStar.seed], by
              simp only [AStar.seed]
              have := hh0 start goal
              omega⟩)
          ⟨0, (AStar.seed m start goal).2, cs0, g0,
            by simp [AStar.new, AStar.seed], hP, by
              simp only [AStar.seed]
              omega⟩
          hTv
      have hcost := AStar.unwind_cost_of_chain m sampler start E1 nd hSym hchain
      obtain ⟨csn, hcsn⟩ := AChain_runPath m sampler start E1.parent_map nd hchain
      have hge : g0 ≤ nd.id.g := hmin csn nd.state nd.id.g hcsn hcvnd
      refine ⟨AStar.unwind_trajectory m E1 nd, ?_, ?_⟩
      · rw [← hr1, hrf]
      · rw [hcost]
        omega

section C1Faithful

theorem rpushGe_some {V : Type} (top : Option Int) (q : List (Int × V))
    (key : Int) (v : V) (q1 : List (Int × V))
    (h : rpushGe top q key v = some q1) : q1 = q ++ [(key, v)] := by
  cases top with
  | none =>
    simp only [rpushGe, Option.some.injEq] at h
    exact h.symm
  | some t =>
    simp only [rpushGe] at h
    by_cases hle : t ≤ key
    · rw [if_pos hle] at h
      injection h with h1
      exact h1.symm
    · rw [if_neg hle] at h
      exact absurd h (by simp)

theorem AStarF.expand_sim (m : HeuristicModel σ κ π) (goal : σ)
    (current : ANode σ κ) (e : AStarF σ κ π) (c : κ) (e1 : AStarF σ κ π)
    (h : AStarF.expand m goal current e c = some e1) :
    AStar.expand m goal current (AStarF.strip e) c = AStarF.strip e1 := by
  obtain ⟨q, qt, pm, gr, ctr⟩ := e
  unfold AStarF.expand at h
  unfold AStar.expand AStarF.strip
  dsimp only at h ⊢
  cases hI : m.integrate current.state c with
  | none =>
    rw [hI] at h
    dsimp only
    injection h with h1
    subst h1
    rfl
  | some cs =>
    rw [hI] at h
    dsimp only at h ⊢
    cases hG : lookupL gr (m.grid_position cs) with
    | some best =>
      rw [hG] at h
      dsimp only at h ⊢
      by_cases hle : best.g ≤ current.id.g + m.cost current.state c cs
      · rw [if_pos hle] at h ⊢
        injection h with h1
        subst h1
        rfl
      · rw [if_neg hle] at h ⊢
        cases hpq : rpushGe qt q
            (current.id.g + m.cost current.state c cs + m.heuristic cs goal)
            ⟨⟨ctr + 1, current.id.g + m.cost current.state c cs + m.heuristic cs goal,
              current.id.g + m.cost current.state c cs⟩, cs, c⟩ with
        | none => rw [hpq] at h; exact absurd h (by simp)
        | some q1 =>
          rw [hpq] at h
          injection h with h1
          subst h1
          rw [rpushGe_some qt q _ _ q1 hpq]
    | none =>
      rw [hG] at h
      dsimp only at h ⊢
      cases hpq : rpushGe qt q
          (current.id.g + m.cost current.state c cs + m.heuristic cs goal)
          ⟨⟨ctr + 1, current.id.g + m.cost current.state c cs + m.heuristic cs goal,
            current.id.g + m.cost current.state c cs⟩, cs, c⟩ with
      | none => rw [hpq] at h; exact absurd h (by simp)
      | some q1 =>
        rw [hpq] at h
        injection h with h1
        subst h1
        rw [rpushGe_some qt q _ _ q1 hpq]

theorem AStarF.fold_sim (m : HeuristicModel σ κ π) (goal : σ)
    (current : ANode σ κ) :
    ∀ (l : List κ) (e e1 : AStarF σ κ π),
      AStarF.fold m goal current l e = some e1 →
      l.foldl (AStar.expand m goal current) (AStarF.strip e) = AStarF.strip e1 := by
  intro l
  induction l with
  | nil =>
    intro e e1 h
    simp only [AStarF.fold, Option.some.injEq] at h
    rw [h]
    rfl
  | cons c cs ih =>
    intro e e1 h
    rw [AStarF.fold] at h
    cases hx : AStarF.expand m goal current e c with
    | none => rw [hx] at h; exact absurd h (by simp)
    | some e2 =>
      rw [hx] at h
      simp only [List.foldl_cons]
      rw [AStarF.expand_sim m goal current e c e2 hx]
      exact ih e2 e1 h

theorem AStarF.step_sim (m : HeuristicModel σ κ π) (goal : σ)
    (sampler : σ → List κ) (current : ANode σ κ) (e : AStarF σ κ π)
    (done : Bool) (e2 : AStarF σ κ π)
    (h : AStarF.step m goal sampler current e = some (done, e2)) :
    AStar.step m goal sampler current (AStarF.strip e) = (done, AStarF.strip e2) := by
  cases hcv : m.converge current.state goal with
  | true =>
    unfold AStarF.step at h
    rw [hcv] at h
    simp only [if_true, Option.some.injEq, Prod.mk.injEq] at h
    obtain ⟨hd, he⟩ := h
    subst hd; subst he
    unfold AStar.step
    rw [hcv]
    rfl
  | false =>
    unfold AStarF.step at h
    rw [hcv] at h
    simp only [Bool.false_eq_true, if_false] at h
    unfold AStar.step
    rw [hcv]
    simp only [Bool.false_eq_true, if_false]
    cases hf : AStarF.fold m goal current (sampler current.state) e with
    | none => rw [hf] at h; exact absurd h (by simp)
    | some e3 =>
      rw [hf] at h
      simp only [Option.some.injEq, Prod.mk.injEq] at h
      obtain ⟨hd, he⟩ := h
      subst hd; subst he
      rw [AStarF.fold_sim m goal current _ e e3 hf]

theorem AStarF.optLoop_sim (m : HeuristicModel σ κ π) (goal : σ)
    (sampler : σ → List κ) :
    ∀ (fuel : Nat) (e : AStarF σ κ π) (pops : List (ANode σ κ))
      (r : PathResult σ κ) (e1 : AStarF σ κ π) (pops1 : List (ANode σ κ)),
      AStarF.optLoop m goal sampler fuel e pops = some (.ok r e1, pops1) →
      AStar.optLoop m goal sampler fuel (AStarF.strip e) = some (r, AStarF.strip e1) := by
  intro fuel
  induction fuel with
  | zero => intro e pops r e1 pops1 h; simp [AStarF.optLoop] at h
  | succ fuel ih =>
    intro e pops r e1 pops1 h
    rw [AStarF.optLoop] at h
    rw [AStar.optLoop]
    rw [show (AStarF.strip e).queue = e.queue from rfl]
    cases hp : popMin e.queue with
    | none =>
      rw [hp] at h
      simp only [Option.some.injEq, Prod.mk.injEq] at h
      obtain ⟨hre, hpops⟩ := h
      injection hre with h1 h2
      subst h1; subst h2
      rfl
    | some er =>
      obtain ⟨entry, rest⟩ := er
      rw [hp] at h
      dsimp only at h ⊢
      cases hs : AStarF.step m goal sampler entry.2
          { e with queue := rest, qtop := some entry.1 } with
      | none =>
        rw [hs] at h
        simp at h
      | some be =>
        obtain ⟨done, e2⟩ := be
        rw [hs] at h
        have hstep := AStarF.step_sim m goal sampler entry.2 _ done e2 hs
        rw [show ({ AStarF.strip e with queue := rest } : AStar σ κ π)
            = AStarF.strip { e with queue := rest, qtop := some entry.1 } from rfl]
        rw [hstep]
        cases done with
        | true =>
          dsimp only at h ⊢
          simp only [Option.some.injEq, Prod.mk.injEq] at h
          obtain ⟨hre, hpops⟩ := h
          injection hre with h1 h2
          subst h1; subst h2
          rfl
        | false =>
          dsimp only at h ⊢
          exact ih e2 (pops ++ [entry.2]) r e1 pops1 h

theorem AStarF.optimize_sim (fuel : Nat) (m : HeuristicModel σ κ π)
    (start goal : σ) (sampler : σ → List κ) (r : PathResult σ κ)
    (e1 : AStarF σ κ π) (pops : List (ANode σ κ))
    (h : AStarF.optimize fuel m start goal sampler AStarF.new
      = some (.ok r e1, pops)) :
    AStar.optimize fuel m start goal sampler AStar.new = some (r, AStarF.strip e1) := by
  cases hcv : m.converge start goal with
  | true =>
    unfold AStarF.optimize at h
    rw [hcv] at h
    simp only [if_true, Option.some.injEq, Prod.mk.injEq] at h
    obtain ⟨hre, hpops⟩ := h
    injection hre with h1 h2
    subst h1; subst h2
    unfold AStar.optimize
    rw [hcv]
    rfl
  | false =>
    unfold AStarF.optimize at h
    rw [hcv] at h
    simp only [Bool.false_eq_true, if_false] at h
    rw [if_pos (by rfl)] at h
    unfold AStar.optimize
    rw [hcv]
    simp only [Bool.false_eq_true, if_false]
    rw [if_pos (by rfl)]
    exact AStarF.optLoop_sim m goal sampler fuel _ [] r e1 pops h

end C1Faithful

/-- C1 (amended, A* engine only, over the contract-checking heap): when grid
positions identify states injectively, the cost function is symmetric in its
state arguments and non-negative, and the heuristic is non-negative and
admissible (it never exceeds the cost of any converging path), then any
non-panicking result `optimize` returns on a fresh A* engine in the presence
of a minimum-cost converging path is `Final` with exactly that minimum
cost. -/
theorem astar_optimize_minimum_cost (fuel : Nat) (m : HeuristicModel σ κ π)
    (start goal : σ) (sampler : σ → List κ)
    (hInj : Function.Injective m.grid_position)
    (hSym : ∀ (s : σ) (c : κ) (t : σ), m.toModel.cost s c t = m.toModel.cost t c s)
    (hc : ∀ (s : σ) (c : κ) (t : σ), 0 ≤ m.toModel.cost s c t)
    (hh0 : ∀ (s g : σ), 0 ≤ m.heuristic s g)
    (hadm : ∀ (s : σ) (cs : List κ) (u : σ) (g : Int),
      runPath m.toModel sampler s cs = some (u, g) → m.converge u goal = true →
      m.heuristic s goal ≤ g)
    (cs0 : List κ) (t0 : σ) (g0 : Int)
    (hP : runPath m.toModel sampler start cs0 = some (t0, g0))
    (hconv : m.converge t0 goal = true)
    (hmin : ∀ (cs : List κ) (u : σ) (g : Int),
      runPath m.toModel sampler start cs = some (u, g) →
      m.converge u goal = true → g0 ≤ g)
    (r : PathResult σ κ) (e1 : AStarF σ κ π) (pops : List (ANode σ κ))
    (h : AStarF.optimize fuel m start goal sampler AStarF.new
      = some (.ok r e1, pops)) :
    ∃ t, r = .Final t ∧ t.cost = g0 :=
  AStar.optimize_minimum_model fuel m start goal sampler hInj hSym hc hh0 hadm
    cs0 t0 g0 hP hconv hmin r (AStarF.strip e1)
    (AStarF.optimize_sim fuel m start goal sampler r e1 pops h)

/-- C1 witness: the amended A* optimality theorem applied to the two-state
unit-cost model with the zero heuristic: the contract-checking `optimize`
completes without panicking and returns `Final` with cost 1, the cost of the
unique (minimal) converging path. -/
theorem astar_optimize_minimum_cost_witness :
    ∃ t, (PathResult.Final ⟨1, [(0, 7), (1, 0)]⟩ : PathResult Nat Nat) = .Final t ∧
      t.cost = 1 :=
  astar_optimize_minimum_cost 5 mUnitH 0 1 samplerSingle
    (fun a b h => h)
    (fun _ _ _ => rfl)
    (fun _ _ _ => zero_le_one)
    (fun _ _ => le_refl 0)
    (fun s cs u g hr _ =>
      runPath_nonneg mUnit samplerSingle (fun _ _ _ => zero_le_one) cs s u g hr)
    [0] 1 1 (by decide) (by decide)
    (fun cs u g hr hcv => mUnit_minpath cs u g hr hcv)
    (.Final ⟨1, [(0, 7), (1, 0)]⟩)
    ⟨[], some 1, [(1, ⟨⟨0, 0, 0⟩, 0, 7⟩)], [(1, ⟨1, 1, 1⟩)], 1⟩
    [⟨⟨0, 0, 0⟩, 0, 7⟩, ⟨⟨1, 1, 1⟩, 1, 0⟩]
    (by decide)
